import Mathlib

/-!
# Expression templates over numeric vectors (`ET/et.h`)

A shallow embedding of the expression-template header `ET/et.h`:

* the type-promotion table `_return_type` and the predicate `_is_numeric`;
* the four element operators `op_add`, `op_sub`, `op_mul`, `op_div`;
* the three node classes `vec_vec_exp`, `vec_scalar_exp`, `scalar_vec_exp`
  with their `size()` and `operator[]`;
* the owning container `vector<stored>` with its constructors, destructor and
  the assignment from an expression, over an explicit heap.

Conventions of the embedding.

* Integer element types are two's-complement: `char` 8, `short` 16, `int` 32 and
  `long int` 64 bits.  A value is an `Int`; every conversion to an integer
  type and every integer `+`, `-`, `*` reduces modulo `2 ^ w` into the signed
  range.  Division by zero traps, and so does the one overflowing quotient
  of `int` and `long int` (the most negative value divided by `-1`).
* The floating types are those of the host.  Their carrier and operations are
  the parameter `HostFloat`; nothing about rounding is assumed.
* `new` never fails for a non-negative size and never hands out an address
  twice; a block that was released by `delete[]` is dead, and any access to a
  dead block is an error.
* Sizes are natural numbers.  Every vector is created by `vector(int n)` or
  from an expression over such vectors, so a size always fits the `int` loop
  counters of the source.
-/

namespace et

/-! ## Element types and the promotion table -/

/-- The four integer element types. -/
inductive IntTy
  | char | short | int | long
  deriving DecidableEq, Repr

/-- The two floating element types. -/
inductive FltTy
  | float | double
  deriving DecidableEq, Repr

/-- A C++ type as far as the header distinguishes them: the six types it lists
and any other type, known by its name. -/
inductive CType
  | i (t : IntTy)
  | f (t : FltTy)
  | other (name : String)
  deriving DecidableEq, Repr

namespace CType

/-- The type `char`. -/
@[match_pattern] abbrev char : CType := .i .char
/-- The type `short`. -/
@[match_pattern] abbrev short : CType := .i .short
/-- The type `int`. -/
@[match_pattern] abbrev int : CType := .i .int
/-- The type `long int`. -/
@[match_pattern] abbrev long : CType := .i .long
/-- The type `float`. -/
@[match_pattern] abbrev float : CType := .f .float
/-- The type `double`. -/
@[match_pattern] abbrev double : CType := .f .double

end CType

/-- Bit width of an integer element type. -/
def IntTy.bits : IntTy → Nat
  | .char => 8
  | .short => 16
  | .int => 32
  | .long => 64

/-- The template `_is_numeric<T>::value`: `false` in the primary template, `true` in
the six specialisations. -/
def _is_numeric : CType → Bool
  | .char => true
  | .short => true
  | .int => true
  | .long => true
  | .float => true
  | .double => true
  | _ => false

/-- The explicit specialisations of `_return_type<L,R>`, in the order of the
source; `none` where only the primary template (which has no member `type`)
matches. -/
def _return_type_table : CType → CType → Option CType
  -- char promotion
  | .char, .short => some .short
  | .short, .char => some .short
  | .char, .int => some .int
  | .int, .char => some .int
  | .char, .long => some .long
  | .long, .char => some .long
  | .char, .float => some .float
  | .float, .char => some .float
  | .char, .double => some .double
  | .double, .char => some .double
  -- short promotion
  | .short, .int => some .int
  | .int, .short => some .int
  | .long, .short => some .long
  | .short, .long => some .long
  | .short, .float => some .float
  | .float, .short => some .float
  | .short, .double => some .double
  | .double, .short => some .double
  -- int promotion
  | .int, .long => some .long
  | .long, .int => some .long
  | .int, .float => some .float
  | .float, .int => some .float
  | .int, .double => some .double
  | .double, .int => some .double
  -- long int promotion
  | .long, .float => some .float
  | .float, .long => some .float
  | .long, .double => some .double
  | .double, .long => some .double
  -- float promotion
  | .float, .double => some .double
  | .double, .float => some .double
  | _, _ => none

/-- The template `_return_type<L,R>::type`: the partial specialisation `<T,T>` gives
`T`, the explicit specialisations give the table, and any other pair has no
member `type`. -/
def _return_type (L R : CType) : Option CType :=
  if L = R then some L else _return_type_table L R

/-! ## Values and host arithmetic -/

/-- The floating-point arithmetic of the host: a carrier for the values of
`float` and `double` and the operations the header uses on them. -/
structure HostFloat where
  /-- The floating-point values. -/
  F : Type
  /-- Equality of floating-point values is decidable. -/
  decEq : DecidableEq F
  /-- Conversion of an integer to the given floating type. -/
  ofInt : FltTy → Int → F
  /-- Conversion `float → double`. -/
  widen : F → F
  /-- Conversion `double → float`. -/
  narrow : F → F
  /-- Truncation toward zero; `none` for a value without an integer part. -/
  trunc : F → Option Int
  /-- Addition in the given floating type. -/
  add : FltTy → F → F → F
  /-- Subtraction in the given floating type. -/
  sub : FltTy → F → F → F
  /-- Multiplication in the given floating type. -/
  mul : FltTy → F → F → F
  /-- Division in the given floating type. -/
  div : FltTy → F → F → F

instance (H : HostFloat) : DecidableEq H.F := H.decEq

/-- A host whose floating types are the exact rationals: no rounding, and a
quotient by zero is zero.  It serves to run the definitions on concrete
inputs. -/
@[reducible] def exactHost : HostFloat where
  F := ℚ
  decEq := inferInstance
  ofInt := fun _ z => (z : ℚ)
  widen := id
  narrow := id
  trunc := fun q => some (Int.tdiv q.num q.den)
  add := fun _ x y => x + y
  sub := fun _ x y => x - y
  mul := fun _ x y => x * y
  div := fun _ x y => x / y

/-- What can go wrong while the program runs. -/
inductive Err
  /-- The string thrown by the constructor of `vec_vec_exp`. -/
  | dimensionMismatch
  /-- Integer division by zero. -/
  | divByZero
  /-- Integer division of the most negative value by `-1`. -/
  | divOverflow
  /-- Conversion of a floating value outside the range of the integer type. -/
  | floatToInt
  /-- Access through a null `m_data`. -/
  | nullDeref
  /-- Access to a block that is not live. -/
  | deadBlock
  /-- Access past the end of a block. -/
  | outOfBounds
  /-- Read of an element that was never written. -/
  | uninitRead
  /-- The expression `new stored[n]` with a negative `n`. -/
  | badArrayLength
  /-- The pair of operand types has no `_return_type<L,R>::type`. -/
  | noReturnType
  /-- Arithmetic on a value whose type is outside the six numeric types. -/
  | notNumeric
  /-- No operator overload is viable: the program is rejected when it is built. -/
  | noOverload
  deriving DecidableEq, Repr

deriving instance DecidableEq for Except

/-- A scalar value together with its C++ type. -/
inductive Val (H : HostFloat)
  | int (t : IntTy) (v : Int)
  | flt (t : FltTy) (x : H.F)
  | other (name : String)
  deriving DecidableEq

variable {H : HostFloat}

/-- The C++ type of a value. -/
def Val.type : Val H → CType
  | .int t _ => .i t
  | .flt t _ => .f t
  | .other n => .other n

/-- Reduction of an integer into the signed range of `w` bits. -/
def wrapBits (w : Nat) (z : Int) : Int :=
  (z + 2 ^ (w - 1)) % 2 ^ w - 2 ^ (w - 1)

/-- Reduction of an integer into the range of an integer type. -/
def wrap (t : IntTy) (z : Int) : Int := wrapBits t.bits z

/-- Whether an integer lies in the range of an integer type. -/
def inRange (t : IntTy) (z : Int) : Bool :=
  decide (-(2 ^ (t.bits - 1)) ≤ z) && decide (z < 2 ^ (t.bits - 1))

/-- Conversion between the floating types. -/
def cvtFlt (H : HostFloat) : FltTy → FltTy → H.F → H.F
  | .float, .double, x => H.widen x
  | .double, .float, x => H.narrow x
  | _, _, x => x

/-- The conversion `T(x)` of a value to the type `T`, as in `ret_type(l)` and in
the store `m_data[i] = rhs[i]`. -/
def convert (T : CType) (x : Val H) : Except Err (Val H) :=
  match T, x with
  | .i t, .int _ v => .ok (.int t (wrap t v))
  | .i t, .flt _ y =>
    match H.trunc y with
    | some z => if inRange t z then .ok (.int t z) else .error .floatToInt
    | none => .error .floatToInt
  | .f t, .int _ v => .ok (.flt t (H.ofInt t v))
  | .f t, .flt s y => .ok (.flt t (cvtFlt H s t y))
  | _, _ => .error .notNumeric

/-! ## The element operators -/

/-- The sum `a + b` of two values that were converted to one type. -/
def Val.plus : Val H → Val H → Except Err (Val H)
  | .int t x, .int _ y => .ok (.int t (wrap t (x + y)))
  | .flt t x, .flt _ y => .ok (.flt t (H.add t x y))
  | _, _ => .error .notNumeric

/-- The difference `a - b` of two values that were converted to one type. -/
def Val.minus : Val H → Val H → Except Err (Val H)
  | .int t x, .int _ y => .ok (.int t (wrap t (x - y)))
  | .flt t x, .flt _ y => .ok (.flt t (H.sub t x y))
  | _, _ => .error .notNumeric

/-- The product `a * b` of two values that were converted to one type. -/
def Val.times : Val H → Val H → Except Err (Val H)
  | .int t x, .int _ y => .ok (.int t (wrap t (x * y)))
  | .flt t x, .flt _ y => .ok (.flt t (H.mul t x y))
  | _, _ => .error .notNumeric

/-- The quotient `a / b` of two values that were converted to one type.  Integer
division truncates toward zero; `char` and `short` operands are divided as
`int` and the quotient is converted back. -/
def Val.quot : Val H → Val H → Except Err (Val H)
  | .int t x, .int _ y =>
    if y = 0 then .error .divByZero
    else if 32 ≤ t.bits ∧ x = -(2 ^ (t.bits - 1)) ∧ y = -1 then .error .divOverflow
    else .ok (.int t (wrap t (Int.tdiv x y)))
  | .flt t x, .flt _ y => .ok (.flt t (H.div t x y))
  | _, _ => .error .notNumeric

/-- The shared shape of the four functors: look up `ret_type`, convert both
operands to it, and combine them there. -/
def promoted (f : Val H → Val H → Except Err (Val H)) (l r : Val H) :
    Except Err (Val H) :=
  match _return_type l.type r.type with
  | none => .error .noReturnType
  | some ret_type =>
    match convert ret_type l, convert ret_type r with
    | .ok a, .ok b => f a b
    | .error e, _ => .error e
    | _, .error e => .error e

/-- The functor `op_add::operator()`: `ret_type(l) + ret_type(r)`. -/
def op_add (l r : Val H) : Except Err (Val H) := promoted Val.plus l r

/-- The functor `op_sub::operator()`: `ret_type(l) - ret_type(r)`. -/
def op_sub (l r : Val H) : Except Err (Val H) := promoted Val.minus l r

/-- The functor `op_mul::operator()`: `ret_type(l) * ret_type(r)`. -/
def op_mul (l r : Val H) : Except Err (Val H) := promoted Val.times l r

/-- The functor `op_div::operator()`: `ret_type(l) / ret_type(r)`. -/
def op_div (l r : Val H) : Except Err (Val H) := promoted Val.quot l r

/-- The template argument `OP` of a node: one of the four functor classes. -/
inductive Op
  | op_add | op_sub | op_mul | op_div
  deriving DecidableEq, Repr

/-- The call `m_op(l, r)` of the functor a node holds. -/
def Op.call : Op → Val H → Val H → Except Err (Val H)
  | .op_add => et.op_add
  | .op_sub => et.op_sub
  | .op_mul => et.op_mul
  | .op_div => et.op_div

/-! ## Vectors, the heap and expression nodes -/

/-- The data members of a `vector<stored>` object, with its template argument. -/
structure vector where
  /-- The template argument. -/
  stored : CType
  /-- The flag `m_own_data`. -/
  m_own_data : Bool
  /-- The member `m_size`. -/
  m_size : Nat
  /-- The pointer `m_data`: `none` is `NULL`, `some a` the address of a block. -/
  m_data : Option Nat
  deriving DecidableEq, Repr

/-- The free store: the live blocks by address (`none` for an address that is
not live), each a list of elements (`none` for an element never written), and
the next address `new` hands out. -/
structure Heap (H : HostFloat) where
  /-- The block at each address. -/
  blocks : Nat → Option (List (Option (Val H)))
  /-- The next fresh address. -/
  next : Nat

/-- The state of a program: its vector objects, by name, and the heap. -/
structure State (H : HostFloat) where
  /-- The vector objects. -/
  vecs : Nat → vector
  /-- The free store. -/
  heap : Heap H

/-- An expression: a `vector` (held by reference, so by the name of the object)
or one of the three node classes with its functor. -/
inductive Exp (H : HostFloat)
  | vector (id : Nat)
  | vec_vec_exp (op : Op) (m_L m_R : Exp H)
  | vec_scalar_exp (op : Op) (m_L : Exp H) (m_R : Val H)
  | scalar_vec_exp (op : Op) (m_L : Val H) (m_R : Exp H)

/-- The read `m_data[id]` of an element of a block. -/
def Heap.read (h : Heap H) (p : Option Nat) (id : Nat) : Except Err (Val H) :=
  match p with
  | none => .error .nullDeref
  | some a =>
    match h.blocks a with
    | none => .error .deadBlock
    | some b =>
      match b.get? id with
      | none => .error .outOfBounds
      | some none => .error .uninitRead
      | some (some x) => .ok x

/-- The member `vector::operator[]` (read): `m_data[id]`. -/
def vector.get (h : Heap H) (v : vector) (id : Nat) : Except Err (Val H) :=
  h.read v.m_data id

namespace Exp

/-- The names of the vectors an expression refers to. -/
def leaves : Exp H → List Nat
  | .vector id => [id]
  | .vec_vec_exp _ l r => l.leaves ++ r.leaves
  | .vec_scalar_exp _ l _ => l.leaves
  | .scalar_vec_exp _ _ r => r.leaves

/-- The typedef `stored_type` of each class; `none` when a `_return_type` on the way
has no member `type`. -/
def stored_type (st : State H) : Exp H → Option CType
  | .vector id => some (st.vecs id).stored
  | .vec_vec_exp _ l r =>
    match l.stored_type st, r.stored_type st with
    | some left_stored_type, some right_stored_type =>
      _return_type left_stored_type right_stored_type
    | _, _ => none
  | .vec_scalar_exp _ l k =>
    match l.stored_type st with
    | some left_stored_type => _return_type left_stored_type k.type
    | none => none
  | .scalar_vec_exp _ k r =>
    match r.stored_type st with
    | some right_stored_type => _return_type k.type right_stored_type
    | none => none

/-- The member `size()` of each class. -/
def size (st : State H) : Exp H → Nat
  | .vector id => (st.vecs id).m_size
  | .vec_vec_exp _ l _ => l.size st
  | .vec_scalar_exp _ l _ => l.size st
  | .scalar_vec_exp _ _ r => r.size st

/-- The member `operator[]` of each class: the element at `id`, computed on
demand. -/
def get (st : State H) : Exp H → Nat → Except Err (Val H)
  | .vector v, id => (st.vecs v).get st.heap id
  | .vec_vec_exp op l r, id =>
    match l.get st id, r.get st id with
    | .ok x, .ok y => op.call x y
    | .error e, _ => .error e
    | _, .error e => .error e
  | .vec_scalar_exp op l k, id =>
    match l.get st id with
    | .ok x => op.call x k
    | .error e => .error e
  | .scalar_vec_exp op k r, id =>
    match r.get st id with
    | .ok y => op.call k y
    | .error e => .error e

/-- The element `rhs[id]` as a value of the type `stored`: what the right side of
`m_data[i] = rhs[i]` yields for a block of `stored`. -/
def getAs (stored : CType) (st : State H) (rhs : Exp H) (id : Nat) : Except Err (Val H) :=
  match rhs.get st id with
  | .ok x => convert stored x
  | .error e => .error e

end Exp

/-! ## Construction of nodes and the operator overloads -/

/-- The constructor of `vec_vec_exp`: it throws when the sizes differ. -/
def new_vec_vec_exp (st : State H) (op : Op) (left right : Exp H) :
    Except Err (Exp H) :=
  if left.size st ≠ right.size st then .error .dimensionMismatch
  else .ok (.vec_vec_exp op left right)

/-- The constructor of `vec_scalar_exp`. -/
def new_vec_scalar_exp (op : Op) (left : Exp H) (right : Val H) : Exp H :=
  .vec_scalar_exp op left right

/-- The constructor of `scalar_vec_exp`. -/
def new_scalar_vec_exp (op : Op) (left : Val H) (right : Exp H) : Exp H :=
  .scalar_vec_exp op left right

/-- The gate `_enable_if<_is_numeric<S>::value, ...>`: the overload exists only for
a scalar of numeric type. -/
def _enable_if (cond : Bool) (node : Exp H) : Except Err (Exp H) :=
  if cond then .ok node else .error .noOverload

/-- The overload `operator+(vec_exp, vec_exp)`. -/
def operator_plus_vv (st : State H) (left right : Exp H) : Except Err (Exp H) :=
  new_vec_vec_exp st .op_add left right

/-- The overload `operator+(vec_exp, scalar)`. -/
def operator_plus_vs (left : Exp H) (right : Val H) : Except Err (Exp H) :=
  _enable_if (_is_numeric right.type) (new_vec_scalar_exp .op_add left right)

/-- The overload `operator+(scalar, vec_exp)`. -/
def operator_plus_sv (left : Val H) (right : Exp H) : Except Err (Exp H) :=
  _enable_if (_is_numeric left.type) (new_scalar_vec_exp .op_add left right)

/-- The overload `operator-(vec_exp, vec_exp)`. -/
def operator_minus_vv (st : State H) (left right : Exp H) : Except Err (Exp H) :=
  new_vec_vec_exp st .op_sub left right

/-- The overload `operator-(vec_exp, scalar)`. -/
def operator_minus_vs (left : Exp H) (right : Val H) : Except Err (Exp H) :=
  _enable_if (_is_numeric right.type) (new_vec_scalar_exp .op_sub left right)

/-- The overload `operator-(scalar, vec_exp)`. -/
def operator_minus_sv (left : Val H) (right : Exp H) : Except Err (Exp H) :=
  _enable_if (_is_numeric left.type) (new_scalar_vec_exp .op_sub left right)

/-- The overload `operator*(vec_exp, scalar)`. -/
def operator_times_vs (left : Exp H) (right : Val H) : Except Err (Exp H) :=
  _enable_if (_is_numeric right.type) (new_vec_scalar_exp .op_mul left right)

/-- The overload `operator*(scalar, vec_exp)`. -/
def operator_times_sv (left : Val H) (right : Exp H) : Except Err (Exp H) :=
  _enable_if (_is_numeric left.type) (new_scalar_vec_exp .op_mul left right)

/-- The overload `operator/(vec_exp, scalar)`. -/
def operator_div_vs (left : Exp H) (right : Val H) : Except Err (Exp H) :=
  _enable_if (_is_numeric right.type) (new_vec_scalar_exp .op_div left right)

/-! ## The container `vector<stored>` -/

/-- The expression `new stored[n]`: a fresh block of `n` elements, none of them
written yet. -/
def Heap.alloc (h : Heap H) (n : Nat) : Nat × Heap H :=
  (h.next,
    { blocks := Function.update h.blocks h.next (some (List.replicate n none))
      next := h.next + 1 })

/-- The statement `delete [] p` for a non-null `p`. -/
def Heap.free (h : Heap H) (a : Nat) : Except Err (Heap H) :=
  match h.blocks a with
  | none => .error .deadBlock
  | some _ => .ok { h with blocks := Function.update h.blocks a none }

/-- The store `m_data[id] = x` into a block. -/
def Heap.write (h : Heap H) (p : Option Nat) (id : Nat) (x : Val H) :
    Except Err (Heap H) :=
  match p with
  | none => .error .nullDeref
  | some a =>
    match h.blocks a with
    | none => .error .deadBlock
    | some b =>
      if id < b.length then
        .ok { h with blocks := Function.update h.blocks a (some (b.set id (some x))) }
      else .error .outOfBounds

/-- The loop `for( int i=i0; i<i0+count; ++i ) body`, over a state the body
threads. -/
def forLoop {σ : Type} (body : Nat → σ → Except Err σ) : Nat → Nat → σ → Except Err σ
  | 0, _, s => .ok s
  | count + 1, i, s =>
    match body i s with
    | .error e => .error e
    | .ok s1 => forLoop body count (i + 1) s1

namespace vector

/-- The default constructor `vector()`. -/
def default (stored : CType) : vector :=
  { stored := stored, m_own_data := false, m_size := 0, m_data := none }

/-- The constructor `vector( const int n )`. -/
def sized (stored : CType) (h : Heap H) (n : Int) : Except Err (vector × Heap H) :=
  if n < 0 then .error .badArrayLength
  else
    let (a, h1) := h.alloc n.toNat
    .ok ({ stored := stored, m_own_data := true, m_size := n.toNat, m_data := some a }, h1)

/-- The statement `if( m_own_data && m_data ){ delete [] m_data; }` of the destructor
and of `operator=`. -/
def release (h : Heap H) (v : vector) : Except Err (Heap H) :=
  match v.m_own_data, v.m_data with
  | true, some a => h.free a
  | _, _ => .ok h

/-- The destructor `~vector()`. -/
def destroy (h : Heap H) (v : vector) : Except Err (vector × Heap H) :=
  match release h v with
  | .error e => .error e
  | .ok h1 => .ok ({ v with m_own_data := false, m_data := none, m_size := 0 }, h1)

/-- The body `m_data[i] = rhs[i]` of the loop that evaluates an expression into
a block of element type `stored`. -/
def storeElement (stored : CType) (vecs : Nat → vector) (rhs : Exp H)
    (m_data : Option Nat) (i : Nat) (h : Heap H) : Except Err (Heap H) :=
  match rhs.getAs stored { vecs := vecs, heap := h } i with
  | .error e => .error e
  | .ok y => h.write m_data i y

/-- The constructor `vector( const vec_exp<vec_type>& _rhs )`: the new object and
the heap after it. -/
def ofExp (stored : CType) (st : State H) (rhs : Exp H) :
    Except Err (vector × Heap H) :=
  let m_size := rhs.size st
  let (a, h1) := st.heap.alloc m_size
  match forLoop (storeElement stored st.vecs rhs (some a)) m_size 0 h1 with
  | .error e => .error e
  | .ok h2 =>
    .ok ({ stored := stored, m_own_data := true, m_size := m_size, m_data := some a }, h2)

/-- The body `m_data[i] = tmp[i]` of the loop in `operator=`. -/
def copyElement (tmp : vector) (m_data : Option Nat) (i : Nat) (h : Heap H) :
    Except Err (Heap H) :=
  match tmp.get h i with
  | .error e => .error e
  | .ok x => h.write m_data i x

/-- The member `operator=( const vec_exp<vec_type>& _rhs )` of the vector named
`this`, statement by statement. -/
def assign (st : State H) (this : Nat) (rhs : Exp H) : Except Err (State H) :=
  let v := st.vecs this
  -- if( m_own_data && m_data ) delete [] m_data;
  match release st.heap v with
  | .error e => .error e
  | .ok h1 =>
    -- vector<stored> tmp( _rhs );
    match ofExp v.stored { vecs := st.vecs, heap := h1 } rhs with
    | .error e => .error e
    | .ok (tmp, h2) =>
      -- m_own_data = true;
      let vecs1 := Function.update st.vecs this { v with m_own_data := true }
      -- m_size = rhs.size();
      let m_size := rhs.size { vecs := vecs1, heap := h2 }
      let vecs2 := Function.update vecs1 this { vecs1 this with m_size := m_size }
      -- m_data = new stored[ m_size ];
      let (a, h3) := h2.alloc m_size
      let vecs3 := Function.update vecs2 this { vecs2 this with m_data := some a }
      -- for( int i=0; i<m_size; ++i ) m_data[i] = tmp[i];
      match forLoop (copyElement tmp (vecs3 this).m_data) (vecs3 this).m_size 0 h3 with
      | .error e => .error e
      | .ok h4 =>
        -- the destructor of tmp
        match tmp.destroy h4 with
        | .error e => .error e
        | .ok (_, h5) => .ok { vecs := vecs3, heap := h5 }

/-- The member `operator[]( const size_t id )` used as `v[id] = x`: a store into the
block, the value converted to `stored`. -/
def set (h : Heap H) (v : vector) (id : Nat) (x : Val H) : Except Err (Heap H) :=
  match convert v.stored x with
  | .error e => .error e
  | .ok y => h.write v.m_data id y

end vector

/-! ## Auxiliary definitions for the statements -/

/-- The six numeric types, in the order of the source. -/
def numericTypes : List CType :=
  [.char, .short, .int, .long, .float, .double]

/-- The wider of two integer types. -/
def IntTy.wider (a b : IntTy) : IntTy := if a.bits ≤ b.bits then b else a

/-- The arithmetic a functor performs once both operands have the type
`ret_type`. -/
def Op.arith : Op → Val H → Val H → Except Err (Val H)
  | .op_add => Val.plus
  | .op_sub => Val.minus
  | .op_mul => Val.times
  | .op_div => Val.quot

/-- The construction of a tree again from its leaves, bottom-up, through the
constructors of the node classes: it fails where a constructor throws. -/
def Exp.rebuild (st : State H) : Exp H → Except Err (Exp H)
  | .vector id => .ok (.vector id)
  | .vec_vec_exp op l r =>
    match l.rebuild st, r.rebuild st with
    | .ok left, .ok right => new_vec_vec_exp st op left right
    | .error e, _ => .error e
    | _, .error e => .error e
  | .vec_scalar_exp op l k =>
    match l.rebuild st with
    | .ok left => .ok (new_vec_scalar_exp op left k)
    | .error e => .error e
  | .scalar_vec_exp op k r =>
    match r.rebuild st with
    | .ok right => .ok (new_scalar_vec_exp op k right)
    | .error e => .error e

/-- The expression `1.05 + 0.5f*C + B*int(2) - 2` of `main` in `et_test.cpp`, built
by the operator overloads in the order C++ applies them; `d` and `s` are the
host values of the literals `1.05` and `0.5f`. -/
def test_expression (st : State H) (B C : Nat) (d s : H.F) : Except Err (Exp H) :=
  match operator_times_sv (.flt .float s) (.vector C) with
  | .error e => .error e
  | .ok t1 =>
    match operator_plus_sv (.flt .double d) t1 with
    | .error e => .error e
    | .ok t2 =>
      match operator_times_vs (.vector B) (.int .int 2) with
      | .error e => .error e
      | .ok t3 =>
        match operator_plus_vv st t2 t3 with
        | .error e => .error e
        | .ok t4 => operator_minus_vs t4 (.int .int 2)

/-- A state with one vector object, named `0`, of the given element type and
contents, and every other name an empty vector. -/
def oneVector (H : HostFloat) (stored : CType) (xs : List (Val H)) : State H :=
  { vecs := fun id =>
      if id = 0 then
        { stored := stored, m_own_data := true, m_size := xs.length, m_data := some 0 }
      else vector.default stored
    heap :=
      { blocks := fun a => if a = 0 then some (xs.map some) else none
        next := 1 } }

/-- A state with two vector objects, named `0` and `1`, of the given element
types and contents, and every other name an empty vector. -/
def twoVectors (H : HostFloat) (s0 : CType) (xs : List (Val H)) (s1 : CType)
    (ys : List (Val H)) : State H :=
  { vecs := fun id =>
      if id = 0 then
        { stored := s0, m_own_data := true, m_size := xs.length, m_data := some 0 }
      else if id = 1 then
        { stored := s1, m_own_data := true, m_size := ys.length, m_data := some 1 }
      else vector.default s0
    heap :=
      { blocks := fun a =>
          if a = 0 then some (xs.map some) else if a = 1 then some (ys.map some) else none
        next := 2 } }

/-- Every vector an expression refers to holds either `NULL` or an address that
`new` has handed out. -/
def Exp.allocated (st : State H) (e : Exp H) : Bool :=
  e.leaves.all fun id =>
    match (st.vecs id).m_data with
    | none => true
    | some a => decide (a < st.heap.next)

/-- An expression does not refer to the vector named `this`, nor to a vector that
holds the same block. -/
def Exp.apartFrom (st : State H) (e : Exp H) (this : Nat) : Bool :=
  e.leaves.all fun id =>
    decide (id ≠ this) &&
      (match (st.vecs id).m_data with
      | none => true
      | some a => decide ((st.vecs this).m_data ≠ some a))

/-- The block an owning vector holds is live, so that `delete []` on it is
defined. -/
def vector.sound (h : Heap H) (v : vector) : Bool :=
  match v.m_own_data, v.m_data with
  | true, some a => (h.blocks a).isSome
  | _, _ => true

/-- The heap after the release of the block of a vector. -/
def releasedHeap (h : Heap H) (v : vector) : Heap H :=
  match v.m_own_data, v.m_data with
  | true, some a => ⟨Function.update h.blocks a none, h.next⟩
  | _, _ => h

/-- The block that holds the values `ys 0, ..., ys (n - 1)`. -/
def filledBlock (n : Nat) (ys : Nat → Val H) : List (Option (Val H)) :=
  (List.range' 0 n).map (fun j => some (ys j))

/-- The state after `operator=` has run to its end on the vector `this`, with `n`
the size of the right side and `ys` its converted elements: the old block of
`this` released, the block of the temporary allocated and released again, and
`this` the owner of the block after it. -/
def assignedState (st : State H) (this n : Nat) (ys : Nat → Val H) : State H :=
  { vecs := Function.update st.vecs this
      { stored := (st.vecs this).stored, m_own_data := true, m_size := n,
        m_data := some (st.heap.next + 1) }
    heap :=
      ⟨Function.update
        (Function.update
          (Function.update (releasedHeap st.heap (st.vecs this)).blocks st.heap.next
            (some (filledBlock n ys)))
          (st.heap.next + 1) (some (filledBlock n ys)))
        st.heap.next none,
      st.heap.next + 2⟩ }

/-- The list of `int` values with the given numbers. -/
def ints (H : HostFloat) (zs : List Int) : List (Val H) := zs.map (Val.int .int)

/-! ## Definitions for the statements on the type algebra -/

/-- The position of a type in the order `char < short < int < long int < float <
double`; every other type is placed after them. -/
def CType.rank : CType → Nat
  | .char => 0
  | .short => 1
  | .int => 2
  | .long => 3
  | .float => 4
  | .double => 5
  | .other _ => 6

/-- The larger of two types in that order. -/
def CType.max (L R : CType) : CType := if L.rank ≤ R.rank then R else L

/-- The element types that enter a tree: the element type of each vector and the
type of each scalar, from left to right. -/
def Exp.types (st : State H) : Exp H → List CType
  | .vector id => [(st.vecs id).stored]
  | .vec_vec_exp _ l r => l.types st ++ r.types st
  | .vec_scalar_exp _ l k => l.types st ++ [k.type]
  | .scalar_vec_exp _ k r => k.type :: r.types st

/-! ## A host with binary floating-point rounding -/

/-- The number of binary digits of `n`, for any `fuel` not below it. -/
def bitsAux : Nat → Nat → Nat
  | 0, _ => 0
  | fuel + 1, n => if n = 0 then 0 else bitsAux fuel (n / 2) + 1

/-- The number of binary digits of `n`. -/
def bitLength (n : Nat) : Nat := bitsAux n n

/-- The fraction `n / d` of two positive numbers, rounded to `p` significant bits
with ties to the even mantissa: the triple `(m, up, down)` stands for
`m * 2 ^ up / 2 ^ down`. -/
def roundFrac (p n d : Nat) : Nat × Nat × Nat :=
  -- the exponent of the last kept bit, first guess: `n / (d * 2 ^ e)` has `p` or `p + 1` bits
  let e : Int := (bitLength n : Int) - (bitLength d : Int) - (p : Int)
  let num := n * 2 ^ (-e).toNat
  let den := d * 2 ^ e.toNat
  -- one more bit to drop when the quotient has `p + 1` bits
  let drop : Bool := decide (2 ^ p ≤ num / den)
  let den1 := if drop then den * 2 else den
  let e1 : Int := if drop then e + 1 else e
  let m := num / den1
  let r := num % den1
  let m1 := if den1 < 2 * r ∨ (2 * r = den1 ∧ m % 2 = 1) then m + 1 else m
  (m1, e1.toNat, (-e1).toNat)

/-- The value of a triple of `roundFrac`. -/
def scale (m : Nat × Nat × Nat) : ℚ := (m.1 : ℚ) * 2 ^ m.2.1 / 2 ^ m.2.2

/-- The rational `q` rounded to the nearest number with `p` significant bits,
ties to even, with no bound on the exponent. -/
def roundBits (p : Nat) (q : ℚ) : ℚ :=
  if q = 0 then 0
  else if q < 0 then -(scale (roundFrac p q.num.natAbs q.den))
  else scale (roundFrac p q.num.natAbs q.den)

/-- The significant bits of the two floating types: 24 for `float`, 53 for
`double`. -/
def FltTy.precision : FltTy → Nat
  | .float => 24
  | .double => 53

/-- A host with binary floating-point arithmetic: every operation gives the
exact result rounded to the precision of its type, to nearest with ties to
even.  It agrees with IEEE 754 arithmetic wherever the operands and the
result are finite and in the normal range; overflow, subnormal numbers,
infinities and NaN are not part of it (a quotient by zero is zero). -/
@[reducible] def roundingHost : HostFloat where
  F := ℚ
  decEq := inferInstance
  ofInt := fun t z => roundBits t.precision (z : ℚ)
  widen := id
  narrow := roundBits 24
  trunc := fun q => some (Int.tdiv q.num q.den)
  add := fun t x y => roundBits t.precision (x + y)
  sub := fun t x y => roundBits t.precision (x - y)
  mul := fun t x y => roundBits t.precision (x * y)
  div := fun t x y => roundBits t.precision (x / y)

/-! ## The output operator -/

/-- The decimal digits of `n` as character codes, most significant first, in front
of `acc`; `fuel` bounds the number of digits. -/
def decimalAux : Nat → Nat → List Nat → List Nat
  | 0, _, acc => acc
  | fuel + 1, n, acc =>
    if n < 10 then (48 + n) :: acc
    else decimalAux fuel (n / 10) ((48 + n % 10) :: acc)

/-- The decimal digits of `n` as character codes. -/
def decimal (n : Nat) : List Nat := decimalAux (n + 1) n []

/-- The text the host stream writes for a `short`, `int` or `long int`: a minus sign
(code 45) for a negative number, then the decimal digits. -/
def formatInt (z : Int) : List Nat :=
  if z < 0 then 45 :: decimal z.natAbs else decimal z.natAbs

/-- The text `os << x` writes for a value, as character codes: a `char` is written
as the one character with its code, the other integer types in decimal, and
a floating value as the host formats it (`fmt`).  A value of another type has
no contents here and writes nothing. -/
def render (fmt : FltTy → H.F → List Nat) : Val H → List Nat
  | .int .char v => [(v % 256).toNat]
  | .int _ v => formatInt v
  | .flt t x => fmt t x
  | .other _ => []

/-- The stream `os`: the character codes written so far and, as a record for the
statements, the indices at which an element of the expression was read, in
the order of the reads. -/
structure ostream where
  /-- The character codes written. -/
  text : List Nat
  /-- The indices read. -/
  reads : List Nat
  deriving DecidableEq, Repr

/-- The body `os << (i!=0?" ":"") << in[i]` of the loop of `operator<<`. -/
def writeElement (fmt : FltTy → H.F → List Nat) (st : State H) (e : Exp H) (i : Nat)
    (os : ostream) : Except Err ostream :=
  match e.get st i with
  | .error err => .error err
  | .ok x =>
    .ok { text := os.text ++ (if i ≠ 0 then [32] else []) ++ render fmt x
          reads := os.reads ++ [i] }

/-- The function `operator<<( std::ostream& os, const vec_exp<vec_type>& _in )`. -/
def operator_shl (fmt : FltTy → H.F → List Nat) (st : State H) (os : ostream)
    (e : Exp H) : Except Err ostream :=
  forLoop (writeElement fmt st e) (e.size st) 0 os

/-- The text of a sequence of `n` values `xs 0, ..., xs (n - 1)` in the words of the
specification: nothing for `n = 0`; otherwise the first value, then for each
further index, in increasing order, one space (code 32) and the value. -/
def renderedText (fmt : FltTy → H.F → List Nat) (xs : Nat → Val H) : Nat → List Nat
  | 0 => []
  | m + 1 => render fmt (xs 0) ++ (List.range' 1 m).flatMap (fun i => 32 :: render fmt (xs i))

/-- A host format for floating values, for running the definitions: the decimal
text of the integer part. -/
def truncFormat : FltTy → exactHost.F → List Nat :=
  fun _ q => formatInt (Int.tdiv q.num q.den)

/-! ## Copy construction from a vector -/

/-- The copy constructor `vector( const vector& )`.  The class declares none: the
constructor template of line 380 takes a `const vec_exp<vec_type>&` and a template
is never a copy constructor.  So the language supplies it, and it copies each
of the members `m_own_data`, `m_size` and `m_data`. -/
def vector.copy (v : vector) : vector :=
  { stored := v.stored, m_own_data := v.m_own_data, m_size := v.m_size, m_data := v.m_data }

/-- The declaration `vector<stored> w( v )` for the vector named `src`.  When `v` is a
`vector<stored>` itself, the copy constructor takes it as it is and is chosen
over the template, which needs the conversion to the base `vec_exp`; for a
vector of another element type only the template is viable. -/
def vector.ofVector (stored : CType) (st : State H) (src : Nat) :
    Except Err (vector × Heap H) :=
  if (st.vecs src).stored = stored then .ok ((st.vecs src).copy, st.heap)
  else vector.ofExp stored st (.vector src)

/-- The expression is a vector of the element type `stored` itself: the one
argument for which the copy constructor, or the copy assignment operator,
of `vector<stored>` is chosen over the member template. -/
def Exp.isCopyOf (stored : CType) (st : State H) : Exp H → Bool
  | .vector src => decide ((st.vecs src).stored = stored)
  | .vec_vec_exp _ _ _ => false
  | .vec_scalar_exp _ _ _ => false
  | .scalar_vec_exp _ _ _ => false

/-- The declaration `vector<stored> w( rhs )` for any expression `rhs`: for a vector the
choice between the copy constructor and the constructor template is as in
`vector.ofVector`; a node is no `vector`, so that only the template takes it. -/
def vector.construct (stored : CType) (st : State H) : Exp H → Except Err (vector × Heap H)
  | .vector src => vector.ofVector stored st src
  | .vec_vec_exp op l r => vector.ofExp stored st (.vec_vec_exp op l r)
  | .vec_scalar_exp op l k => vector.ofExp stored st (.vec_scalar_exp op l k)
  | .scalar_vec_exp op k r => vector.ofExp stored st (.scalar_vec_exp op k r)

/-- The copy assignment operator `operator=( const vector& )` of the vector named `this`.
The class declares none (the member template `operator=` of line 399 is never
one), so the language supplies it, and it assigns each of the members
`m_own_data`, `m_size` and `m_data`; no block is released and none is allocated. -/
def vector.copyAssign (st : State H) (this src : Nat) : State H :=
  { vecs := Function.update st.vecs this
      { stored := (st.vecs this).stored, m_own_data := (st.vecs src).m_own_data,
        m_size := (st.vecs src).m_size, m_data := (st.vecs src).m_data }
    heap := st.heap }

/-- The statement `v = rhs` for the vector named `this` and any expression `rhs`.  When `rhs`
is a vector of the element type of `v`, the copy assignment operator takes it
as it is and is chosen over the template, which needs the conversion to the
base `vec_exp`; for a vector of another element type and for a node only the
template is viable. -/
def vector.assignFrom (st : State H) (this : Nat) : Exp H → Except Err (State H)
  | .vector src =>
    if (st.vecs src).stored = (st.vecs this).stored then .ok (vector.copyAssign st this src)
    else vector.assign st this (.vector src)
  | .vec_vec_exp op l r => vector.assign st this (.vec_vec_exp op l r)
  | .vec_scalar_exp op l k => vector.assign st this (.vec_scalar_exp op l k)
  | .scalar_vec_exp op k r => vector.assign st this (.scalar_vec_exp op k r)

/-! ## The states of a vector and the operations on it -/

/-- The state `Empty`: size 0, no storage, not owning. -/
def vector.isEmpty (v : vector) : Bool :=
  !v.m_own_data && decide (v.m_size = 0) && v.m_data.isNone

/-- A vector that owns a live block of exactly `size()` elements, of any size. -/
def vector.isOwned (h : Heap H) (v : vector) : Bool :=
  v.m_own_data &&
    match v.m_data with
    | none => false
    | some a =>
      match h.blocks a with
      | none => false
      | some b => decide (b.length = v.m_size)

/-- One operation of a program on its vectors: a constructor that makes the
object of a name (default, with a size, or from an expression), the
assignment from an expression, or the destructor.  The construction and the
assignment from an expression are the declaration `vector<stored> w( e )` and the
statement `v = e` as the program runs them, so for a vector `e` of the same
element type the copy constructor and the copy assignment operator.  With
`copies` false these two cases are left out: every construction and every
assignment from an expression then runs the member template. -/
inductive Step (copies : Bool) : State H → State H → Prop
  | construct_default (st : State H) (id : Nat) (stored : CType) :
    Step copies st
      { vecs := Function.update st.vecs id (vector.default stored), heap := st.heap }
  | construct_sized (st : State H) (id : Nat) (stored : CType) (n : Int) (v : vector)
      (h : Heap H) (hok : vector.sized stored st.heap n = .ok (v, h)) :
    Step copies st { vecs := Function.update st.vecs id v, heap := h }
  | construct_from_exp (st : State H) (id : Nat) (stored : CType) (e : Exp H) (v : vector)
      (h : Heap H) (hcopy : e.isCopyOf stored st = true → copies = true)
      (hok : vector.construct stored st e = .ok (v, h)) :
    Step copies st { vecs := Function.update st.vecs id v, heap := h }
  | assign (st : State H) (id : Nat) (e : Exp H) (st1 : State H)
      (hcopy : e.isCopyOf (st.vecs id).stored st = true → copies = true)
      (hok : vector.assignFrom st id e = .ok st1) :
    Step copies st st1
  | destroy (st : State H) (id : Nat) (v : vector) (h : Heap H)
      (hok : vector.destroy st.heap (st.vecs id) = .ok (v, h)) :
    Step copies st { vecs := Function.update st.vecs id v, heap := h }

/-- The state of a program before its first operation: no storage, and every
name an object as the default constructor leaves it. -/
def State.initial (H : HostFloat) (stored : Nat → CType) : State H :=
  { vecs := fun id => vector.default (stored id)
    heap := { blocks := fun _ => none, next := 0 } }

/-- The states a program reaches by any sequence of these operations: all of
them with `copies` true, and with `copies` false those in which no vector is
constructed or assigned from a vector of its own element type. -/
inductive Reachable (copies : Bool) : State H → Prop
  | initial (stored : Nat → CType) : Reachable copies (State.initial H stored)
  | step (st st1 : State H) (hst : Reachable copies st) (hstep : Step copies st st1) :
    Reachable copies st1

/-- The invariant of the reachable states: every vector is `Empty` or owns a live
block of its size that `new` handed out, and no two vectors hold the same
block. -/
def State.inv (st : State H) : Prop :=
  (∀ id, (st.vecs id).isEmpty = true ∨
    ((st.vecs id).isOwned st.heap = true ∧
      ∀ a, (st.vecs id).m_data = some a → a < st.heap.next)) ∧
  (∀ id1 id2 a, id1 ≠ id2 → (st.vecs id1).m_data = some a →
    (st.vecs id2).m_data ≠ some a)

/-- Two heaps that differ at most in the contents of the block at `a`: the same
next address, the same blocks elsewhere, and at `a` a block of the same
length (or none in both). -/
def Heap.sameBut (a : Nat) (h h1 : Heap H) : Prop :=
  h1.next = h.next ∧ (∀ b, b ≠ a → h1.blocks b = h.blocks b) ∧
    (h1.blocks a).map List.length = (h.blocks a).map List.length

/-- The member `operator[]` of each class as in `Exp.get`, together with the record of
the reads `m_data[id]` of vector elements it makes: pairs of the name of the
vector and the index, in the order of the reads. -/
def Exp.getLog (st : State H) : Exp H → Nat → Except Err (Val H × List (Nat × Nat))
  | .vector v, id =>
    match (st.vecs v).get st.heap id with
    | .ok x => .ok (x, [(v, id)])
    | .error e => .error e
  | .vec_vec_exp op l r, id =>
    match l.getLog st id, r.getLog st id with
    | .ok (x, lx), .ok (y, ly) =>
      match op.call x y with
      | .ok z => .ok (z, lx ++ ly)
      | .error e => .error e
    | .error e, _ => .error e
    | _, .error e => .error e
  | .vec_scalar_exp op l k, id =>
    match l.getLog st id with
    | .ok (x, lx) =>
      match op.call x k with
      | .ok z => .ok (z, lx)
      | .error e => .error e
    | .error e => .error e
  | .scalar_vec_exp op k r, id =>
    match r.getLog st id with
    | .ok (y, ly) =>
      match op.call k y with
      | .ok z => .ok (z, ly)
      | .error e => .error e
    | .error e => .error e

/-- The body `m_data[i] = rhs[i]` as in `storeElement`, with the record of the reads. -/
def vector.storeElementLog (stored : CType) (vecs : Nat → vector) (rhs : Exp H)
    (m_data : Option Nat) (i : Nat) (s : Heap H × List (Nat × Nat)) :
    Except Err (Heap H × List (Nat × Nat)) :=
  match rhs.getLog { vecs := vecs, heap := s.1 } i with
  | .error e => .error e
  | .ok (x, l) =>
    match convert stored x with
    | .error e => .error e
    | .ok y =>
      match s.1.write m_data i y with
      | .error e => .error e
      | .ok h => .ok (h, s.2 ++ l)

/-- The constructor from an expression as in `ofExp`, with the record of the reads. -/
def vector.ofExpLog (stored : CType) (st : State H) (rhs : Exp H) :
    Except Err (vector × Heap H × List (Nat × Nat)) :=
  let m_size := rhs.size st
  let (a, h1) := st.heap.alloc m_size
  match forLoop (storeElementLog stored st.vecs rhs (some a)) m_size 0 (h1, []) with
  | .error e => .error e
  | .ok (h2, log) =>
    .ok ({ stored := stored, m_own_data := true, m_size := m_size, m_data := some a }, h2, log)

/-- The member `operator=` as in `assign`, with the record of the reads of vector
elements that the evaluation of the right side makes. -/
def vector.assignLog (st : State H) (this : Nat) (rhs : Exp H) :
    Except Err (State H × List (Nat × Nat)) :=
  let v := st.vecs this
  match release st.heap v with
  | .error e => .error e
  | .ok h1 =>
    match ofExpLog v.stored { vecs := st.vecs, heap := h1 } rhs with
    | .error e => .error e
    | .ok (tmp, h2, log) =>
      let vecs1 := Function.update st.vecs this { v with m_own_data := true }
      let m_size := rhs.size { vecs := vecs1, heap := h2 }
      let vecs2 := Function.update vecs1 this { vecs1 this with m_size := m_size }
      let (a, h3) := h2.alloc m_size
      let vecs3 := Function.update vecs2 this { vecs2 this with m_data := some a }
      match forLoop (copyElement tmp (vecs3 this).m_data) (vecs3 this).m_size 0 h3 with
      | .error e => .error e
      | .ok h4 =>
        match tmp.destroy h4 with
        | .error e => .error e
        | .ok (_, h5) => .ok ({ vecs := vecs3, heap := h5 }, log)

/-- The reads of vector elements in one pass over an expression of size `n`: at
each index, one read of each vector the expression refers to, from left to
right. -/
def Exp.passReads (e : Exp H) (n : Nat) : List (Nat × Nat) :=
  (List.range' 0 n).flatMap (fun i => e.leaves.map (fun v => (v, i)))

/-- The expression `((a + b) - c) * k` over the vectors named `a`, `b`, `c`, built by the
operator overloads. -/
def chain (st : State H) (a b c : Nat) (k : Val H) : Except Err (Exp H) :=
  match operator_plus_vv st (.vector a) (.vector b) with
  | .error e => .error e
  | .ok s =>
    match operator_minus_vv st s (.vector c) with
    | .error e => .error e
    | .ok d => operator_times_vs d k

/-- A state with the vectors of the list, named `0, 1, ...` in its order, each the
owner of the block at the address of its name, and every other name an empty
vector. -/
def vectorsState (H : HostFloat) (vs : List (CType × List (Val H))) : State H :=
  { vecs := fun id =>
      match vs.get? id with
      | some p =>
        { stored := p.1, m_own_data := true, m_size := p.2.length, m_data := some id }
      | none => vector.default .int
    heap :=
      { blocks := fun a => (vs.get? a).map (fun p => p.2.map some)
        next := vs.length } }

/-- Three vectors `a = [1, 2]`, `b = [3, 4]`, `c = [5, 6]` of `int`, named `0`, `1`, `2`, and a fourth vector
`d = [0]` of `int`, named `3`. -/
def chainState : State exactHost :=
  vectorsState exactHost
    [(.int, ints exactHost [1, 2]), (.int, ints exactHost [3, 4]),
     (.int, ints exactHost [5, 6]), (.int, ints exactHost [0])]

/-- The tree of the chain `((a + b) - c) * 2` over the vectors named `0`, `1`, `2`. -/
def chainTree : Exp exactHost :=
  .vec_scalar_exp .op_mul
    (.vec_vec_exp .op_sub (.vec_vec_exp .op_add (.vector 0) (.vector 1)) (.vector 2))
    (.int .int 2)

/-! ## Eager evaluation -/

/-- The materialization of a node into a temporary vector of the element type of
the node, under the new name `fresh`: the expression that stands for it
afterwards is that vector. -/
def materializeTemp (st : State H) (fresh : Nat) (node : Exp H) :
    Except Err (Exp H × State H × Nat) :=
  match node.stored_type st with
  | none => .error .noReturnType
  | some S =>
    match vector.ofExp S st node with
    | .error e => .error e
    | .ok (v, h) =>
      .ok (.vector fresh, { vecs := Function.update st.vecs fresh v, heap := h }, fresh + 1)

/-- The eager evaluation of an operand, bottom-up: a vector stays as it is; a node
has its operands evaluated eagerly, is built over them and is materialized
into a temporary vector.  The names from `fresh` on are free for the
temporaries; the result is the operand, the state and the next free name. -/
def eagerOperand (st : State H) (fresh : Nat) : Exp H → Except Err (Exp H × State H × Nat)
  | .vector id => .ok (.vector id, st, fresh)
  | .vec_vec_exp op l r =>
    match eagerOperand st fresh l with
    | .error e => .error e
    | .ok (l1, st1, f1) =>
      match eagerOperand st1 f1 r with
      | .error e => .error e
      | .ok (r1, st2, f2) =>
        match new_vec_vec_exp st2 op l1 r1 with
        | .error e => .error e
        | .ok node => materializeTemp st2 f2 node
  | .vec_scalar_exp op l k =>
    match eagerOperand st fresh l with
    | .error e => .error e
    | .ok (l1, st1, f1) => materializeTemp st1 f1 (new_vec_scalar_exp op l1 k)
  | .scalar_vec_exp op k r =>
    match eagerOperand st fresh r with
    | .error e => .error e
    | .ok (r1, st1, f1) => materializeTemp st1 f1 (new_scalar_vec_exp op k r1)

/-- The eager procedure for a whole tree: every inner node is materialized into a
temporary of its own element type, bottom-up, and the root node, built over
these temporaries, is materialized into a `vector<stored>`. -/
def eagerMaterialize (stored : CType) (st : State H) (fresh : Nat) :
    Exp H → Except Err (vector × Heap H)
  | .vector id => vector.ofExp stored st (.vector id)
  | .vec_vec_exp op l r =>
    match eagerOperand st fresh l with
    | .error e => .error e
    | .ok (l1, st1, f1) =>
      match eagerOperand st1 f1 r with
      | .error e => .error e
      | .ok (r1, st2, _) =>
        match new_vec_vec_exp st2 op l1 r1 with
        | .error e => .error e
        | .ok node => vector.ofExp stored st2 node
  | .vec_scalar_exp op l k =>
    match eagerOperand st fresh l with
    | .error e => .error e
    | .ok (l1, st1, _) => vector.ofExp stored st1 (new_vec_scalar_exp op l1 k)
  | .scalar_vec_exp op k r =>
    match eagerOperand st fresh r with
    | .error e => .error e
    | .ok (r1, st1, _) => vector.ofExp stored st1 (new_scalar_vec_exp op k r1)

/-- What the comparison of the two evaluations asks of a tree in a state: its
vectors have names below `fresh`, hold addresses that `new` handed out, hold
elements of their own element type, and all have the size of the tree; and the
tree has an element type. -/
def Exp.ready (st : State H) (fresh : Nat) (e : Exp H) : Prop :=
  (∀ id ∈ e.leaves, id < fresh) ∧
  (∀ id ∈ e.leaves, ∀ a, (st.vecs id).m_data = some a → a < st.heap.next) ∧
  (∀ id ∈ e.leaves, ∀ i x, (st.vecs id).get st.heap i = .ok x →
    x.type = (st.vecs id).stored) ∧
  (∀ id ∈ e.leaves, (st.vecs id).m_size = e.size st) ∧
  (∃ S, e.stored_type st = some S)

/-- A later state that still has the vectors with names below `fresh` and the
blocks below the next address of the earlier state as they were. -/
def State.grows (fresh : Nat) (st st1 : State H) : Prop :=
  (∀ id, id < fresh → st1.vecs id = st.vecs id) ∧
  (∀ a, a < st.heap.next → st1.heap.blocks a = st.heap.blocks a) ∧
  st.heap.next ≤ st1.heap.next

/-- The result of the eager evaluation of an operand `e` stands for `e`: it is a
vector with a name below the next free name, of the size, the elements and
the element type of `e`, holding an address that `new` handed out and elements
of its element type, in a state that has grown from the first one. -/
def Exp.heldBy (e : Exp H) (st : State H) (fresh : Nat) (res : Exp H × State H × Nat) :
    Prop :=
  ∃ id1, res.1 = .vector id1 ∧ fresh ≤ res.2.2 ∧ id1 < res.2.2 ∧
    State.grows fresh st res.2.1 ∧
    (res.2.1.vecs id1).m_size = e.size st ∧
    (∀ i, i < e.size st → (res.2.1.vecs id1).get res.2.1.heap i = e.get st i) ∧
    (∀ a, (res.2.1.vecs id1).m_data = some a → a < res.2.1.heap.next) ∧
    (∀ i x, (res.2.1.vecs id1).get res.2.1.heap i = .ok x →
      x.type = (res.2.1.vecs id1).stored) ∧
    e.stored_type st = some (res.2.1.vecs id1).stored

/-- The value of an element, or a value of no type where the element has none. -/
def Exp.valueAt (st : State H) (e : Exp H) (i : Nat) : Val H :=
  match e.get st i with
  | .ok x => x
  | .error _ => .other ""

/-- A node `p` over the results of the eager evaluation of the operands of `e`
stands for `e`: it is ready in the later state, and it has the size, the
elements and the element type of `e`. -/
def Exp.standsFor (p : Exp H) (st2 : State H) (f2 : Nat) (e : Exp H) (st : State H)
    (fresh : Nat) : Prop :=
  fresh ≤ f2 ∧ State.grows fresh st st2 ∧ p.ready st2 f2 ∧ p.size st2 = e.size st ∧
    (∀ i, i < e.size st → p.get st2 i = e.get st i) ∧
    p.stored_type st2 = e.stored_type st

/-- The block of a vector holds values of the element type of the vector only. -/
def vector.typed (h : Heap H) (v : vector) : Bool :=
  match v.m_data with
  | none => true
  | some a =>
    match h.blocks a with
    | none => true
    | some b =>
      b.all fun c =>
        match c with
        | none => true
        | some x => decide (x.type = v.stored)

/-- Every vector an expression refers to holds values of its own element type. -/
def Exp.typed (st : State H) (e : Exp H) : Bool :=
  e.leaves.all fun id => (st.vecs id).typed st.heap

/-- Two vectors `a = [100, 100]` of `char` and `b = [2, 3]` of `short`, named `0` and `1`. -/
def mixedState : State exactHost :=
  vectorsState exactHost
    [(.char, [.int .char 100, .int .char 100]), (.short, [.int .short 2, .int .short 3])]

/-- The tree of `(a + a) * b` over the vectors named `0` and `1`. -/
def mixedTree : Exp exactHost :=
  .vec_vec_exp .op_mul (.vec_vec_exp .op_add (.vector 0) (.vector 0)) (.vector 1)

/-! # Properties -/

/-! ## The promotion table -/

theorem is_numeric_iff (T : CType) : _is_numeric T = true ↔ T ∈ numericTypes := by
  rcases T with (_ | _ | _ | _) | (_ | _) | n <;> simp [_is_numeric, numericTypes]

theorem return_type_comm (L R : CType) : _return_type L R = _return_type R L := by
  by_cases h : L = R
  · subst h; rfl
  · have h2 : ¬ R = L := fun e => h e.symm
    simp only [_return_type, h, h2, if_false]
    rcases L with (_ | _ | _ | _) | (_ | _) | n <;>
      rcases R with (_ | _ | _ | _) | (_ | _) | m <;> rfl

/-- Claim C7. The table `_return_type` has a member `type` for each of the 36 ordered
pairs of the six numeric types, that type is again one of the six, and the
table gives the same type for `(L, R)` and `(R, L)`. -/
theorem return_type_closed_comm (L R : CType)
    (hL : _is_numeric L = true) (hR : _is_numeric R = true) :
    ∃ T, _return_type L R = some T ∧ _is_numeric T = true ∧
      _return_type R L = _return_type L R := by
  rcases L with (_ | _ | _ | _) | (_ | _) | n <;>
    rcases R with (_ | _ | _ | _) | (_ | _) | m <;>
    first
    | exact ⟨_, rfl, rfl, rfl⟩
    | exact absurd hL Bool.false_ne_true
    | exact absurd hR Bool.false_ne_true

/-- The table at the pair `(long int, float)`, and the count of ordered pairs. -/
theorem return_type_closed_comm_witness :
    (numericTypes.length * numericTypes.length = 36) ∧
    ∃ T, _return_type .long .float = some T ∧ _is_numeric T = true ∧
      _return_type .float .long = _return_type .long .float :=
  ⟨by decide, return_type_closed_comm .long .float (by decide) (by decide)⟩

/-- Claim C8. The values of `_return_type`: `T` for `(T, T)`; the wider type for two
integer types; the floating type for an integer and a floating type, in either
order and also for `long int` with `float`; `double` for `float` with
`double`. -/
theorem return_type_values :
    (∀ T : CType, _return_type T T = some T) ∧
    (∀ a b : IntTy, _return_type (.i a) (.i b) = some (.i (a.wider b))) ∧
    (∀ a b : IntTy, a.bits = b.bits → a = b) ∧
    (∀ (a : IntTy) (t : FltTy),
      _return_type (.i a) (.f t) = some (.f t) ∧ _return_type (.f t) (.i a) = some (.f t)) ∧
    _return_type .long .float = some .float ∧
    _return_type .float .double = some .double ∧
    _return_type .double .float = some .double := by
  refine ⟨fun T => by simp [_return_type], ?_, ?_, ?_, rfl, rfl, rfl⟩
  · intro a b; cases a <;> cases b <;> rfl
  · intro a b; cases a <;> cases b <;> simp [IntTy.bits]
  · intro a t; cases a <;> cases t <;> exact ⟨rfl, rfl⟩

/-! ## Element access, shape and size of the nodes -/

theorem call_eq_promoted (op : Op) (u v : Val H) : op.call u v = promoted op.arith u v := by
  cases op <;> rfl

theorem convert_int_int (s t : IntTy) (z : Int) :
    convert (H := H) (.i s) (.int t z) = .ok (.int s (wrap s z)) := rfl

/-- Claim C3. Element access of the three node classes at an index where the
operands have elements: the functor of the node applied to the element of the
left and of the right operand, to the left element and the scalar, or to the
scalar and the right element, in this order; and the functor converts both
operands to `_return_type<L,R>::type` and combines them in that type.  For a
scalar `c` and an integer element `z` the node `c - a` so gives `c - z`. -/
theorem node_get (st : State H) (op : Op) (l r : Exp H) (k : Val H) (i : Nat)
    (x y : Val H) (hl : l.get st i = .ok x) (hr : r.get st i = .ok y) :
    (Exp.vec_vec_exp op l r).get st i = op.call x y ∧
    (Exp.vec_scalar_exp op l k).get st i = op.call x k ∧
    (Exp.scalar_vec_exp op k r).get st i = op.call k y ∧
    (∀ (u v : Val H) (T : CType) (a b : Val H), _return_type u.type v.type = some T →
      convert T u = .ok a → convert T v = .ok b → op.call u v = op.arith a b) ∧
    (∀ (s t : IntTy) (c z : Int), y = .int t z →
      (Exp.scalar_vec_exp .op_sub (.int s c) r).get st i =
        .ok (.int (s.wider t)
          (wrap (s.wider t) (wrap (s.wider t) c - wrap (s.wider t) z)))) := by
  refine ⟨by simp [Exp.get, hl, hr], by simp [Exp.get, hl], by simp [Exp.get, hr], ?_, ?_⟩
  · intro u v T a b hT ha hb
    rw [call_eq_promoted]
    simp [promoted, hT, ha, hb]
  · intro s t c z hy
    subst hy
    have hT : _return_type (Val.int (H := H) s c).type (Val.int (H := H) t z).type
        = some (.i (s.wider t)) := by
      cases s <;> cases t <;> rfl
    simp [Exp.get, hr, Op.call, op_sub, promoted, hT, convert_int_int, Val.minus]

/-- The node `100 - a` over `a = [1, 2, 3]` has the elements `99, 98, 97`. -/
theorem node_get_witness :
    (Exp.scalar_vec_exp .op_sub (.int .int 100) (.vector 0)).get
        (oneVector exactHost .int (ints exactHost [1, 2, 3])) 1 =
      Op.call .op_sub (.int .int 100) (.int .int 2) ∧
    Op.call (H := exactHost) .op_sub (.int .int 100) (.int .int 2) = .ok (.int .int 98) :=
  ⟨(node_get (oneVector exactHost .int (ints exactHost [1, 2, 3])) .op_sub (.vector 0)
      (.vector 0) (.int .int 100) 1 (.int .int 2) (.int .int 2) (by decide) (by decide)).2.2.1,
    by decide⟩

/-- Claim C4. The constructor of a vector-vector node, reached through `+` or `-`
on two expressions, throws the dimension mismatch exactly when the sizes of
the operands differ and otherwise returns the node; the overloads with a
numeric scalar on either side always return their node. -/
theorem shape_check (st : State H) (l r : Exp H) :
    (operator_plus_vv st l r = .error .dimensionMismatch ↔ l.size st ≠ r.size st) ∧
    (operator_minus_vv st l r = .error .dimensionMismatch ↔ l.size st ≠ r.size st) ∧
    (l.size st = r.size st →
      operator_plus_vv st l r = .ok (.vec_vec_exp .op_add l r) ∧
      operator_minus_vv st l r = .ok (.vec_vec_exp .op_sub l r)) ∧
    (∀ k : Val H, _is_numeric k.type = true →
      operator_plus_vs l k = .ok (.vec_scalar_exp .op_add l k) ∧
      operator_minus_vs l k = .ok (.vec_scalar_exp .op_sub l k) ∧
      operator_times_vs l k = .ok (.vec_scalar_exp .op_mul l k) ∧
      operator_div_vs l k = .ok (.vec_scalar_exp .op_div l k) ∧
      operator_plus_sv k r = .ok (.scalar_vec_exp .op_add k r) ∧
      operator_minus_sv k r = .ok (.scalar_vec_exp .op_sub k r) ∧
      operator_times_sv k r = .ok (.scalar_vec_exp .op_mul k r)) := by
  refine ⟨?_, ?_, ?_, ?_⟩
  · by_cases h : l.size st = r.size st <;> simp [operator_plus_vv, new_vec_vec_exp, h]
  · by_cases h : l.size st = r.size st <;> simp [operator_minus_vv, new_vec_vec_exp, h]
  · intro h
    simp [operator_plus_vv, operator_minus_vv, new_vec_vec_exp, h]
  · intro k hk
    simp [operator_plus_vs, operator_minus_vs, operator_times_vs, operator_div_vs,
      operator_plus_sv, operator_minus_sv, operator_times_sv, _enable_if, hk,
      new_vec_scalar_exp, new_scalar_vec_exp]

/-- With `a = [1, 2]` and `b = [1, 2, 3]` the sum `a + b` throws. -/
theorem shape_check_witness :
    operator_plus_vv (twoVectors exactHost .int (ints exactHost [1, 2]) .int
        (ints exactHost [1, 2, 3])) (.vector 0) (.vector 1) =
      .error .dimensionMismatch :=
  (shape_check (twoVectors exactHost .int (ints exactHost [1, 2]) .int
    (ints exactHost [1, 2, 3])) (.vector 0) (.vector 1)).1.mpr (by decide)

/-- Claim C5. A tree over vectors that all have size `n`, with any scalars and any
of the three node classes at any depth, is constructed without a dimension
mismatch and has size `n`. -/
theorem size_conservation (st : State H) (e : Exp H) (n : Nat)
    (hleaves : ∀ id ∈ e.leaves, (st.vecs id).m_size = n) :
    e.rebuild st = .ok e ∧ e.size st = n := by
  induction e with
  | vector id => exact ⟨rfl, hleaves id (by simp [Exp.leaves])⟩
  | vec_vec_exp op l r ihl ihr =>
    have hl := ihl (fun id hid => hleaves id (by simp [Exp.leaves, hid]))
    have hr := ihr (fun id hid => hleaves id (by simp [Exp.leaves, hid]))
    simp [Exp.rebuild, Exp.size, hl.1, hr.1, hl.2, hr.2, new_vec_vec_exp]
  | vec_scalar_exp op l k ihl =>
    have hl := ihl (fun id hid => hleaves id (by simp [Exp.leaves, hid]))
    simp [Exp.rebuild, Exp.size, hl.1, hl.2, new_vec_scalar_exp]
  | scalar_vec_exp op k r ihr =>
    have hr := ihr (fun id hid => hleaves id (by simp [Exp.leaves, hid]))
    simp [Exp.rebuild, Exp.size, hr.1, hr.2, new_scalar_vec_exp]

/-- The tree `(a + b) * 2 - a` over two vectors of size 3 has size 3. -/
theorem size_conservation_witness :
    (Exp.vec_vec_exp .op_sub
        (.vec_scalar_exp .op_mul (.vec_vec_exp .op_add (.vector 0) (.vector 1)) (.int .int 2))
        (.vector 0)).size
      (twoVectors exactHost .int (ints exactHost [1, 2, 3]) .int (ints exactHost [4, 5, 6]))
      = 3 :=
  (size_conservation
    (twoVectors exactHost .int (ints exactHost [1, 2, 3]) .int (ints exactHost [4, 5, 6]))
    (Exp.vec_vec_exp .op_sub
        (.vec_scalar_exp .op_mul (.vec_vec_exp .op_add (.vector 0) (.vector 1)) (.int .int 2))
        (.vector 0)) 3 (by decide)).2

/-! ## The element type of a node -/

/-- Claim C9. The typedef `stored_type` of a node is `_return_type` of the element types
of its operands: of the `stored_type` of a child node, of the element type of a
vector, and of the type of a scalar itself.  The expression of the test,
`1.05 + 0.5f*C + B*int(2) - 2` with `B` a vector of `char` and `C` a vector of
`double` of the same size, is constructed and has element type `double` and
the size of `B`. -/
theorem node_stored_type (st : State H) (op : Op) (l r : Exp H) (k : Val H)
    (L R : CType) (hl : l.stored_type st = some L) (hr : r.stored_type st = some R) :
    (Exp.vec_vec_exp op l r).stored_type st = _return_type L R ∧
    (Exp.vec_scalar_exp op l k).stored_type st = _return_type L k.type ∧
    (Exp.scalar_vec_exp op k r).stored_type st = _return_type k.type R ∧
    (∀ id, (Exp.vector id : Exp H).stored_type st = some (st.vecs id).stored) ∧
    (∀ (B C : Nat) (d s : H.F), (st.vecs B).stored = .char →
      (st.vecs C).stored = .double → (st.vecs B).m_size = (st.vecs C).m_size →
      ∃ e, test_expression st B C d s = .ok e ∧ e.stored_type st = some .double ∧
        e.size st = (st.vecs B).m_size) := by
  refine ⟨by simp [Exp.stored_type, hl, hr], by simp [Exp.stored_type, hl],
    by simp [Exp.stored_type, hr], fun id => rfl, ?_⟩
  intro B C d s hB hC hsize
  refine ⟨.vec_scalar_exp .op_sub
    (.vec_vec_exp .op_add
      (.scalar_vec_exp .op_add (.flt .double d)
        (.scalar_vec_exp .op_mul (.flt .float s) (.vector C)))
      (.vec_scalar_exp .op_mul (.vector B) (.int .int 2)))
    (.int .int 2), ?_, ?_, ?_⟩
  · simp [test_expression, operator_times_sv, operator_plus_sv, operator_times_vs,
      operator_plus_vv, operator_minus_vs, _enable_if, _is_numeric, Val.type,
      new_scalar_vec_exp, new_vec_scalar_exp, new_vec_vec_exp, Exp.size, hsize]
  · simp [Exp.stored_type, hB, hC, Val.type]
    rfl
  · simp [Exp.size, hsize]

/-- The expression of the test over a vector of three `char` and a vector of
three `double`. -/
theorem node_stored_type_witness :
    ∃ e, test_expression
        (twoVectors exactHost .char [.int .char 0, .int .char 1, .int .char 2]
          .double [.flt .double (1 : ℚ), .flt .double (2 : ℚ), .flt .double (3 : ℚ)]) 0 1 (21 / 20 : ℚ) (1 / 2 : ℚ)
          = .ok e ∧
      e.stored_type
        (twoVectors exactHost .char [.int .char 0, .int .char 1, .int .char 2]
          .double [.flt .double (1 : ℚ), .flt .double (2 : ℚ), .flt .double (3 : ℚ)]) = some .double ∧
      e.size
        (twoVectors exactHost .char [.int .char 0, .int .char 1, .int .char 2]
          .double [.flt .double (1 : ℚ), .flt .double (2 : ℚ), .flt .double (3 : ℚ)]) = 3 :=
  (node_stored_type
    (twoVectors exactHost .char [.int .char 0, .int .char 1, .int .char 2]
      .double [.flt .double (1 : ℚ), .flt .double (2 : ℚ), .flt .double (3 : ℚ)])
    .op_add (.vector 0) (.vector 1) (.int .int 2) .char .double rfl rfl).2.2.2.2
    0 1 (21 / 20 : ℚ) (1 / 2 : ℚ) rfl rfl rfl

/-! ## Scalars on either side -/

theorem convert_type (T : CType) (x a : Val H) (h : convert T x = .ok a) : a.type = T := by
  rcases T with t | t | n <;> rcases x with ⟨s, v⟩ | ⟨s, v⟩ | m <;>
    simp only [convert] at h
  · cases h; rfl
  · split at h
    · split at h
      · cases h; rfl
      · cases h
    · cases h
  · cases h
  · cases h; rfl
  · cases h; rfl
  · cases h
  · cases h
  · cases h
  · cases h

theorem return_type_flt_left (s : FltTy) (R : CType) (t : IntTy) :
    _return_type (.f s) R ≠ some (.i t) := by
  rcases R with (_ | _ | _ | _) | (_ | _) | m <;> cases s <;> cases t <;>
    first
    | decide
    | simp [_return_type, _return_type_table]

theorem convert_error (x y : Val H) (T : CType) (e : Err)
    (hT : _return_type x.type y.type = some T) (hx : convert T x = .error e) :
    e = .notNumeric := by
  rcases T with t | t | n <;> rcases x with ⟨s, v⟩ | ⟨s, v⟩ | m <;>
    simp only [convert] at hx
  · cases hx
  · exact absurd hT (return_type_flt_left s y.type t)
  · cases hx; rfl
  · cases hx
  · cases hx
  · cases hx; rfl
  · cases hx; rfl
  · cases hx; rfl
  · cases hx; rfl

theorem promoted_comm (f : Val H → Val H → Except Err (Val H))
    (hf : ∀ a b : Val H, a.type = b.type → f a b = f b a) (x y : Val H) :
    promoted f x y = promoted f y x := by
  unfold promoted
  rw [return_type_comm y.type x.type]
  cases hT : _return_type x.type y.type with
  | none => rfl
  | some T =>
    cases hx : convert T x with
    | error e =>
      cases hy : convert T y with
      | error e2 =>
        have h1 := convert_error x y T e hT hx
        have h2 := convert_error y x T e2 (by rw [return_type_comm]; exact hT) hy
        simp only [hx, hy, h1, h2]
      | ok b => simp only [hx, hy]
    | ok a =>
      cases hy : convert T y with
      | error e2 => simp only [hx, hy]
      | ok b =>
        simp only [hx, hy]
        exact hf a b ((convert_type T x a hx).trans (convert_type T y b hy).symm)

theorem op_add_comm (hadd : ∀ t x y, H.add t x y = H.add t y x) (x y : Val H) :
    op_add x y = op_add y x := by
  apply promoted_comm
  intro a b hab
  rcases a with ⟨t, u⟩ | ⟨t, u⟩ | m <;> rcases b with ⟨s, v⟩ | ⟨s, v⟩ | m2 <;>
    simp_all [Val.type, Val.plus, add_comm]

theorem op_mul_comm (hmul : ∀ t x y, H.mul t x y = H.mul t y x) (x y : Val H) :
    op_mul x y = op_mul y x := by
  apply promoted_comm
  intro a b hab
  rcases a with ⟨t, u⟩ | ⟨t, u⟩ | m <;> rcases b with ⟨s, v⟩ | ⟨s, v⟩ | m2 <;>
    simp_all [Val.type, Val.times, mul_comm]

theorem op_add_mul_ok (x k : Val H) (hx : _is_numeric x.type = true)
    (hk : _is_numeric k.type = true) :
    ∃ u v, op_add x k = .ok u ∧ op_mul x k = .ok v := by
  rcases x with ⟨t, u⟩ | ⟨t, u⟩ | m <;> rcases k with ⟨s, v⟩ | ⟨s, v⟩ | m2 <;>
    first
    | exact absurd hx Bool.false_ne_true
    | exact absurd hk Bool.false_ne_true
    | (cases t <;> cases s <;>
        simp [op_add, op_mul, promoted, _return_type, _return_type_table, Val.type, convert,
          Val.plus, Val.times])

/-- Claim C10. For an expression `a` and a numeric scalar `k` the overloads `a + k`
and `k + a`, and `a * k` and `k * a`, give nodes with the same element at every
index and the same element type, `_return_type` of the element type of `a` and the
type of `k`; where `a` has a numeric element the elements of these nodes are
values.  The host sum and product of floating values are taken to be
commutative. -/
theorem scalar_symmetry
    (hadd : ∀ t x y, H.add t x y = H.add t y x)
    (hmul : ∀ t x y, H.mul t x y = H.mul t y x)
    (st : State H) (a : Exp H) (k : Val H) (i : Nat)
    (hk : _is_numeric k.type = true) :
    ∃ e1 e2 e3 e4 : Exp H,
      operator_plus_vs a k = .ok e1 ∧ operator_plus_sv k a = .ok e2 ∧
      operator_times_vs a k = .ok e3 ∧ operator_times_sv k a = .ok e4 ∧
      e1.get st i = e2.get st i ∧ e3.get st i = e4.get st i ∧
      e1.stored_type st = e2.stored_type st ∧ e3.stored_type st = e4.stored_type st ∧
      (∀ A, a.stored_type st = some A →
        e1.stored_type st = _return_type A k.type ∧
        e3.stored_type st = _return_type A k.type) ∧
      (∀ x, a.get st i = .ok x → _is_numeric x.type = true →
        ∃ u v, e1.get st i = .ok u ∧ e3.get st i = .ok v) := by
  refine ⟨.vec_scalar_exp .op_add a k, .scalar_vec_exp .op_add k a,
    .vec_scalar_exp .op_mul a k, .scalar_vec_exp .op_mul k a, ?_, ?_, ?_, ?_, ?_, ?_, ?_, ?_,
    ?_, ?_⟩
  · simp [operator_plus_vs, _enable_if, hk, new_vec_scalar_exp]
  · simp [operator_plus_sv, _enable_if, hk, new_scalar_vec_exp]
  · simp [operator_times_vs, _enable_if, hk, new_vec_scalar_exp]
  · simp [operator_times_sv, _enable_if, hk, new_scalar_vec_exp]
  · cases h : a.get st i with
    | error e => simp [Exp.get, h]
    | ok x => simp [Exp.get, h, Op.call, op_add_comm hadd x k]
  · cases h : a.get st i with
    | error e => simp [Exp.get, h]
    | ok x => simp [Exp.get, h, Op.call, op_mul_comm hmul x k]
  · cases h : a.stored_type st with
    | none => simp [Exp.stored_type, h]
    | some A => simp [Exp.stored_type, h, return_type_comm A k.type]
  · cases h : a.stored_type st with
    | none => simp [Exp.stored_type, h]
    | some A => simp [Exp.stored_type, h, return_type_comm A k.type]
  · intro A hA
    simp [Exp.stored_type, hA]
  · intro x hx hnum
    obtain ⟨u, v, hu, hv⟩ := op_add_mul_ok x k hnum hk
    exact ⟨u, v, by simp [Exp.get, hx, Op.call, hu], by simp [Exp.get, hx, Op.call, hv]⟩

/-- With `a = [1, 2, 3]` of `char` and the `double` scalar `2.5`, the nodes `a + k`,
`k + a`, `a * k`, `k * a` at index 1. -/
theorem scalar_symmetry_witness :
    ∃ e1 e2 e3 e4 : Exp exactHost,
      operator_plus_vs (.vector 0) (.flt .double (5 / 2 : ℚ)) = .ok e1 ∧
      operator_plus_sv (.flt .double (5 / 2 : ℚ)) (.vector 0) = .ok e2 ∧
      operator_times_vs (.vector 0) (.flt .double (5 / 2 : ℚ)) = .ok e3 ∧
      operator_times_sv (.flt .double (5 / 2 : ℚ)) (.vector 0) = .ok e4 ∧
      e1.get (oneVector exactHost .char [.int .char 1, .int .char 2, .int .char 3]) 1 =
        e2.get (oneVector exactHost .char [.int .char 1, .int .char 2, .int .char 3]) 1 ∧
      e3.get (oneVector exactHost .char [.int .char 1, .int .char 2, .int .char 3]) 1 =
        e4.get (oneVector exactHost .char [.int .char 1, .int .char 2, .int .char 3]) 1 := by
  obtain ⟨e1, e2, e3, e4, h1, h2, h3, h4, h5, h6, _⟩ :=
    scalar_symmetry (H := exactHost) (fun _ x y => add_comm x y) (fun _ x y => mul_comm x y)
      (oneVector exactHost .char [.int .char 1, .int .char 2, .int .char 3])
      (.vector 0) (.flt .double (5 / 2 : ℚ)) 1 rfl
  exact ⟨e1, e2, e3, e4, h1, h2, h3, h4, h5, h6⟩

/-! ## Evaluation of an expression into a block -/

theorem Exp.size_frame (e : Exp H) (st st1 : State H)
    (h : ∀ id ∈ e.leaves, st1.vecs id = st.vecs id) : e.size st1 = e.size st := by
  induction e with
  | vector id => simp [Exp.size, h id (by simp [Exp.leaves])]
  | vec_vec_exp op l r ihl _ =>
    exact ihl (fun id hid => h id (by simp [Exp.leaves, hid]))
  | vec_scalar_exp op l k ihl =>
    exact ihl (fun id hid => h id (by simp [Exp.leaves, hid]))
  | scalar_vec_exp op k r ihr =>
    exact ihr (fun id hid => h id (by simp [Exp.leaves, hid]))

theorem Exp.get_frame (e : Exp H) (st st1 : State H) (i : Nat)
    (h : ∀ id ∈ e.leaves, st1.vecs id = st.vecs id ∧
      ∀ a, (st.vecs id).m_data = some a → st1.heap.blocks a = st.heap.blocks a) :
    e.get st1 i = e.get st i := by
  induction e with
  | vector id =>
    obtain ⟨hv, hb⟩ := h id (by simp [Exp.leaves])
    simp only [Exp.get, vector.get, hv]
    cases hd : (st.vecs id).m_data with
    | none => rfl
    | some a => simp [Heap.read, hb a hd]
  | vec_vec_exp op l r ihl ihr =>
    have hl := ihl (fun id hid => h id (by simp [Exp.leaves, hid]))
    have hr := ihr (fun id hid => h id (by simp [Exp.leaves, hid]))
    simp [Exp.get, hl, hr]
  | vec_scalar_exp op l k ihl =>
    have hl := ihl (fun id hid => h id (by simp [Exp.leaves, hid]))
    simp [Exp.get, hl]
  | scalar_vec_exp op k r ihr =>
    have hr := ihr (fun id hid => h id (by simp [Exp.leaves, hid]))
    simp [Exp.get, hr]

theorem Exp.getAs_frame (T : CType) (e : Exp H) (st st1 : State H) (i : Nat)
    (h : ∀ id ∈ e.leaves, st1.vecs id = st.vecs id ∧
      ∀ a, (st.vecs id).m_data = some a → st1.heap.blocks a = st.heap.blocks a) :
    e.getAs T st1 i = e.getAs T st i := by
  simp [Exp.getAs, Exp.get_frame e st st1 i h]

theorem Exp.allocated_lt (st : State H) (e : Exp H) (h : e.allocated st = true)
    (id : Nat) (hid : id ∈ e.leaves) (a : Nat) (ha : (st.vecs id).m_data = some a) :
    a < st.heap.next := by
  have := List.all_eq_true.mp h id hid
  simpa [ha] using this

/-- The loop that fills a fresh block: with the first `done.length` elements
written and `count` to go, it writes `ys i` at each remaining index `i`,
provided the source of the stores does not read the block itself. -/
theorem forLoop_fill (src : Nat → Heap H → Except Err (Val H)) (a : Nat)
    (ys : Nat → Val H) (count : Nat) :
    ∀ (done : List (Option (Val H))) (h : Heap H),
      h.blocks a = some (done ++ List.replicate count none) →
      (∀ (h1 : Heap H) (i : Nat), done.length ≤ i → i < done.length + count →
        (∀ b, b ≠ a → h1.blocks b = h.blocks b) → src i h1 = .ok (ys i)) →
      forLoop (fun i h1 =>
          match src i h1 with
          | .error e => .error e
          | .ok y => h1.write (some a) i y) count done.length h =
        .ok { blocks := Function.update h.blocks a
                (some (done ++ (List.range' done.length count).map (fun j => some (ys j))))
              next := h.next } := by
  induction count with
  | zero =>
    intro done h hb _
    simp only [forLoop, List.range'_zero, List.map_nil, List.append_nil]
    simp only [List.replicate_zero, List.append_nil] at hb
    rw [← hb, Function.update_eq_self]
  | succ n ih =>
    intro done h hb hsrc
    have hs := hsrc h done.length (le_refl _) (by omega) (fun _ _ => rfl)
    have hw : h.write (some a) done.length (ys done.length) =
        .ok ⟨Function.update h.blocks a
          (some ((done ++ [some (ys done.length)]) ++ List.replicate n none)), h.next⟩ := by
      simp [Heap.write, hb, List.replicate_succ]
    have hnext := ih (done ++ [some (ys done.length)])
      ⟨Function.update h.blocks a
        (some ((done ++ [some (ys done.length)]) ++ List.replicate n none)), h.next⟩
      (by simp)
      (by
        intro h1 i hi1 hi2 hag
        apply hsrc h1 i
        · simp at hi1; omega
        · simp at hi2; omega
        · intro b hba
          rw [hag b hba]
          simp [Function.update_noteq hba])
    simp only [List.length_append, List.length_singleton] at hnext
    simp only [forLoop, hs, hw]
    rw [hnext]
    simp [List.range'_succ]

theorem read_filled (blocks : Nat → Option (List (Option (Val H)))) (nxt a n : Nat)
    (ys : Nat → Val H) (i : Nat) (hi : i < n)
    (hb : blocks a = some ((List.range' 0 n).map (fun j => some (ys j)))) :
    Heap.read ⟨blocks, nxt⟩ (some a) i = .ok (ys i) := by
  simp [Heap.read, hb, List.getElem?_range', hi]

/-- The constructor from an expression, in closed form: a fresh block at the next
address, holding the converted elements of the expression in order. -/
theorem vector.ofExp_eq (T : CType) (st : State H) (e : Exp H) (ys : Nat → Val H)
    (halloc : e.allocated st = true)
    (hval : ∀ i, i < e.size st → e.getAs T st i = .ok (ys i)) :
    vector.ofExp T st e = .ok
      ({ stored := T, m_own_data := true, m_size := e.size st,
         m_data := some st.heap.next },
       ⟨Function.update st.heap.blocks st.heap.next
          (some ((List.range' 0 (e.size st)).map (fun j => some (ys j)))),
        st.heap.next + 1⟩) := by
  have hloop : forLoop (vector.storeElement T st.vecs e (some st.heap.next)) (e.size st) 0
      (st.heap.alloc (e.size st)).2 = .ok
        ⟨Function.update st.heap.blocks st.heap.next
          (some ((List.range' 0 (e.size st)).map (fun j => some (ys j)))),
        st.heap.next + 1⟩ := by
    have := forLoop_fill (fun i h => e.getAs T ⟨st.vecs, h⟩ i) st.heap.next ys (e.size st) []
      (st.heap.alloc (e.size st)).2 (by simp [Heap.alloc])
      (by
        intro h1 i _ hi hag
        rw [← hval i (by simpa using hi)]
        apply Exp.getAs_frame
        intro id hid
        refine ⟨rfl, ?_⟩
        intro a0 ha0
        have hlt := Exp.allocated_lt st e halloc id hid a0 ha0
        have hne : a0 ≠ st.heap.next := by omega
        show h1.blocks a0 = st.heap.blocks a0
        rw [hag a0 hne]
        simp [Heap.alloc, Function.update_noteq hne])
    simpa [Heap.alloc, vector.storeElement] using this
  simp only [vector.ofExp]
  have ha : (st.heap.alloc (e.size st)).1 = st.heap.next := rfl
  simp only [ha, hloop]

theorem vector.construct_template (T : CType) (st : State H) (e : Exp H)
    (h : e.isCopyOf T st = false) : vector.construct T st e = vector.ofExp T st e := by
  cases e with
  | vector src =>
    simp only [Exp.isCopyOf, decide_eq_false_iff_not] at h
    simp [vector.construct, vector.ofVector, h]
  | vec_vec_exp op l r => rfl
  | vec_scalar_exp op l k => rfl
  | scalar_vec_exp op k r => rfl

theorem vector.assignFrom_template (st : State H) (this : Nat) (e : Exp H)
    (h : e.isCopyOf (st.vecs this).stored st = false) :
    vector.assignFrom st this e = vector.assign st this e := by
  cases e with
  | vector src =>
    simp only [Exp.isCopyOf, decide_eq_false_iff_not] at h
    simp [vector.assignFrom, h]
  | vec_vec_exp op l r => rfl
  | vec_scalar_exp op l k => rfl
  | scalar_vec_exp op k r => rfl

theorem Exp.isCopyOf_false (T : CType) (st : State H) (e : Exp H)
    (h : e.isCopyOf T st = true → false = true) : e.isCopyOf T st = false := by
  cases hc : e.isCopyOf T st with
  | false => rfl
  | true => exact absurd (h hc) Bool.false_ne_true

/-- The destructor of a vector that has `m_own_data` set and holds a live block
releases the block: afterwards every vector that holds the same address
reads a released block. -/
theorem vector.destroy_shared (h : Heap H) (w : vector) (a : Nat)
    (hown : w.m_own_data = true) (hdata : w.m_data = some a)
    (hlive : (h.blocks a).isSome = true) :
    ∃ (w1 : vector) (h2 : Heap H), w.destroy h = .ok (w1, h2) ∧
      ∀ (v : vector) (i : Nat), v.m_data = some a → v.get h2 i = .error .deadBlock := by
  cases hb : h.blocks a with
  | none => simp [hb] at hlive
  | some b =>
    refine ⟨{ w with m_own_data := false, m_data := none, m_size := 0 },
      ⟨Function.update h.blocks a none, h.next⟩, ?_, ?_⟩
    · simp [vector.destroy, vector.release, hown, hdata, Heap.free, hb]
    · intro v i hv
      simp [vector.get, Heap.read, hv]

/-- Claim C2. The declaration `vector<T> w( e )` for an expression `e` each element of
which has a value that converts to `T`.  When `e` is not itself a vector of
element type `T`, the constructor template runs: the new vector has the
size of `e`, owns a block that did not exist before and that has exactly that
many elements, its element `i` is `e[i]` converted to `T`, and no other block
changes.  When `e` is a vector of element type `T`, the copy constructor runs
instead: the new vector has the size and the elements of `e`, but nothing is
allocated and it holds the block of `e`, with the flag `m_own_data` of `e`; when
`e` owns that block, the destructor of the new vector releases it, and `e`
then reads a released block. -/
theorem construct_from_expression (T : CType) (st : State H) (e : Exp H)
    (ys : Nat → Val H) (halloc : e.allocated st = true)
    (hval : ∀ i, i < e.size st → e.getAs T st i = .ok (ys i)) :
    (e.isCopyOf T st = false →
      ∃ (v : vector) (h : Heap H), vector.construct T st e = .ok (v, h) ∧
        v.stored = T ∧ v.m_size = e.size st ∧ v.m_own_data = true ∧
        v.m_data = some st.heap.next ∧
        (∃ b, h.blocks st.heap.next = some b ∧ b.length = e.size st) ∧
        (∀ i, i < e.size st → v.get h i = .ok (ys i)) ∧
        (∀ a, a ≠ st.heap.next → h.blocks a = st.heap.blocks a)) ∧
    (∀ src, e = .vector src → (st.vecs src).stored = T →
      ∃ w : vector, vector.construct T st e = .ok (w, st.heap) ∧
        w.stored = T ∧ w.m_size = e.size st ∧
        w.m_own_data = (st.vecs src).m_own_data ∧ w.m_data = (st.vecs src).m_data ∧
        (∀ i, w.get st.heap i = e.get st i) ∧
        ∀ a, (st.vecs src).m_own_data = true → (st.vecs src).m_data = some a →
          (st.heap.blocks a).isSome = true →
          ∃ (w1 : vector) (h2 : Heap H), w.destroy st.heap = .ok (w1, h2) ∧
            ∀ i, (st.vecs src).get h2 i = .error .deadBlock) := by
  constructor
  · intro hnc
    rw [vector.construct_template T st e hnc]
    refine ⟨_, _, vector.ofExp_eq T st e ys halloc hval, rfl, rfl, rfl, rfl, ?_, ?_, ?_⟩
    · exact ⟨_, Function.update_same _ _ _, by simp⟩
    · intro i hi
      exact read_filled _ _ _ _ ys i hi (Function.update_same _ _ _)
    · intro a ha
      simp [Function.update_noteq ha]
  · intro src he hT
    subst he
    refine ⟨(st.vecs src).copy, by simp [vector.construct, vector.ofVector, hT], hT, rfl, rfl,
      rfl, fun _ => rfl, ?_⟩
    intro a hown hdata hlive
    obtain ⟨w1, h2, hd, hdead⟩ :=
      vector.destroy_shared st.heap (st.vecs src).copy a hown hdata hlive
    exact ⟨w1, h2, hd, fun i => hdead (st.vecs src) i hdata⟩

/-- With `a = [1, 2, 3, 4]` and `b = [10, 20, 30, 40]` of `int`, the vector of `int`
constructed from `a + b` is `[11, 22, 33, 44]`, in a block of its own at the next
address `2`; the vector of `int` constructed from `a` holds the block of `a`, at
the address `0`, and after its destructor `a[0]` reads a released block. -/
theorem construct_from_expression_witness :
    (∃ (v : vector) (h : Heap exactHost),
      vector.construct .int
        (twoVectors exactHost .int (ints exactHost [1, 2, 3, 4]) .int
          (ints exactHost [10, 20, 30, 40]))
        (.vec_vec_exp .op_add (.vector 0) (.vector 1)) = .ok (v, h) ∧
      v.m_size = 4 ∧ v.m_own_data = true ∧ v.m_data = some 2 ∧
      (List.range 4).map (v.get h) =
        [.ok (.int .int 11), .ok (.int .int 22), .ok (.int .int 33), .ok (.int .int 44)]) ∧
    (∃ (w w1 : vector) (h2 : Heap exactHost),
      vector.construct .int
        (twoVectors exactHost .int (ints exactHost [1, 2, 3, 4]) .int
          (ints exactHost [10, 20, 30, 40]))
        (.vector 0) =
        .ok (w, (twoVectors exactHost .int (ints exactHost [1, 2, 3, 4]) .int
          (ints exactHost [10, 20, 30, 40])).heap) ∧
      w.m_own_data = true ∧ w.m_data = some 0 ∧
      w.destroy (twoVectors exactHost .int (ints exactHost [1, 2, 3, 4]) .int
          (ints exactHost [10, 20, 30, 40])).heap = .ok (w1, h2) ∧
      ((twoVectors exactHost .int (ints exactHost [1, 2, 3, 4]) .int
          (ints exactHost [10, 20, 30, 40])).vecs 0).get h2 0 = .error .deadBlock) := by
  constructor
  · obtain ⟨v, h, hv, _, hsize, hown, hdata, _, hget, _⟩ :=
      (construct_from_expression (H := exactHost) .int
        (twoVectors exactHost .int (ints exactHost [1, 2, 3, 4]) .int
          (ints exactHost [10, 20, 30, 40]))
        (.vec_vec_exp .op_add (.vector 0) (.vector 1))
        (fun i => .int .int ([11, 22, 33, 44].getD i 0)) (by decide) (by decide)).1 rfl
    refine ⟨v, h, hv, hsize.trans rfl, hown, hdata.trans rfl, ?_⟩
    simp [List.range, List.range.loop, hget 0 (by decide), hget 1 (by decide),
      hget 2 (by decide), hget 3 (by decide)]
  · obtain ⟨w, hw, _, _, hown, hdata, _, hdestroy⟩ :=
      (construct_from_expression (H := exactHost) .int
        (twoVectors exactHost .int (ints exactHost [1, 2, 3, 4]) .int
          (ints exactHost [10, 20, 30, 40]))
        (.vector 0)
        (fun i => .int .int ([1, 2, 3, 4].getD i 0)) (by decide) (by decide)).2 0 rfl rfl
    obtain ⟨w1, h2, hd, hdead⟩ := hdestroy 0 rfl rfl rfl
    exact ⟨w, w1, h2, hw, hown.trans rfl, hdata.trans rfl, hd, hdead 0⟩

/-! ## Assignment from an expression -/

theorem vector.release_eq (h : Heap H) (v : vector) (hs : v.sound h = true) :
    v.release h = .ok (releasedHeap h v) := by
  unfold vector.release releasedHeap
  unfold vector.sound at hs
  split
  · rename_i a hown hdata
    simp only [hown, hdata] at hs
    cases hb : h.blocks a with
    | none => simp [hb] at hs
    | some b => simp [Heap.free, hb]
  · rfl

theorem releasedHeap_next (h : Heap H) (v : vector) : (releasedHeap h v).next = h.next := by
  unfold releasedHeap
  split <;> rfl

theorem releasedHeap_blocks (h : Heap H) (v : vector) (a : Nat)
    (ha : v.m_data ≠ some a) : (releasedHeap h v).blocks a = h.blocks a := by
  unfold releasedHeap
  split
  · rename_i a0 _ hdata
    have hne : a ≠ a0 := fun e => ha (by rw [hdata, e])
    simp [Function.update_noteq hne]
  · rfl

theorem Exp.apartFrom_spec (st : State H) (e : Exp H) (this : Nat)
    (h : e.apartFrom st this = true) (id : Nat) (hid : id ∈ e.leaves) :
    id ≠ this ∧ ∀ a, (st.vecs id).m_data = some a → (st.vecs this).m_data ≠ some a := by
  have := List.all_eq_true.mp h id hid
  simp only [Bool.and_eq_true, decide_eq_true_eq] at this
  refine ⟨this.1, ?_⟩
  intro a ha
  simpa [ha] using this.2

/-- The assignment from an expression that is apart from the destination, in
closed form. -/
theorem vector.assign_eq (st : State H) (this : Nat) (e : Exp H) (ys : Nat → Val H)
    (halloc : e.allocated st = true) (hapart : e.apartFrom st this = true)
    (hsound : (st.vecs this).sound st.heap = true)
    (hval : ∀ i, i < e.size st → e.getAs (st.vecs this).stored st i = .ok (ys i)) :
    vector.assign st this e = .ok (assignedState st this (e.size st) ys) := by
  have hnext := releasedHeap_next st.heap (st.vecs this)
  -- the released heap looks the same from the expression
  have hframe : ∀ id ∈ e.leaves,
      (State.mk st.vecs (releasedHeap st.heap (st.vecs this))).vecs id = st.vecs id ∧
      ∀ a, (st.vecs id).m_data = some a →
        (State.mk st.vecs (releasedHeap st.heap (st.vecs this))).heap.blocks a =
          st.heap.blocks a := by
    intro id hid
    refine ⟨rfl, fun a ha => ?_⟩
    exact releasedHeap_blocks _ _ a ((Exp.apartFrom_spec st e this hapart id hid).2 a ha)
  have hsize1 : e.size (State.mk st.vecs (releasedHeap st.heap (st.vecs this))) = e.size st :=
    Exp.size_frame e st _ (fun _ _ => rfl)
  -- the temporary
  have htmp := vector.ofExp_eq (st.vecs this).stored
    (State.mk st.vecs (releasedHeap st.heap (st.vecs this))) e ys
    (by
      have := halloc
      unfold Exp.allocated at this ⊢
      simpa [hnext] using this)
    (by
      intro i hi
      rw [Exp.getAs_frame _ e st _ i hframe]
      exact hval i (by rw [← hsize1]; exact hi))
  simp only [hsize1, hnext] at htmp
  -- the size read back through the updated destination
  have hsize2 : ∀ (h : Heap H), e.size (State.mk
      (Function.update st.vecs this { st.vecs this with m_own_data := true }) h) = e.size st := by
    intro h
    apply Exp.size_frame
    intro id hid
    exact Function.update_noteq (Exp.apartFrom_spec st e this hapart id hid).1 _ _
  -- the copy loop
  have hloop := forLoop_fill
    (fun i h => (vector.mk (st.vecs this).stored true (e.size st) (some st.heap.next)).get h i)
    (st.heap.next + 1) ys (e.size st) []
    ⟨Function.update
      (Function.update (releasedHeap st.heap (st.vecs this)).blocks st.heap.next
        (some (filledBlock (e.size st) ys)))
      (st.heap.next + 1) (some (List.replicate (e.size st) none)), st.heap.next + 1 + 1⟩
    (by simp)
    (by
      intro h1 i _ hi hag
      have hne : st.heap.next ≠ st.heap.next + 1 := by omega
      apply read_filled h1.blocks h1.next st.heap.next (e.size st) ys i (by simpa using hi)
      rw [hag _ hne]
      simp [Function.update_noteq hne, filledBlock])
  simp only [List.length_nil, List.nil_append] at hloop
  unfold filledBlock at hloop
  have hcopy : forLoop
      (vector.copyElement
        (vector.mk (st.vecs this).stored true (e.size st) (some st.heap.next))
        (some (st.heap.next + 1))) (e.size st) 0
      ⟨Function.update
        (Function.update (releasedHeap st.heap (st.vecs this)).blocks st.heap.next
          (some ((List.range' 0 (e.size st)).map (fun j => some (ys j)))))
        (st.heap.next + 1) (some (List.replicate (e.size st) none)), st.heap.next + 1 + 1⟩ = _ :=
    hloop
  unfold vector.assign
  simp only [vector.release_eq _ _ hsound, htmp, hsize2, Heap.alloc, Function.update_same]
  rw [hcopy]
  simp only [vector.destroy, vector.release, Heap.free, Function.update_same,
    Function.update_idem]
  have hne : st.heap.next ≠ st.heap.next + 1 := by omega
  simp [Function.update_noteq hne, assignedState, filledBlock]

theorem assignedState_frame (st : State H) (this : Nat) (e : Exp H) (ys : Nat → Val H)
    (halloc : e.allocated st = true) (hapart : e.apartFrom st this = true) :
    ∀ id ∈ e.leaves,
      (assignedState st this (e.size st) ys).vecs id = st.vecs id ∧
      ∀ a, (st.vecs id).m_data = some a →
        (assignedState st this (e.size st) ys).heap.blocks a = st.heap.blocks a := by
  intro id hid
  obtain ⟨hne, hdata⟩ := Exp.apartFrom_spec st e this hapart id hid
  refine ⟨Function.update_noteq hne _ _, fun a ha => ?_⟩
  have hlt := Exp.allocated_lt st e halloc id hid a ha
  have h1 : a ≠ st.heap.next := by omega
  have h2 : a ≠ st.heap.next + 1 := by omega
  simp only [assignedState, Function.update_noteq h1, Function.update_noteq h2]
  exact releasedHeap_blocks _ _ a (hdata a ha)

/-- Claim C6. The statement `v = e` for an existing vector `v`, empty or filled, and an
expression `e` that does not refer to `v` and whose elements have values that
convert to the element type of `v`.  When `e` is not itself a vector of the
element type of `v`, the member template `operator=` runs: afterwards `v` owns a
block that did not exist before, of exactly `e.size()` elements, `v.size()` is
`e.size()`, the element `i` of `v` is `e[i]` converted, every other vector object
is as before, and the vectors `e` refers to read as before, so that `e` has
the same size and elements as before.  When `e` is a vector of the element
type of `v`, the copy assignment operator runs instead: `v` gets the size and
the elements of `e`, but no block is released and none is allocated, so that
the block `v` held stays as it was, and `v` holds the block of `e`, with the flag
`m_own_data` of `e`; when `e` owns that block, the destructor of `v` releases it,
and `e` then reads a released block. -/
theorem assign_from_expression (st : State H) (this : Nat) (e : Exp H) (ys : Nat → Val H)
    (halloc : e.allocated st = true) (hapart : e.apartFrom st this = true)
    (hsound : (st.vecs this).sound st.heap = true)
    (hval : ∀ i, i < e.size st → e.getAs (st.vecs this).stored st i = .ok (ys i)) :
    (e.isCopyOf (st.vecs this).stored st = false →
      ∃ st1 : State H, vector.assignFrom st this e = .ok st1 ∧
        (st1.vecs this).stored = (st.vecs this).stored ∧
        (st1.vecs this).m_own_data = true ∧
        (st1.vecs this).m_size = e.size st ∧
        (∃ a b, (st1.vecs this).m_data = some a ∧ st.heap.next ≤ a ∧
          st1.heap.blocks a = some b ∧ b.length = e.size st) ∧
        (∀ i, i < e.size st → (st1.vecs this).get st1.heap i = .ok (ys i)) ∧
        (∀ id, id ≠ this → st1.vecs id = st.vecs id) ∧
        (∀ id ∈ e.leaves, ∀ i, (st1.vecs id).get st1.heap i = (st.vecs id).get st.heap i) ∧
        e.size st1 = e.size st ∧ (∀ i, e.get st1 i = e.get st i)) ∧
    (∀ src, e = .vector src → (st.vecs src).stored = (st.vecs this).stored →
      ∃ st1 : State H, vector.assignFrom st this e = .ok st1 ∧
        st1.heap = st.heap ∧
        (st1.vecs this).stored = (st.vecs this).stored ∧
        (st1.vecs this).m_size = e.size st ∧
        (st1.vecs this).m_own_data = (st.vecs src).m_own_data ∧
        (st1.vecs this).m_data = (st.vecs src).m_data ∧
        ((st1.vecs this).m_data ≠ none →
          (st1.vecs this).m_data ≠ (st.vecs this).m_data) ∧
        (∀ i, (st1.vecs this).get st1.heap i = e.get st i) ∧
        (∀ id, id ≠ this → st1.vecs id = st.vecs id) ∧
        ∀ a, (st.vecs src).m_own_data = true → (st.vecs src).m_data = some a →
          (st.heap.blocks a).isSome = true →
          ∃ (w1 : vector) (h2 : Heap H),
            (st1.vecs this).destroy st1.heap = .ok (w1, h2) ∧
            ∀ i, (st1.vecs src).get h2 i = .error .deadBlock) := by
  constructor
  · intro hnc
    rw [vector.assignFrom_template st this e hnc]
    have hframe := assignedState_frame st this e ys halloc hapart
    have hne : st.heap.next + 1 ≠ st.heap.next := by omega
    have hblock : (assignedState st this (e.size st) ys).heap.blocks (st.heap.next + 1) =
        some (filledBlock (e.size st) ys) := by
      simp [assignedState, Function.update_noteq hne]
    have hthis : (assignedState st this (e.size st) ys).vecs this =
        { stored := (st.vecs this).stored, m_own_data := true, m_size := e.size st,
          m_data := some (st.heap.next + 1) } := by
      simp [assignedState]
    refine ⟨assignedState st this (e.size st) ys,
      vector.assign_eq st this e ys halloc hapart hsound hval, ?_, ?_, ?_, ?_, ?_, ?_, ?_, ?_, ?_⟩
    · rw [hthis]
    · rw [hthis]
    · rw [hthis]
    · exact ⟨st.heap.next + 1, filledBlock (e.size st) ys, by rw [hthis], by omega, hblock,
        by simp [filledBlock]⟩
    · intro i hi
      rw [hthis]
      exact read_filled _ _ _ _ ys i hi hblock
    · intro id hid
      exact Function.update_noteq hid _ _
    · intro id hid i
      obtain ⟨hv, hb⟩ := hframe id hid
      rw [hv]
      unfold vector.get
      cases hd : (st.vecs id).m_data with
      | none => rfl
      | some a => simp [Heap.read, hb a hd]
    · exact Exp.size_frame e st _ (fun id hid => (hframe id hid).1)
    · intro i
      exact Exp.get_frame e st _ i hframe
  · intro src he hT
    subst he
    obtain ⟨hne, hblock⟩ := Exp.apartFrom_spec st (.vector src) this hapart src
      (by simp [Exp.leaves])
    refine ⟨vector.copyAssign st this src, by simp [vector.assignFrom, hT], rfl, ?_, ?_, ?_,
      ?_, ?_, ?_, ?_, ?_⟩
    · simp [vector.copyAssign]
    · simp [vector.copyAssign, Exp.size]
    · simp [vector.copyAssign]
    · simp [vector.copyAssign]
    · simp only [vector.copyAssign, Function.update_same]
      intro hsome heq
      cases hd : (st.vecs src).m_data with
      | none => exact hsome hd
      | some a => exact hblock a hd (heq.symm.trans hd)
    · intro i
      simp [vector.copyAssign, vector.get, Exp.get]
    · intro id hid
      simp [vector.copyAssign, Function.update_noteq hid]
    · intro a hown hdata hlive
      obtain ⟨w1, h2, hd, hdead⟩ := vector.destroy_shared st.heap
        ((vector.copyAssign st this src).vecs this) a
        (by simp [vector.copyAssign, hown]) (by simp [vector.copyAssign, hdata]) hlive
      refine ⟨w1, h2, hd, fun i => hdead _ i ?_⟩
      simp [vector.copyAssign, Function.update_noteq hne, hdata]

/-- With `a = [1, 2, 3]` and `b = [4, 5, 6, 7]` of `int`, the assignment `b = a * 2`
makes `b` the vector `[2, 4, 6]` and leaves `a` as it was; the assignment `b = a`
leaves `b` with the block of `a`, at the address `0`, and the block `b` held, at the
address `1`, as it was, and after the destructor of `b` then `a[0]` reads a
released block. -/
theorem assign_from_expression_witness :
    (∃ st1 : State exactHost,
      vector.assignFrom
        (twoVectors exactHost .int (ints exactHost [1, 2, 3]) .int (ints exactHost [4, 5, 6, 7]))
        1 (.vec_scalar_exp .op_mul (.vector 0) (.int .int 2)) = .ok st1 ∧
      (st1.vecs 1).m_size = 3 ∧ (st1.vecs 1).m_own_data = true ∧
      (List.range 3).map ((st1.vecs 1).get st1.heap) =
        [.ok (.int .int 2), .ok (.int .int 4), .ok (.int .int 6)] ∧
      (List.range 3).map ((st1.vecs 0).get st1.heap) =
        [.ok (.int .int 1), .ok (.int .int 2), .ok (.int .int 3)]) ∧
    (∃ (st1 : State exactHost) (w1 : vector) (h2 : Heap exactHost),
      vector.assignFrom
        (twoVectors exactHost .int (ints exactHost [1, 2, 3]) .int (ints exactHost [4, 5, 6, 7]))
        1 (.vector 0) = .ok st1 ∧
      (st1.vecs 1).m_own_data = true ∧ (st1.vecs 1).m_data = some 0 ∧
      (st1.vecs 0).m_data = some 0 ∧
      st1.heap.blocks 1 = some ((ints exactHost [4, 5, 6, 7]).map some) ∧
      (st1.vecs 1).destroy st1.heap = .ok (w1, h2) ∧
      (st1.vecs 0).get h2 0 = .error .deadBlock) := by
  constructor
  · obtain ⟨st1, hst, _, hown, hsize, _, hget, _, hleaves, _⟩ :=
      (assign_from_expression (H := exactHost)
        (twoVectors exactHost .int (ints exactHost [1, 2, 3]) .int (ints exactHost [4, 5, 6, 7]))
        1 (.vec_scalar_exp .op_mul (.vector 0) (.int .int 2))
        (fun i => .int .int ([2, 4, 6].getD i 0)) (by decide) (by decide) (by decide)
        (by decide)).1 rfl
    refine ⟨st1, hst, hsize.trans rfl, hown, ?_, ?_⟩
    · simp [List.range, List.range.loop, hget 0 (by decide), hget 1 (by decide),
        hget 2 (by decide)]
    · have h0 := hleaves 0 (by decide)
      simp only [List.range, List.range.loop, List.map, h0]
      decide
  · obtain ⟨st1, hst, hheap, _, _, hown, hdata, _, _, hrest, hdestroy⟩ :=
      (assign_from_expression (H := exactHost)
        (twoVectors exactHost .int (ints exactHost [1, 2, 3]) .int (ints exactHost [4, 5, 6, 7]))
        1 (.vector 0)
        (fun i => .int .int ([1, 2, 3].getD i 0)) (by decide) (by decide) (by decide)
        (by decide)).2 0 rfl rfl
    obtain ⟨w1, h2, hd, hdead⟩ := hdestroy 0 rfl rfl rfl
    have h0 : st1.vecs 0 = _ := hrest 0 (by decide)
    refine ⟨st1, w1, h2, hst, hown.trans rfl, hdata.trans rfl, ?_, ?_, hd, hdead 0⟩
    · rw [h0]
      rfl
    · rw [hheap]
      rfl

/-! ## Assignment from an expression over the destination itself -/

/-- The assignment `v = v + k` to a vector that owns a block with at least one
element: the first element the temporary asks for is read from the block
that was just released. -/
theorem vector.assign_self_plus (st : State H) (this a : Nat) (k : Val H)
    (b : List (Option (Val H)))
    (hown : (st.vecs this).m_own_data = true) (hdata : (st.vecs this).m_data = some a)
    (hlive : st.heap.blocks a = some b) (hlt : a < st.heap.next)
    (hsize : 0 < (st.vecs this).m_size) :
    vector.assign st this (.vec_scalar_exp .op_add (.vector this) k) = .error .deadBlock := by
  have hsound : (st.vecs this).sound st.heap = true := by
    simp [vector.sound, hown, hdata, hlive]
  obtain ⟨n, hn⟩ : ∃ n, (st.vecs this).m_size = n + 1 :=
    ⟨(st.vecs this).m_size - 1, by omega⟩
  have hne : a ≠ st.heap.next := by omega
  have hof : vector.ofExp (st.vecs this).stored
      (State.mk st.vecs (releasedHeap st.heap (st.vecs this)))
      (.vec_scalar_exp .op_add (.vector this) k) = .error .deadBlock := by
    simp [vector.ofExp, Exp.size, hn, forLoop, vector.storeElement, Exp.getAs, Exp.get,
      vector.get, hdata, Heap.read, Heap.alloc, releasedHeap, hown,
      Function.update_noteq hne]
  unfold vector.assign
  simp only [vector.release_eq _ _ hsound, hof]

/-- Claim C1, at the input `v = [1, 2, 3]`, `v = v + 10`.  Read before the
assignment, the elements of `v + 10` are `11, 12, 13`; the assignment releases
the block of `v` first and then evaluates `v + 10` for the temporary, which
reads the released block, so it does not produce a vector at all. -/
theorem assign_aliased_reads_released_block :
    (List.range 3).map
        ((Exp.vec_scalar_exp .op_add (.vector 0) (.int .int 10)).get
          (oneVector exactHost .int (ints exactHost [1, 2, 3]))) =
      [.ok (.int .int 11), .ok (.int .int 12), .ok (.int .int 13)] ∧
    (oneVector exactHost .int (ints exactHost [1, 2, 3])).vecs 0 =
      { stored := .int, m_own_data := true, m_size := 3, m_data := some 0 } ∧
    vector.assign (oneVector exactHost .int (ints exactHost [1, 2, 3])) 0
        (.vec_scalar_exp .op_add (.vector 0) (.int .int 10)) = .error .deadBlock :=
  ⟨by decide, by decide, by rfl⟩

/-! ## The gate on scalar operands -/

/-- Claim C14. The predicate `_is_numeric` is true on the six numeric types and on no
other type.  Each overload with a scalar operand (`+ - * /` with the scalar on
the right, `+ - *` with the scalar on the left) yields a node exactly when the
type of the scalar is numeric; the node then holds the scalar as it was
passed, and for a scalar of any other type no overload is viable. -/
theorem numeric_gating (l r : Exp H) (k : Val H) :
    (∀ T, _is_numeric T = true ↔ T ∈ numericTypes) ∧
    numericTypes.length = 6 ∧
    (∀ n, _is_numeric (.other n) = false) ∧
    ((∃ e, operator_plus_vs l k = .ok e) ↔ _is_numeric k.type = true) ∧
    ((∃ e, operator_minus_vs l k = .ok e) ↔ _is_numeric k.type = true) ∧
    ((∃ e, operator_times_vs l k = .ok e) ↔ _is_numeric k.type = true) ∧
    ((∃ e, operator_div_vs l k = .ok e) ↔ _is_numeric k.type = true) ∧
    ((∃ e, operator_plus_sv k r = .ok e) ↔ _is_numeric k.type = true) ∧
    ((∃ e, operator_minus_sv k r = .ok e) ↔ _is_numeric k.type = true) ∧
    ((∃ e, operator_times_sv k r = .ok e) ↔ _is_numeric k.type = true) ∧
    (_is_numeric k.type = true →
      operator_plus_vs l k = .ok (.vec_scalar_exp .op_add l k) ∧
      operator_minus_vs l k = .ok (.vec_scalar_exp .op_sub l k) ∧
      operator_times_vs l k = .ok (.vec_scalar_exp .op_mul l k) ∧
      operator_div_vs l k = .ok (.vec_scalar_exp .op_div l k) ∧
      operator_plus_sv k r = .ok (.scalar_vec_exp .op_add k r) ∧
      operator_minus_sv k r = .ok (.scalar_vec_exp .op_sub k r) ∧
      operator_times_sv k r = .ok (.scalar_vec_exp .op_mul k r)) ∧
    (_is_numeric k.type = false →
      operator_plus_vs l k = .error .noOverload ∧
      operator_minus_vs l k = .error .noOverload ∧
      operator_times_vs l k = .error .noOverload ∧
      operator_div_vs l k = .error .noOverload ∧
      operator_plus_sv k r = .error .noOverload ∧
      operator_minus_sv k r = .error .noOverload ∧
      operator_times_sv k r = .error .noOverload) := by
  refine ⟨is_numeric_iff, rfl, fun n => rfl, ?_, ?_, ?_, ?_, ?_, ?_, ?_, ?_, ?_⟩
  all_goals
    cases hk : _is_numeric k.type <;>
      simp [operator_plus_vs, operator_minus_vs, operator_times_vs, operator_div_vs,
        operator_plus_sv, operator_minus_sv, operator_times_sv, _enable_if, hk,
        new_vec_scalar_exp, new_scalar_vec_exp]

/-- With `a = [1]` and a string as the scalar, `a + s` has no viable overload, and
neither has `s * a`. -/
theorem numeric_gating_witness :
    operator_plus_vs (H := exactHost) (.vector 0) (.other "std::string") = .error .noOverload ∧
    operator_times_sv (H := exactHost) (.other "std::string") (.vector 0) =
      .error .noOverload :=
  ⟨((numeric_gating (H := exactHost) (.vector 0) (.vector 0)
      (.other "std::string")).2.2.2.2.2.2.2.2.2.2.2 rfl).1,
   ((numeric_gating (H := exactHost) (.vector 0) (.vector 0)
      (.other "std::string")).2.2.2.2.2.2.2.2.2.2.2 rfl).2.2.2.2.2.2⟩

/-! ## Promotion as a maximum -/

theorem rank_injective (L R : CType) (hL : _is_numeric L = true) (hR : _is_numeric R = true)
    (h : L.rank = R.rank) : L = R := by
  rcases L with (_ | _ | _ | _) | (_ | _) | n <;>
    rcases R with (_ | _ | _ | _) | (_ | _) | m <;>
    first
    | rfl
    | exact absurd hL Bool.false_ne_true
    | exact absurd hR Bool.false_ne_true
    | exact absurd h (by decide)

theorem return_type_eq_max (L R : CType) (hL : _is_numeric L = true)
    (hR : _is_numeric R = true) : _return_type L R = some (L.max R) := by
  rcases L with (_ | _ | _ | _) | (_ | _) | n <;>
    rcases R with (_ | _ | _ | _) | (_ | _) | m <;>
    first
    | rfl
    | exact absurd hL Bool.false_ne_true
    | exact absurd hR Bool.false_ne_true

theorem max_numeric (L R : CType) (hL : _is_numeric L = true) (hR : _is_numeric R = true) :
    _is_numeric (L.max R) = true := by
  unfold CType.max
  split <;> assumption

theorem max_rank (L R : CType) : (L.max R).rank = max L.rank R.rank := by
  unfold CType.max
  split <;> omega

/-- The element type of a tree over numeric types is one of the types that enter
it, and no type that enters it is larger. -/
theorem stored_type_is_max (st : State H) (e : Exp H)
    (hnum : ∀ U ∈ e.types st, _is_numeric U = true) :
    ∃ T, e.stored_type st = some T ∧ T ∈ e.types st ∧ _is_numeric T = true ∧
      ∀ U ∈ e.types st, U.rank ≤ T.rank := by
  induction e with
  | vector id =>
    exact ⟨_, rfl, by simp [Exp.types], hnum _ (by simp [Exp.types]), by simp [Exp.types]⟩
  | vec_vec_exp op l r ihl ihr =>
    obtain ⟨A, hA, hAm, hAn, hAle⟩ := ihl (fun U hU => hnum U (by simp [Exp.types, hU]))
    obtain ⟨B, hB, hBm, hBn, hBle⟩ := ihr (fun U hU => hnum U (by simp [Exp.types, hU]))
    refine ⟨A.max B, by simp [Exp.stored_type, hA, hB, return_type_eq_max A B hAn hBn], ?_,
      max_numeric A B hAn hBn, ?_⟩
    · unfold CType.max
      split <;> simp [Exp.types, hAm, hBm]
    · intro U hU
      rw [max_rank]
      simp only [Exp.types, List.mem_append] at hU
      rcases hU with hU | hU
      · exact le_trans (hAle U hU) (le_max_left _ _)
      · exact le_trans (hBle U hU) (le_max_right _ _)
  | vec_scalar_exp op l k ihl =>
    obtain ⟨A, hA, hAm, hAn, hAle⟩ := ihl (fun U hU => hnum U (by simp [Exp.types, hU]))
    have hk : _is_numeric k.type = true := hnum _ (by simp [Exp.types])
    refine ⟨A.max k.type, by simp [Exp.stored_type, hA, return_type_eq_max A k.type hAn hk],
      ?_, max_numeric A k.type hAn hk, ?_⟩
    · unfold CType.max
      split <;> simp [Exp.types, hAm]
    · intro U hU
      rw [max_rank]
      simp only [Exp.types, List.mem_append, List.mem_singleton] at hU
      rcases hU with hU | hU
      · exact le_trans (hAle U hU) (le_max_left _ _)
      · rw [hU]; exact le_max_right _ _
  | scalar_vec_exp op k r ihr =>
    obtain ⟨B, hB, hBm, hBn, hBle⟩ := ihr (fun U hU => hnum U (by simp [Exp.types, hU]))
    have hk : _is_numeric k.type = true := hnum _ (by simp [Exp.types])
    refine ⟨k.type.max B, by simp [Exp.stored_type, hB, return_type_eq_max k.type B hk hBn],
      ?_, max_numeric k.type B hk hBn, ?_⟩
    · unfold CType.max
      split <;> simp [Exp.types, hBm]
    · intro U hU
      rw [max_rank]
      simp only [Exp.types, List.mem_cons] at hU
      rcases hU with hU | hU
      · rw [hU]; exact le_max_left _ _
      · exact le_trans (hBle U hU) (le_max_right _ _)

theorem max_assoc_types (A B C : CType) (hA : _is_numeric A = true)
    (hB : _is_numeric B = true) (hC : _is_numeric C = true) :
    (A.max B).max C = A.max (B.max C) := by
  apply rank_injective _ _
    (max_numeric _ _ (max_numeric A B hA hB) hC) (max_numeric _ _ hA (max_numeric B C hB hC))
  simp only [max_rank]
  omega

/-- Claim C19. In the order `char < short < int < long int < float < double` the table
`_return_type` gives the larger of its two arguments; so it is idempotent and
associative, and the element type of a tree over numeric vectors and scalars
is the largest of the types that enter it, the same for any other tree that
the same types enter, however it is parenthesised. -/
theorem promotion_is_max (st : State H) (e : Exp H)
    (hnum : ∀ U ∈ e.types st, _is_numeric U = true) :
    (CType.char.rank < CType.short.rank ∧ CType.short.rank < CType.int.rank ∧
      CType.int.rank < CType.long.rank ∧ CType.long.rank < CType.float.rank ∧
      CType.float.rank < CType.double.rank) ∧
    (∀ L R, _is_numeric L = true → _is_numeric R = true →
      _return_type L R = some (L.max R)) ∧
    (∀ T, _is_numeric T = true → _return_type T T = some T) ∧
    (∀ A B C, _is_numeric A = true → _is_numeric B = true → _is_numeric C = true →
      (_return_type A B).bind (fun T => _return_type T C) =
        (_return_type B C).bind (fun T => _return_type A T)) ∧
    (∃ T, e.stored_type st = some T ∧ T ∈ e.types st ∧
      ∀ U ∈ e.types st, U.rank ≤ T.rank) ∧
    (∀ (st2 : State H) (e2 : Exp H), (∀ U, U ∈ e2.types st2 ↔ U ∈ e.types st) →
      e2.stored_type st2 = e.stored_type st) := by
  refine ⟨by decide, return_type_eq_max, fun T _ => by simp [_return_type], ?_, ?_, ?_⟩
  · intro A B C hA hB hC
    rw [return_type_eq_max A B hA hB, return_type_eq_max B C hB hC]
    simp only [Option.some_bind]
    rw [return_type_eq_max _ C (max_numeric A B hA hB) hC,
      return_type_eq_max A _ hA (max_numeric B C hB hC), max_assoc_types A B C hA hB hC]
  · obtain ⟨T, hT, hm, _, hle⟩ := stored_type_is_max st e hnum
    exact ⟨T, hT, hm, hle⟩
  · intro st2 e2 hsame
    obtain ⟨T, hT, hm, hn, hle⟩ := stored_type_is_max st e hnum
    obtain ⟨T2, hT2, hm2, hn2, hle2⟩ := stored_type_is_max st2 e2
      (fun U hU => hnum U ((hsame U).mp hU))
    have h1 : T2.rank ≤ T.rank := hle T2 ((hsame T2).mp hm2)
    have h2 : T.rank ≤ T2.rank := hle2 T ((hsame T).mpr hm)
    rw [hT, hT2, rank_injective T2 T hn2 hn (by omega)]

/-- The trees `(B * 2 + C) - 0.5f` and `0.5f * (C + (B - 2))` over a vector `B` of `char`
and a vector `C` of `double` both have the element type `double`. -/
theorem promotion_is_max_witness :
    (Exp.vec_scalar_exp .op_sub
        (.vec_vec_exp .op_add (.vec_scalar_exp .op_mul (.vector 0) (.int .int 2)) (.vector 1))
        (.flt .float (1 / 2 : ℚ))).stored_type
      (twoVectors exactHost .char [.int .char 7] .double [.flt .double (3 : ℚ)]) =
      some .double ∧
    (Exp.scalar_vec_exp .op_mul (.flt .float (1 / 2 : ℚ))
        (.vec_vec_exp .op_add (.vector 1)
          (.vec_scalar_exp .op_sub (.vector 0) (.int .int 2)))).stored_type
      (twoVectors exactHost .char [.int .char 7] .double [.flt .double (3 : ℚ)]) =
      (Exp.vec_scalar_exp .op_sub
        (.vec_vec_exp .op_add (.vec_scalar_exp .op_mul (.vector 0) (.int .int 2)) (.vector 1))
        (.flt .float (1 / 2 : ℚ))).stored_type
      (twoVectors exactHost .char [.int .char 7] .double [.flt .double (3 : ℚ)]) :=
  ⟨rfl,
   (promotion_is_max
      (twoVectors exactHost .char [.int .char 7] .double [.flt .double (3 : ℚ)])
      (Exp.vec_scalar_exp .op_sub
        (.vec_vec_exp .op_add (.vec_scalar_exp .op_mul (.vector 0) (.int .int 2)) (.vector 1))
        (.flt .float (1 / 2 : ℚ)))
      (by decide)).2.2.2.2.2 _
      (Exp.scalar_vec_exp .op_mul (.flt .float (1 / 2 : ℚ))
        (.vec_vec_exp .op_add (.vector 1)
          (.vec_scalar_exp .op_sub (.vector 0) (.int .int 2))))
      (by
        intro U
        simp only [Exp.types, twoVectors, Val.type, List.mem_append, List.mem_cons,
          List.mem_singleton]
        simp
        tauto)⟩

/-! ## Subtraction of a scalar, then addition of it -/

theorem wrapBits_modEq (w : Nat) (z : Int) : wrapBits w z ≡ z [ZMOD 2 ^ w] := by
  unfold wrapBits
  have h := (Int.mod_modEq (z + 2 ^ (w - 1)) (2 ^ w)).sub_right (2 ^ (w - 1))
  simpa using h

theorem wrapBits_congr (w : Nat) (a b : Int) (h : a ≡ b [ZMOD 2 ^ w]) :
    wrapBits w a = wrapBits w b := by
  unfold wrapBits
  have h2 : (a + 2 ^ (w - 1)) % 2 ^ w = (b + 2 ^ (w - 1)) % 2 ^ w := h.add_right _
  rw [h2]

theorem wrap_wrap (t : IntTy) (z : Int) : wrap t (wrap t z) = wrap t z :=
  wrapBits_congr _ _ _ (wrapBits_modEq _ _)

theorem wrap_sub_add (t : IntTy) (z c : Int) :
    wrap t (wrap t (wrap t (wrap t z - wrap t c)) + wrap t c) = wrap t z := by
  unfold wrap
  apply wrapBits_congr
  have h1 := wrapBits_modEq t.bits (wrapBits t.bits (wrapBits t.bits z - wrapBits t.bits c))
  have h2 := wrapBits_modEq t.bits (wrapBits t.bits z - wrapBits t.bits c)
  have h3 := wrapBits_modEq t.bits z
  have h4 := ((h1.trans h2).add_right (wrapBits t.bits c))
  simp only [sub_add_cancel] at h4
  exact h4.trans h3

/-- Claim C11, as amended.  For an expression `a` with a numeric element `x` at index
`i` and a numeric scalar `k`, with `T = _return_type` of their types: the node `a - k`
has an element `d` of type `T` there, `x` converts to `T`, and `op_add d k` is `x`
converted to `T`, provided that, when `T` is a floating type, the host
subtraction and addition of `T` are exact at these operands.  When `T` is an
integer type nothing is asked of the host: the equality holds for all values
modulo `2 ^ w`. -/
theorem sub_then_add (st : State H) (a : Exp H) (k x : Val H) (i : Nat) (T : CType)
    (hx : a.get st i = .ok x) (hxn : _is_numeric x.type = true)
    (hk : _is_numeric k.type = true) (hT : _return_type x.type k.type = some T)
    (hexact : ∀ (t : FltTy) (u v : H.F), convert T x = .ok (.flt t u) →
      convert T k = .ok (.flt t v) → H.add t (H.sub t u v) v = u) :
    ∃ d px : Val H, (Exp.vec_scalar_exp .op_sub a k).get st i = .ok d ∧ d.type = T ∧
      convert T x = .ok px ∧ op_add d k = .ok px := by
  rcases x with ⟨t, z⟩ | ⟨t, u⟩ | n
  · rcases k with ⟨s, c⟩ | ⟨s, v⟩ | m
    · refine ⟨.int (t.wider s)
          (wrap (t.wider s) (wrap (t.wider s) z - wrap (t.wider s) c)),
        .int (t.wider s) (wrap (t.wider s) z), ?_, ?_, ?_, ?_⟩ <;>
      cases t <;> cases s <;>
        simp [_return_type, _return_type_table, Val.type] at hT <;>
        subst hT <;>
        simp [Exp.get, hx, Op.call, op_sub, op_add, promoted, _return_type,
          _return_type_table, Val.type, convert, Val.minus, Val.plus, IntTy.wider,
          IntTy.bits, wrap_sub_add]
    · refine ⟨.flt s (H.sub s (H.ofInt s z) v), .flt s (H.ofInt s z), ?_, ?_, ?_, ?_⟩ <;>
      cases t <;> cases s <;>
        simp [_return_type, _return_type_table, Val.type] at hT <;>
        subst hT <;>
        have he := hexact _ _ _ rfl rfl <;>
        simp [Exp.get, hx, Op.call, op_sub, op_add, promoted, _return_type,
          _return_type_table, Val.type, convert, Val.minus, Val.plus, cvtFlt] at he ⊢ <;>
        exact he
    · exact absurd hk Bool.false_ne_true
  · rcases k with ⟨s, c⟩ | ⟨s, v⟩ | m
    · refine ⟨.flt t (H.sub t u (H.ofInt t c)), .flt t u, ?_, ?_, ?_, ?_⟩ <;>
      cases t <;> cases s <;>
        simp [_return_type, _return_type_table, Val.type] at hT <;>
        subst hT <;>
        have he := hexact _ _ _ rfl rfl <;>
        simp [Exp.get, hx, Op.call, op_sub, op_add, promoted, _return_type,
          _return_type_table, Val.type, convert, Val.minus, Val.plus, cvtFlt] at he ⊢ <;>
        exact he
    · refine ⟨.flt (match t, s with | .float, .float => .float | _, _ => .double)
          (H.sub (match t, s with | .float, .float => .float | _, _ => .double)
            (cvtFlt H t (match t, s with | .float, .float => .float | _, _ => .double) u)
            (cvtFlt H s (match t, s with | .float, .float => .float | _, _ => .double) v)),
        .flt (match t, s with | .float, .float => .float | _, _ => .double)
          (cvtFlt H t (match t, s with | .float, .float => .float | _, _ => .double) u),
        ?_, ?_, ?_, ?_⟩ <;>
      cases t <;> cases s <;>
        simp [_return_type, _return_type_table, Val.type] at hT <;>
        subst hT <;>
        have he := hexact _ _ _ rfl rfl <;>
        simp [Exp.get, hx, Op.call, op_sub, op_add, promoted, _return_type,
          _return_type_table, Val.type, convert, Val.minus, Val.plus, cvtFlt] at he ⊢ <;>
        exact he
    · exact absurd hk Bool.false_ne_true
  · exact absurd hxn Bool.false_ne_true

/-- With `a = [-32768]` of `short` and the `char` scalar `1`: the element of `a - 1` wraps to
`32767`, and adding `1` wraps back to `-32768`. -/
theorem sub_then_add_witness :
    ∃ d px : Val exactHost,
      (Exp.vec_scalar_exp .op_sub (.vector 0) (.int .char 1)).get
        (oneVector exactHost .short [.int .short (-32768)]) 0 = .ok d ∧
      d.type = .short ∧
      convert .short (.int .short (-32768)) = .ok px ∧ op_add d (.int .char 1) = .ok px :=
  sub_then_add (H := exactHost) (oneVector exactHost .short [.int .short (-32768)])
    (.vector 0) (.int .char 1) (.int .short (-32768)) 0 .short rfl rfl rfl rfl
    (fun t u v h => by simp [convert] at h)

/-- Claim C11 fails for a floating type.  On the host with binary rounding, with
`a = [1]` of `float` and the `float` scalar `k = 33554432` (both are `float` values): the
element of `a - k` is `-33554432` (the exact difference `-33554431` has 25 significant
bits and is a tie), adding `k` gives `0`, and `a[0]` converted to `float` is `1`. -/
theorem sub_then_add_float_counterexample :
    roundBits 24 1 = 1 ∧ roundBits 24 33554432 = 33554432 ∧
    _return_type (Val.flt (H := roundingHost) .float (1 : ℚ)).type
      (Val.flt (H := roundingHost) .float (33554432 : ℚ)).type = some .float ∧
    (Exp.vec_scalar_exp .op_sub (.vector 0) (.flt .float (33554432 : ℚ))).get
      (oneVector roundingHost .float [.flt .float (1 : ℚ)]) 0 =
      .ok (.flt .float (-33554432 : ℚ)) ∧
    op_add (H := roundingHost) (.flt .float (-33554432 : ℚ)) (.flt .float (33554432 : ℚ)) =
      .ok (.flt .float (0 : ℚ)) ∧
    convert (H := roundingHost) .float (.flt .float (1 : ℚ)) = .ok (.flt .float (1 : ℚ)) ∧
    op_add (H := roundingHost) (.flt .float (-33554432 : ℚ)) (.flt .float (33554432 : ℚ)) ≠
      convert (H := roundingHost) .float (.flt .float (1 : ℚ)) := by
  have h1 : roundFrac 24 1 1 = (8388608, 0, 23) := by decide
  have h2 : roundFrac 24 33554432 1 = (8388608, 2, 0) := by decide
  have h3 : roundFrac 24 33554431 1 = (16777216, 1, 0) := by decide
  have hsub : roundBits 24 ((1 : ℚ) - 33554432) = -33554432 := by
    norm_num [roundBits, h3, scale]
  have hadd : roundBits 24 (0 : ℚ) = 0 := by
    simp [roundBits]
  refine ⟨by norm_num [roundBits, h1, scale], by norm_num [roundBits, h2, scale], rfl, ?_, ?_,
    rfl, ?_⟩
  · simp [Exp.get, oneVector, vector.get, Heap.read, Op.call, op_sub, promoted, _return_type,
      Val.type, convert, cvtFlt, Val.minus, FltTy.precision, hsub]
  · simp [op_add, promoted, _return_type, Val.type, convert, cvtFlt, Val.plus,
      FltTy.precision, hadd]
  · simp [op_add, promoted, _return_type, Val.type, convert, cvtFlt, Val.plus,
      FltTy.precision, hadd]

/-! ## Division by a scalar -/

theorem return_type_ints (t s : IntTy) : _return_type (.i t) (.i s) = some (.i (t.wider s)) := by
  cases t <;> cases s <;> rfl

theorem wrap_of_inRange (T : IntTy) (z : Int) (h : inRange T z = true) : wrap T z = z := by
  cases T <;> norm_num [inRange, IntTy.bits] at h <;>
    norm_num [wrap, wrapBits, IntTy.bits] <;> omega

theorem inRange_wider_left (t s : IntTy) (z : Int) (h : inRange t z = true) :
    inRange (t.wider s) z = true := by
  cases t <;> cases s <;> norm_num [inRange, IntTy.bits, IntTy.wider] at h ⊢ <;> omega

theorem inRange_wider_right (t s : IntTy) (c : Int) (h : inRange s c = true) :
    inRange (t.wider s) c = true := by
  cases t <;> cases s <;> norm_num [inRange, IntTy.bits, IntTy.wider] at h ⊢ <;> omega

/-- The truncated quotient of a number in `[-M, M)` by a non-zero number lies in
`[-M, M)` again, except for `-M` divided by `-1`. -/
theorem tdiv_bounds (z c M : Int) (hz1 : -M ≤ z) (hz2 : z < M) (hc : c ≠ 0)
    (hex : ¬(z = -M ∧ c = -1)) : -M ≤ Int.tdiv z c ∧ Int.tdiv z c < M := by
  rcases le_or_lt 0 z with hz | hz
  · rcases lt_or_gt_of_ne hc with hcn | hcp
    · -- z ≥ 0, c < 0
      have h1 : Int.tdiv z c = -(z / (-c)) := by
        have := Int.tdiv_neg z (-c)
        rw [neg_neg] at this
        rw [this, Int.tdiv_eq_ediv hz (by omega)]
      have h2 : 0 ≤ z / (-c) := Int.ediv_nonneg hz (by omega)
      have h3 : z / (-c) ≤ z := Int.ediv_le_self _ hz
      omega
    · have h1 : Int.tdiv z c = z / c := Int.tdiv_eq_ediv hz (by omega)
      have h2 : 0 ≤ z / c := Int.ediv_nonneg hz (by omega)
      have h3 : z / c ≤ z := Int.ediv_le_self _ hz
      omega
  · rcases lt_or_gt_of_ne hc with hcn | hcp
    · -- z < 0, c < 0
      have h1 : Int.tdiv z c = (-z) / (-c) := by
        have := Int.neg_tdiv_neg (-z) (-c)
        rw [neg_neg, neg_neg] at this
        rw [this, Int.tdiv_eq_ediv (by omega) (by omega)]
      have h2 : 0 ≤ (-z) / (-c) := Int.ediv_nonneg (by omega) (by omega)
      have h3 : (-z) / (-c) ≤ -z := Int.ediv_le_self _ (by omega)
      have h4 : (-z) / (-c) * (-c) ≤ -z := Int.ediv_mul_le _ (by omega)
      rcases eq_or_ne c (-1) with hc1 | hc1
      · have hzM : z ≠ -M := fun e => hex ⟨e, hc1⟩
        omega
      · have hc2 : 2 ≤ -c := by omega
        have h5 : (-z) / (-c) * 2 ≤ (-z) / (-c) * (-c) :=
          Int.mul_le_mul_of_nonneg_left hc2 h2
        omega
    · have h1 : Int.tdiv z c = -((-z) / c) := by
        have := Int.neg_tdiv (-z) c
        rw [neg_neg] at this
        rw [this, Int.tdiv_eq_ediv (by omega) (by omega)]
      have h2 : 0 ≤ (-z) / c := Int.ediv_nonneg (by omega) (by omega)
      have h3 : (-z) / c ≤ -z := Int.ediv_le_self _ (by omega)
      omega

theorem op_div_ints (t s : IntTy) (z c : Int) (hz : inRange t z = true)
    (hc : inRange s c = true) :
    op_div (H := H) (.int t z) (.int s c) =
      Val.quot (.int (t.wider s) z) (.int (t.wider s) c) := by
  simp [op_div, promoted, Val.type, return_type_ints, convert,
    wrap_of_inRange _ _ (inRange_wider_left t s z hz),
    wrap_of_inRange _ _ (inRange_wider_right t s c hc)]

/-- Claim C17, as amended.  The overload `a / k` returns its node for every numeric
scalar, zero included.  For an integer element `z` of `a` and an integer
scalar `c`, both in the range of their types, with `T` the promoted type:
converting `c` to `T` leaves it as it is; the element of `a / k` is the
division-by-zero error exactly when `c = 0`; for `c ≠ 0` it is the quotient of
`z` by `c` truncated toward zero, as a value of `T`, except when `z` is the
most negative value of `T` and `c = -1`.  In that one case the quotient is no
value of `T`: for `int` and `long int` the division overflows, for `char` and `short`
the element is `z` itself. -/
theorem div_by_scalar (st : State H) (a : Exp H) (i : Nat) (t s : IntTy) (z c : Int)
    (hx : a.get st i = .ok (.int t z)) (hz : inRange t z = true)
    (hc : inRange s c = true) :
    (∀ k : Val H, _is_numeric k.type = true →
      operator_div_vs a k = .ok (.vec_scalar_exp .op_div a k)) ∧
    convert (H := H) (.i (t.wider s)) (.int s c) = .ok (.int (t.wider s) c) ∧
    ((Exp.vec_scalar_exp .op_div a (.int s c)).get st i = .error .divByZero ↔ c = 0) ∧
    (c ≠ 0 → ¬(z = -(2 ^ ((t.wider s).bits - 1)) ∧ c = -1) →
      (Exp.vec_scalar_exp .op_div a (.int s c)).get st i =
        .ok (.int (t.wider s) (Int.tdiv z c))) ∧
    (z = -(2 ^ ((t.wider s).bits - 1)) → c = -1 →
      (Exp.vec_scalar_exp .op_div a (.int s c)).get st i =
        if 32 ≤ (t.wider s).bits then .error .divOverflow
        else .ok (.int (t.wider s) z)) := by
  have hget : (Exp.vec_scalar_exp .op_div a (.int s c)).get st i =
      Val.quot (.int (t.wider s) z) (.int (t.wider s) c) := by
    simp [Exp.get, hx, Op.call, op_div_ints t s z c hz hc]
  have hzT := inRange_wider_left t s z hz
  have hzT2 := hzT
  simp only [inRange, Bool.and_eq_true, decide_eq_true_eq] at hzT2
  refine ⟨?_, ?_, ?_, ?_, ?_⟩
  · intro k hk
    simp [operator_div_vs, _enable_if, hk, new_vec_scalar_exp]
  · simp [convert, wrap_of_inRange _ _ (inRange_wider_right t s c hc)]
  · rw [hget]
    constructor
    · intro h
      by_contra hne
      simp only [Val.quot, hne, if_false] at h
      split at h <;> cases h
    · intro h
      simp [Val.quot, h]
  · intro hne hex
    rw [hget]
    have hb := tdiv_bounds z c (2 ^ ((t.wider s).bits - 1)) hzT2.1 hzT2.2 hne hex
    have hq : inRange (t.wider s) (Int.tdiv z c) = true := by
      simp only [inRange, Bool.and_eq_true, decide_eq_true_eq]
      exact hb
    have hno : ¬(32 ≤ (t.wider s).bits ∧ z = -(2 ^ ((t.wider s).bits - 1)) ∧ c = -1) :=
      fun h => hex h.2
    simp only [Val.quot, hne, hno, if_false, wrap_of_inRange _ _ hq]
  · intro hzmin hcm
    rw [hget]
    subst hcm
    subst hzmin
    cases t <;> cases s <;>
      norm_num [Val.quot, IntTy.wider, IntTy.bits, wrap, wrapBits]

/-- With `a = [-7]` of `char` and the `int` scalar `2`, the element of `a / 2` is `-3`. -/
theorem div_by_scalar_witness :
    (Exp.vec_scalar_exp .op_div (.vector 0) (.int .int 2)).get
      (oneVector exactHost .char [.int .char (-7)]) 0 = .ok (.int .int (-3)) :=
  (div_by_scalar (H := exactHost) (oneVector exactHost .char [.int .char (-7)])
    (.vector 0) 0 .char .int (-7) 2 rfl (by decide) (by decide)).2.2.2.1
    (by decide) (by decide)

/-- Claim C17 fails where the quotient is not a value of the promoted type.  With
`a = [-2147483648]` of `int` and the `int` scalar `k = -1`, `k` is not zero and the element of
`a / k` is not a quotient: the division overflows.  With `b = [-128]` of `char` and the
`char` scalar `-1`, the element of `b / k` is `-128`, while the quotient is `128`. -/
theorem div_by_scalar_counterexample :
    inRange .int (-2147483648) = true ∧ inRange .int (-1) = true ∧
    (Exp.vec_scalar_exp .op_div (.vector 0) (.int .int (-1))).get
      (oneVector exactHost .int [.int .int (-2147483648)]) 0 = .error .divOverflow ∧
    (Exp.vec_scalar_exp .op_div (.vector 0) (.int .char (-1))).get
      (oneVector exactHost .char [.int .char (-128)]) 0 = .ok (.int .char (-128)) ∧
    Int.tdiv (-128) (-1) = 128 := by
  decide

/-! ## Rendering -/

theorem forLoop_writeElement (fmt : FltTy → H.F → List Nat) (st : State H) (e : Exp H)
    (xs : Nat → Val H) (count : Nat) :
    ∀ (i : Nat) (os : ostream),
      (∀ j, i ≤ j → j < i + count → e.get st j = .ok (xs j)) →
      forLoop (writeElement fmt st e) count i os = .ok
        { text := os.text ++ (List.range' i count).flatMap
            (fun j => (if j ≠ 0 then [32] else []) ++ render fmt (xs j))
          reads := os.reads ++ List.range' i count } := by
  induction count with
  | zero => intro i os _; simp [forLoop]
  | succ n ih =>
    intro i os h
    have hi := h i (le_refl _) (by omega)
    simp only [forLoop, writeElement, hi]
    rw [ih (i + 1) _ (fun j h1 h2 => h j (by omega) (by omega))]
    simp [List.range'_succ, List.append_assoc]

theorem flatMap_pieces (fmt : FltTy → H.F → List Nat) (xs : Nat → Val H) (n : Nat) :
    (List.range' 0 n).flatMap (fun j => (if j ≠ 0 then [32] else []) ++ render fmt (xs j)) =
      renderedText fmt xs n := by
  cases n with
  | zero => rfl
  | succ m =>
    have hcongr : ∀ (l : List Nat), (∀ j ∈ l, j ≠ 0) →
        l.flatMap (fun j => (if j ≠ 0 then [32] else []) ++ render fmt (xs j)) =
          l.flatMap (fun j => 32 :: render fmt (xs j)) := by
      intro l
      induction l with
      | nil => intro _; rfl
      | cons a l ih =>
        intro h
        have ha : a ≠ 0 := h a (by simp)
        simp only [List.flatMap_cons, ha, ne_eq, not_false_eq_true, if_true]
        rw [ih (fun j hj => h j (by simp [hj]))]
        rfl
    simp only [List.range'_succ, List.flatMap_cons, renderedText, ne_eq, not_true_eq_false,
      if_false, List.nil_append, zero_add]
    rw [hcongr]
    intro j hj
    have := (List.mem_range'_1.mp hj).1
    omega

/-- Claim C12. For an expression whose elements all have values, `operator<<` appends
to the stream exactly the text of element 0 followed, for each `i` from 1 to
`n - 1` in increasing order, by one space and the text of element `i`, and
nothing else; for `n = 0` it appends nothing.  It reads each element exactly
once, in the order of the indices. -/
theorem rendering_output (fmt : FltTy → H.F → List Nat) (st : State H) (e : Exp H)
    (os : ostream) (xs : Nat → Val H)
    (hget : ∀ i, i < e.size st → e.get st i = .ok (xs i)) :
    operator_shl fmt st os e = .ok
      { text := os.text ++ renderedText fmt xs (e.size st)
        reads := os.reads ++ List.range (e.size st) } ∧
    renderedText fmt xs 0 = [] ∧
    (List.range (e.size st)).Nodup ∧
    (∀ i, i < e.size st → (List.range (e.size st)).count i = 1) ∧
    (List.range (e.size st)).Sorted (· < ·) := by
  refine ⟨?_, rfl, List.nodup_range _, ?_, List.sorted_lt_range _⟩
  · unfold operator_shl
    rw [forLoop_writeElement fmt st e xs (e.size st) 0 os
      (fun j _ h2 => hget j (by omega))]
    rw [flatMap_pieces, List.range_eq_range']
  · intro i hi
    exact List.count_eq_one_of_mem (List.nodup_range _) (List.mem_range.mpr hi)

/-- With `v = [11, 12, 13]` of `int`, the text written for `v` is `11 12 13` and the elements are
read at the indices `0, 1, 2`. -/
theorem rendering_output_witness :
    operator_shl truncFormat (oneVector exactHost .int (ints exactHost [11, 12, 13]))
        { text := [], reads := [] } (.vector 0) = .ok
      { text := [] ++ renderedText truncFormat
          (fun i => .int .int ([11, 12, 13].getD i 0))
          ((Exp.vector 0 : Exp exactHost).size
            (oneVector exactHost .int (ints exactHost [11, 12, 13])))
        reads := [] ++ List.range ((Exp.vector 0 : Exp exactHost).size
          (oneVector exactHost .int (ints exactHost [11, 12, 13]))) } ∧
    String.mk ((renderedText truncFormat
      (fun i => Val.int (H := exactHost) .int ([11, 12, 13].getD i 0)) 3).map Char.ofNat) =
      "11 12 13" :=
  ⟨(rendering_output truncFormat (oneVector exactHost .int (ints exactHost [11, 12, 13]))
      (.vector 0) { text := [], reads := [] }
      (fun i => .int .int ([11, 12, 13].getD i 0)) (by decide)).1,
   by decide⟩

theorem decimalAux_codes (fuel : Nat) : ∀ (n : Nat) (acc : List Nat),
    (∀ c ∈ acc, 48 ≤ c) → ∀ c ∈ decimalAux fuel n acc, 48 ≤ c := by
  induction fuel with
  | zero => intro n acc h; simpa [decimalAux] using h
  | succ f ih =>
    intro n acc h
    unfold decimalAux
    split
    · intro c hc
      rcases List.mem_cons.mp hc with rfl | hc
      · omega
      · exact h c hc
    · apply ih
      intro c hc
      rcases List.mem_cons.mp hc with rfl | hc
      · omega
      · exact h c hc

theorem decimalAux_ne_nil (fuel : Nat) : ∀ (n : Nat) (acc : List Nat),
    (0 < fuel ∨ acc ≠ []) → decimalAux fuel n acc ≠ [] := by
  induction fuel with
  | zero =>
    intro n acc h
    rcases h with h | h
    · omega
    · simpa [decimalAux] using h
  | succ f ih =>
    intro n acc _
    unfold decimalAux
    split
    · simp
    · exact ih _ _ (Or.inr (by simp))

theorem formatInt_clean (z : Int) : formatInt z ≠ [] ∧ (32 : Nat) ∉ formatInt z := by
  have hd : ∀ c ∈ decimal z.natAbs, 48 ≤ c :=
    decimalAux_codes _ _ [] (by simp)
  have hn : decimal z.natAbs ≠ [] := decimalAux_ne_nil _ _ [] (Or.inl (by omega))
  unfold formatInt
  split
  · refine ⟨by simp, ?_⟩
    intro h
    rcases List.mem_cons.mp h with h | h
    · omega
    · have := hd 32 h
      omega
  · refine ⟨hn, ?_⟩
    intro h
    have := hd 32 h
    omega

/-- The text of a numeric value is not empty and holds no space, when the host
formats floating values so and the value is not the `char` with the code of the
space. -/
theorem render_clean (fmt : FltTy → H.F → List Nat)
    (hfmt : ∀ t y, fmt t y ≠ [] ∧ (32 : Nat) ∉ fmt t y) (x : Val H)
    (hnum : _is_numeric x.type = true)
    (hchar : ∀ v, x = .int .char v → v % 256 ≠ 32) :
    render fmt x ≠ [] ∧ (32 : Nat) ∉ render fmt x := by
  rcases x with ⟨t, v⟩ | ⟨t, y⟩ | n
  · cases t
    · have h := hchar v rfl
      have h0 : 0 ≤ v % 256 := Int.emod_nonneg _ (by norm_num)
      refine ⟨by simp [render], ?_⟩
      simp only [render, List.mem_singleton]
      omega
    · exact formatInt_clean v
    · exact formatInt_clean v
    · exact formatInt_clean v
  · exact hfmt t y
  · exact absurd hnum Bool.false_ne_true

theorem count_spaces_flatMap (f : Nat → List Nat) (l : List Nat)
    (h : ∀ j ∈ l, (32 : Nat) ∉ f j) :
    (l.flatMap (fun i => 32 :: f i)).count 32 = l.length := by
  induction l with
  | nil => rfl
  | cons a l ih =>
    have ha := List.count_eq_zero_of_not_mem (h a (by simp))
    simp only [List.flatMap_cons, List.cons_append, List.count_cons_self, List.count_append,
      List.length_cons, ha, ih (fun j hj => h j (by simp [hj]))]
    omega

/-- The text of `n ≥ 1` values, each with a text that is not empty and holds no
space: exactly `n - 1` spaces, none at the beginning and none at the end. -/
theorem renderedText_form (fmt : FltTy → H.F → List Nat) (xs : Nat → Val H) (n : Nat)
    (hn : 1 ≤ n)
    (h : ∀ i, i < n → render fmt (xs i) ≠ [] ∧ (32 : Nat) ∉ render fmt (xs i)) :
    (renderedText fmt xs n).count 32 = n - 1 ∧
    (renderedText fmt xs n).head? ≠ some 32 ∧
    (renderedText fmt xs n).getLast? ≠ some 32 ∧
    renderedText fmt xs n ≠ [] := by
  obtain ⟨m, rfl⟩ : ∃ m, n = m + 1 := ⟨n - 1, by omega⟩
  obtain ⟨h0n, h0s⟩ := h 0 (by omega)
  have hmem : ∀ j ∈ List.range' 1 m, (32 : Nat) ∉ render fmt (xs j) := by
    intro j hj
    have := List.mem_range'_1.mp hj
    exact (h j (by omega)).2
  refine ⟨?_, ?_, ?_, ?_⟩
  · simp only [renderedText, List.count_append, List.count_eq_zero_of_not_mem h0s,
      count_spaces_flatMap (fun i => render fmt (xs i)) _ hmem, List.length_range']
    omega
  · intro hh
    simp only [renderedText, List.head?_append] at hh
    cases hr : render fmt (xs 0) with
    | nil => exact h0n hr
    | cons c r =>
      rw [hr] at hh
      simp only [List.head?_cons, Option.or, Option.some.injEq] at hh
      exact h0s (by rw [hr, hh]; simp)
  · intro hh
    have hlast : ∃ A, renderedText fmt xs (m + 1) = A ++ render fmt (xs m) := by
      cases m with
      | zero => exact ⟨[], by simp [renderedText]⟩
      | succ k =>
        refine ⟨render fmt (xs 0) ++
          (List.range' 1 k).flatMap (fun i => 32 :: render fmt (xs i)) ++ [32], ?_⟩
        simp only [renderedText, List.range'_concat, List.flatMap_append, List.flatMap_cons,
          List.flatMap_nil, List.append_nil, List.append_assoc, List.singleton_append,
          Nat.mul_comm, Nat.one_mul, Nat.mul_one]
        rw [Nat.add_comm 1 k]
    obtain ⟨A, hA⟩ := hlast
    obtain ⟨hmn, hms⟩ := h m (by omega)
    rw [hA, List.getLast?_append_of_ne_nil _ hmn] at hh
    exact hms (List.mem_of_getLast?_eq_some hh)
  · simp [renderedText, h0n]

/-- Claim C13, as amended.  For an expression of size `n ≥ 1` whose elements are numeric
values, none of them the `char` with the code of the space, and a host that
writes a floating value as a text that is not empty and holds no space: the
text `operator<<` writes holds exactly `n - 1` spaces, none at its beginning
and none at its end.  For `short`, `int` and `long int` elements no condition is needed. -/
theorem rendering_round_form (fmt : FltTy → H.F → List Nat) (st : State H) (e : Exp H)
    (xs : Nat → Val H)
    (hfmt : ∀ t y, fmt t y ≠ [] ∧ (32 : Nat) ∉ fmt t y)
    (hn : 1 ≤ e.size st)
    (hget : ∀ i, i < e.size st → e.get st i = .ok (xs i))
    (hnum : ∀ i, i < e.size st → _is_numeric (xs i).type = true)
    (hchar : ∀ i, i < e.size st → ∀ v, xs i = .int .char v → v % 256 ≠ 32) :
    ∃ out : ostream, operator_shl fmt st { text := [], reads := [] } e = .ok out ∧
      out.text.count 32 = e.size st - 1 ∧
      out.text.head? ≠ some 32 ∧ out.text.getLast? ≠ some 32 ∧ out.text ≠ [] := by
  have hloop := forLoop_writeElement fmt st e xs (e.size st) 0 { text := [], reads := [] }
    (fun j _ h2 => hget j (by omega))
  rw [flatMap_pieces] at hloop
  have hform := renderedText_form fmt xs (e.size st) hn
    (fun i hi => render_clean fmt hfmt (xs i) (hnum i hi) (hchar i hi))
  refine ⟨_, hloop, ?_, ?_, ?_, ?_⟩
  · simpa using hform.1
  · simpa using hform.2.1
  · simpa using hform.2.2.1
  · simpa using hform.2.2.2

/-- With `v = [-5, 0, 120]` of `short`, the text written for `v` holds two spaces, none at
either end. -/
theorem rendering_round_form_witness :
    ∃ out : ostream,
      operator_shl truncFormat
        (oneVector exactHost .short [.int .short (-5), .int .short 0, .int .short 120])
        { text := [], reads := [] } (.vector 0) = .ok out ∧
      out.text.count 32 = 2 ∧
      out.text.head? ≠ some 32 ∧ out.text.getLast? ≠ some 32 ∧ out.text ≠ [] :=
  rendering_round_form truncFormat
    (oneVector exactHost .short [.int .short (-5), .int .short 0, .int .short 120])
    (.vector 0) (fun i => .int .short ([-5, 0, 120].getD i 0))
    (fun _ y => formatInt_clean _) (by decide) (by decide) (by decide)
    (by
      intro i hi v hv
      have hi3 : i < 3 := hi
      interval_cases i <;> simp at hv)

/-- Claim C13 fails for the 8-bit integer type.  With `v = [32]` of `char` (size 1), the stream
writes the element as the character with the code 32, a space: the text holds
one space, not zero, and begins and ends with it. -/
theorem rendering_round_form_counterexample :
    operator_shl truncFormat (oneVector exactHost .char [.int .char 32])
      { text := [], reads := [] } (.vector 0) = .ok { text := [32], reads := [0] } ∧
    (Exp.vector 0 : Exp exactHost).size (oneVector exactHost .char [.int .char 32]) = 1 ∧
    ([32] : List Nat).count 32 ≠ 1 - 1 ∧
    ([32] : List Nat).head? = some 32 ∧ ([32] : List Nat).getLast? = some 32 := by
  decide

/-! ## What a successful operation leaves behind -/

theorem Heap.sameBut_refl (a : Nat) (h : Heap H) : Heap.sameBut a h h :=
  ⟨rfl, fun _ _ => rfl, rfl⟩

theorem Heap.sameBut_trans (a : Nat) (h h1 h2 : Heap H) (h12 : Heap.sameBut a h h1)
    (h23 : Heap.sameBut a h1 h2) : Heap.sameBut a h h2 :=
  ⟨h23.1.trans h12.1, fun b hb => (h23.2.1 b hb).trans (h12.2.1 b hb),
    h23.2.2.trans h12.2.2⟩

theorem Heap.write_sameBut (h h1 : Heap H) (a i : Nat) (y : Val H)
    (hw : h.write (some a) i y = .ok h1) : Heap.sameBut a h h1 := by
  unfold Heap.write at hw
  simp only at hw
  cases hb : h.blocks a with
  | none => simp [hb] at hw
  | some b =>
    simp only [hb] at hw
    split at hw
    · cases hw
      refine ⟨rfl, fun c hc => by simp [Function.update_noteq hc], ?_⟩
      simp [hb]
    · cases hw

theorem forLoop_sameBut (a : Nat) (body : Nat → Heap H → Except Err (Heap H))
    (hbody : ∀ i s s1, body i s = .ok s1 → Heap.sameBut a s s1) (count : Nat) :
    ∀ (i : Nat) (s s1 : Heap H), forLoop body count i s = .ok s1 → Heap.sameBut a s s1 := by
  induction count with
  | zero =>
    intro i s s1 h
    simp only [forLoop] at h
    cases h
    exact Heap.sameBut_refl a s
  | succ n ih =>
    intro i s s1 h
    simp only [forLoop] at h
    cases hb : body i s with
    | error e => simp [hb] at h
    | ok s2 =>
      simp only [hb] at h
      exact Heap.sameBut_trans a s s2 s1 (hbody i s s2 hb) (ih (i + 1) s2 s1 h)

theorem storeElement_sameBut (T : CType) (vecs : Nat → vector) (e : Exp H) (a : Nat)
    (i : Nat) (s s1 : Heap H) (h : vector.storeElement T vecs e (some a) i s = .ok s1) :
    Heap.sameBut a s s1 := by
  unfold vector.storeElement at h
  split at h
  · cases h
  · exact Heap.write_sameBut _ _ _ _ _ h

theorem copyElement_sameBut (tmp : vector) (a : Nat)
    (i : Nat) (s s1 : Heap H) (h : vector.copyElement tmp (some a) i s = .ok s1) :
    Heap.sameBut a s s1 := by
  unfold vector.copyElement at h
  split at h
  · cases h
  · exact Heap.write_sameBut _ _ _ _ _ h

/-- The constructor from an expression, when it returns: the new vector owns the
block at the next address, which has as many elements as the expression,
and every other block is as before. -/
theorem vector.ofExp_ok (T : CType) (st : State H) (e : Exp H) (v : vector) (h : Heap H)
    (hok : vector.ofExp T st e = .ok (v, h)) :
    v = { stored := T, m_own_data := true, m_size := e.size st,
          m_data := some st.heap.next } ∧
    h.next = st.heap.next + 1 ∧
    (∃ b, h.blocks st.heap.next = some b ∧ b.length = e.size st) ∧
    (∀ a, a ≠ st.heap.next → h.blocks a = st.heap.blocks a) := by
  unfold vector.ofExp at hok
  simp only [Heap.alloc] at hok
  cases hl : forLoop (vector.storeElement T st.vecs e (some st.heap.next)) (e.size st) 0
      ⟨Function.update st.heap.blocks st.heap.next
        (some (List.replicate (e.size st) none)), st.heap.next + 1⟩ with
  | error err => simp [hl] at hok
  | ok h2 =>
    simp only [hl] at hok
    cases hok
    have hs := forLoop_sameBut st.heap.next _
      (storeElement_sameBut T st.vecs e st.heap.next) _ _ _ _ hl
    refine ⟨rfl, hs.1, ?_, ?_⟩
    · have h3 := hs.2.2
      simp only [Function.update_same, Option.map_some'] at h3
      cases hb : h.blocks st.heap.next with
      | none => simp [hb] at h3
      | some b =>
        refine ⟨b, rfl, ?_⟩
        simpa [hb] using h3
    · intro a ha
      rw [hs.2.1 a ha]
      simp [Function.update_noteq ha]

theorem vector.release_ok (h h1 : Heap H) (v : vector) (hok : v.release h = .ok h1) :
    h1 = releasedHeap h v := by
  unfold vector.release at hok
  unfold releasedHeap
  cases hown : v.m_own_data <;> cases hdata : v.m_data <;> simp only [hown, hdata] at hok ⊢
  · cases hok; rfl
  · cases hok; rfl
  · cases hok; rfl
  · rename_i a
    unfold Heap.free at hok
    cases hb : h.blocks a with
    | none => simp [hb] at hok
    | some b =>
      simp only [hb] at hok
      cases hok
      rfl

theorem Exp.size_congr (e : Exp H) (st st1 : State H)
    (h : ∀ id, (st1.vecs id).m_size = (st.vecs id).m_size) : e.size st1 = e.size st := by
  induction e with
  | vector id => exact h id
  | vec_vec_exp op l r ihl _ => exact ihl
  | vec_scalar_exp op l k ihl => exact ihl
  | scalar_vec_exp op k r ihr => exact ihr

/-- The assignment from an expression, when it returns: the destination owns the
block two addresses on, which has as many elements as the expression; its
old block (if it owned one) and the block of the temporary are released; all
else is as before. -/
theorem vector.assign_ok (st st1 : State H) (this : Nat) (e : Exp H)
    (hok : vector.assign st this e = .ok st1) :
    st1.vecs = Function.update st.vecs this
      { stored := (st.vecs this).stored, m_own_data := true, m_size := e.size st,
        m_data := some (st.heap.next + 1) } ∧
    st1.heap.next = st.heap.next + 2 ∧
    (∃ b, st1.heap.blocks (st.heap.next + 1) = some b ∧ b.length = e.size st) ∧
    (∀ a, a ≠ st.heap.next → a ≠ st.heap.next + 1 → (st.vecs this).m_data ≠ some a →
      st1.heap.blocks a = st.heap.blocks a) := by
  unfold vector.assign at hok
  cases hrel : (st.vecs this).release st.heap with
  | error err => simp [hrel] at hok
  | ok h1 =>
    have hh1 := vector.release_ok _ _ _ hrel
    subst hh1
    cases hof : vector.ofExp (st.vecs this).stored
        (State.mk st.vecs (releasedHeap st.heap (st.vecs this))) e with
    | error err => simp [hrel, hof] at hok
    | ok p =>
      obtain ⟨tmp, h2⟩ := p
      obtain ⟨htmp, hnext2, hblock2, hrest2⟩ := vector.ofExp_ok _ _ _ _ _ hof
      simp only [hrel, hof, Heap.alloc, Function.update_same] at hok
      split at hok
      · cases hok
      · rename_i h4 hloop
        split at hok
        · cases hok
        · rename_i v5 h5 hdes
          cases hok
          have hn1 : (releasedHeap st.heap (st.vecs this)).next = st.heap.next :=
            releasedHeap_next _ _
          have hsz0 : e.size (State.mk st.vecs (releasedHeap st.heap (st.vecs this))) =
              e.size st := Exp.size_congr e st _ (fun _ => rfl)
          have hsz : ∀ (h : Heap H), e.size (State.mk
              (Function.update st.vecs this
                { stored := (st.vecs this).stored, m_own_data := true,
                  m_size := (st.vecs this).m_size, m_data := (st.vecs this).m_data }) h) =
              e.size st := by
            intro h
            apply Exp.size_congr
            intro id
            by_cases hid : id = this
            · subst hid; simp
            · simp [Function.update_noteq hid]
          simp only [hn1, hsz0] at htmp hnext2 hblock2 hrest2
          simp only [hsz, hnext2] at hloop ⊢
          have hs := forLoop_sameBut (st.heap.next + 1) _
            (copyElement_sameBut tmp (st.heap.next + 1)) _ _ _ _ hloop
          obtain ⟨hs1, hs2, hs3⟩ := hs
          simp only [Function.update_same, Option.map_some', List.length_replicate] at hs3
          -- the destructor of the temporary
          unfold vector.destroy at hdes
          cases hr5 : tmp.release h4 with
          | error err => simp [hr5] at hdes
          | ok h6 =>
            simp only [hr5] at hdes
            cases hdes
            have hh6 := vector.release_ok _ _ _ hr5
            subst hh6
            subst htmp
            have hne : st.heap.next + 1 ≠ st.heap.next := by omega
            refine ⟨?_, ?_, ?_, ?_⟩
            · simp only [Function.update_idem]
            · simp only [releasedHeap, hs1]
            · simp only [releasedHeap, Function.update_noteq hne]
              cases hb : h4.blocks (st.heap.next + 1) with
              | none => simp [hb] at hs3
              | some b => exact ⟨b, rfl, by simpa [hb] using hs3⟩
            · intro a ha1 ha2 ha3
              simp only [releasedHeap, Function.update_noteq ha1]
              rw [hs2 a ha2]
              simp only [Function.update_noteq ha2]
              rw [hrest2 a ha1]
              exact releasedHeap_blocks _ _ a ha3

/-! ## The states of a vector -/

theorem vector.isEmpty_iff (v : vector) :
    v.isEmpty = true ↔ v.m_own_data = false ∧ v.m_size = 0 ∧ v.m_data = none := by
  unfold vector.isEmpty
  cases v.m_own_data <;> cases v.m_data <;> simp

theorem vector.isOwned_iff (h : Heap H) (v : vector) :
    v.isOwned h = true ↔ v.m_own_data = true ∧
      ∃ a b, v.m_data = some a ∧ h.blocks a = some b ∧ b.length = v.m_size := by
  unfold vector.isOwned
  cases hd : v.m_data with
  | none => simp
  | some a =>
    cases hb : h.blocks a with
    | none => simp [hb]
    | some b => simp [hb]

theorem vector.isOwned_frame (h h1 : Heap H) (v : vector) (ho : v.isOwned h = true)
    (hsame : ∀ a, v.m_data = some a → h1.blocks a = h.blocks a) :
    v.isOwned h1 = true := by
  rw [vector.isOwned_iff] at ho ⊢
  obtain ⟨hown, a, b, hd, hb, hl⟩ := ho
  exact ⟨hown, a, b, hd, by rw [hsame a hd, hb], hl⟩

theorem State.inv_initial (stored : Nat → CType) : (State.initial H stored).inv := by
  refine ⟨fun id => Or.inl ?_, ?_⟩
  · simp [State.initial, vector.default, vector.isEmpty]
  · intro id1 id2 a _ h
    simp [State.initial, vector.default] at h

/-- A name that receives a vector owning the fresh block at the next address,
with all other blocks as they were, keeps the invariant. -/
theorem State.inv_fresh (st : State H) (hinv : st.inv) (id n : Nat) (T : CType) (h : Heap H)
    (hnext : h.next = st.heap.next + 1)
    (hblock : ∃ b, h.blocks st.heap.next = some b ∧ b.length = n)
    (hrest : ∀ a, a ≠ st.heap.next → h.blocks a = st.heap.blocks a) :
    (State.mk (Function.update st.vecs id
      { stored := T, m_own_data := true, m_size := n, m_data := some st.heap.next }) h).inv := by
  obtain ⟨hA, hB⟩ := hinv
  have hlt : ∀ j a, (st.vecs j).m_data = some a → a < st.heap.next := by
    intro j a hd
    rcases hA j with he | ho
    · rw [vector.isEmpty_iff] at he
      rw [he.2.2] at hd
      cases hd
    · exact ho.2 a hd
  refine ⟨?_, ?_⟩
  · intro j
    by_cases hj : j = id
    · subst hj
      right
      simp only [Function.update_same]
      refine ⟨?_, ?_⟩
      · rw [vector.isOwned_iff]
        obtain ⟨b, hb, hl⟩ := hblock
        exact ⟨rfl, _, b, rfl, hb, hl⟩
      · intro a ha
        cases ha
        omega
    · simp only [Function.update_noteq hj]
      rcases hA j with he | ho
      · exact Or.inl he
      · right
        refine ⟨vector.isOwned_frame st.heap h _ ho.1 ?_, ?_⟩
        · intro a ha
          exact hrest a (by have := ho.2 a ha; omega)
        · intro a ha
          have := ho.2 a ha
          show a < h.next
          omega
  · intro j1 j2 a hne h1 h2
    by_cases hj1 : j1 = id
    · subst hj1
      simp only [Function.update_same] at h1
      cases h1
      simp only [Function.update_noteq (Ne.symm hne)] at h2
      have := hlt j2 _ h2
      omega
    · simp only [Function.update_noteq hj1] at h1
      by_cases hj2 : j2 = id
      · subst hj2
        simp only [Function.update_same] at h2
        cases h2
        have := hlt j1 _ h1
        omega
      · simp only [Function.update_noteq hj2] at h2
        exact hB j1 j2 a hne h1 h2

theorem State.inv_step (st st1 : State H) (hinv : st.inv) (hstep : Step false st st1) :
    st1.inv := by
  have hlt : ∀ j a, (st.vecs j).m_data = some a → a < st.heap.next := by
    intro j a hd
    rcases hinv.1 j with he | ho
    · rw [vector.isEmpty_iff] at he
      rw [he.2.2] at hd
      cases hd
    · exact ho.2 a hd
  cases hstep with
  | construct_default id T =>
    obtain ⟨hA, hB⟩ := hinv
    refine ⟨?_, ?_⟩
    · intro j
      by_cases hj : j = id
      · subst hj
        left
        simp [vector.default, vector.isEmpty]
      · simp only [Function.update_noteq hj]
        exact hA j
    · intro j1 j2 a hne h1 h2
      by_cases hj1 : j1 = id
      · subst hj1
        simp [vector.default] at h1
      · by_cases hj2 : j2 = id
        · subst hj2
          simp [vector.default] at h2
        · simp only [Function.update_noteq hj1] at h1
          simp only [Function.update_noteq hj2] at h2
          exact hB j1 j2 a hne h1 h2
  | construct_sized id T n v h hok =>
    unfold vector.sized at hok
    split at hok
    · cases hok
    · simp only [Heap.alloc] at hok
      cases hok
      exact State.inv_fresh st hinv id n.toNat T _ rfl
        ⟨_, Function.update_same _ _ _, by simp⟩
        (fun a ha => by simp [Function.update_noteq ha])
  | construct_from_exp id T e v h hcopy hok =>
    rw [vector.construct_template T st e (Exp.isCopyOf_false T st e hcopy)] at hok
    obtain ⟨hv, hnext, hblock, hrest⟩ := vector.ofExp_ok T st e v h hok
    subst hv
    exact State.inv_fresh st hinv id (e.size st) T h hnext hblock hrest
  | assign id e _ hcopy hok =>
    rw [vector.assignFrom_template st id e (Exp.isCopyOf_false _ st e hcopy)] at hok
    obtain ⟨hvecs, hnext, hblock, hrest⟩ := vector.assign_ok st st1 id e hok
    obtain ⟨hA, hB⟩ := hinv
    refine ⟨?_, ?_⟩
    · intro j
      rw [hvecs]
      by_cases hj : j = id
      · subst hj
        right
        simp only [Function.update_same]
        refine ⟨?_, ?_⟩
        · rw [vector.isOwned_iff]
          obtain ⟨b, hb, hl⟩ := hblock
          exact ⟨rfl, _, b, rfl, hb, hl⟩
        · intro a ha
          cases ha
          omega
      · simp only [Function.update_noteq hj]
        rcases hA j with he | ho
        · exact Or.inl he
        · right
          refine ⟨vector.isOwned_frame st.heap st1.heap _ ho.1 ?_, ?_⟩
          · intro a ha
            have := ho.2 a ha
            exact hrest a (by omega) (by omega) (hB j id a hj ha)
          · intro a ha
            have := ho.2 a ha
            omega
    · intro j1 j2 a hne h1 h2
      rw [hvecs] at h1 h2
      by_cases hj1 : j1 = id
      · subst hj1
        simp only [Function.update_same] at h1
        cases h1
        simp only [Function.update_noteq (Ne.symm hne)] at h2
        have := hlt j2 _ h2
        omega
      · simp only [Function.update_noteq hj1] at h1
        by_cases hj2 : j2 = id
        · subst hj2
          simp only [Function.update_same] at h2
          cases h2
          have := hlt j1 _ h1
          omega
        · simp only [Function.update_noteq hj2] at h2
          exact hB j1 j2 a hne h1 h2
  | destroy id v h hok =>
    unfold vector.destroy at hok
    cases hr : (st.vecs id).release st.heap with
    | error err => simp [hr] at hok
    | ok h1 =>
      simp only [hr] at hok
      cases hok
      have hh := vector.release_ok _ _ _ hr
      subst hh
      obtain ⟨hA, hB⟩ := hinv
      refine ⟨?_, ?_⟩
      · intro j
        by_cases hj : j = id
        · subst hj
          left
          simp [vector.isEmpty]
        · simp only [Function.update_noteq hj]
          rcases hA j with he | ho
          · exact Or.inl he
          · right
            refine ⟨vector.isOwned_frame st.heap _ _ ho.1 ?_, ?_⟩
            · intro a ha
              exact releasedHeap_blocks _ _ a (hB j id a hj ha)
            · intro a ha
              rw [releasedHeap_next]
              exact ho.2 a ha
      · intro j1 j2 a hne h1 h2
        by_cases hj1 : j1 = id
        · subst hj1
          simp at h1
        · by_cases hj2 : j2 = id
          · subst hj2
            simp at h2
          · simp only [Function.update_noteq hj1] at h1
            simp only [Function.update_noteq hj2] at h2
            exact hB j1 j2 a hne h1 h2

theorem Reachable.inv (st : State H) (hreach : Reachable false st) : st.inv := by
  induction hreach with
  | initial stored => exact State.inv_initial stored
  | step st st1 _ hstep ih => exact State.inv_step st st1 ih hstep

/-- The constructor template applied to a vector as a leaf: the new vector owns a
block of its own with the elements of the source, and the source is
untouched.  This is what a vector of another element type gets. -/
theorem vector.ofExp_leaf (T : CType) (st : State H) (src : Nat) (ys : Nat → Val H)
    (halloc : (Exp.vector src : Exp H).allocated st = true)
    (hval : ∀ i, i < (st.vecs src).m_size →
      (Exp.vector src : Exp H).getAs T st i = .ok (ys i)) :
    ∃ (w : vector) (h : Heap H), vector.ofExp T st (.vector src) = .ok (w, h) ∧
      w.m_size = (st.vecs src).m_size ∧ w.m_own_data = true ∧
      w.m_data = some st.heap.next ∧ w.m_data ≠ (st.vecs src).m_data ∧
      (∀ i, i < (st.vecs src).m_size → w.get h i = .ok (ys i)) ∧
      (∀ i, (st.vecs src).get h i = (st.vecs src).get st.heap i) := by
  have hlt : ∀ a, (st.vecs src).m_data = some a → a < st.heap.next := fun a ha =>
    Exp.allocated_lt st (.vector src) halloc src (by simp [Exp.leaves]) a ha
  refine ⟨_, _, vector.ofExp_eq T st (.vector src) ys halloc hval, rfl, rfl, rfl, ?_, ?_, ?_⟩
  · intro h
    have := hlt st.heap.next h.symm
    omega
  · intro i hi
    exact read_filled _ _ _ _ ys i hi (Function.update_same _ _ _)
  · intro i
    unfold vector.get
    cases hd : (st.vecs src).m_data with
    | none => rfl
    | some a =>
      have hne : a ≠ st.heap.next := by have := hlt a hd; omega
      simp [Heap.read, Function.update_noteq hne]

/-- Claim C18, at the input `v = [1, 2, 3]` of `int` and `vector<int> w( v )`.  The copy has
the size and the elements of `v`, but no storage of its own: it holds the
block of `v`, nothing was allocated, and both vectors have `m_own_data` set.  So
the write `w[0] = 9` changes `v[0]`; after the destructor of `w`, `v[0]` reads a
released block; and the destructor of `v` then releases that block a second
time. -/
theorem copy_shares_storage :
    ∃ (w : vector) (h h1 h2 : Heap exactHost) (w1 : vector),
      vector.ofVector .int (oneVector exactHost .int (ints exactHost [1, 2, 3])) 0 =
        .ok (w, h) ∧
      w.m_size = 3 ∧
      (List.range 3).map (w.get h) =
        [.ok (.int .int 1), .ok (.int .int 2), .ok (.int .int 3)] ∧
      w.m_own_data = true ∧
      w.m_data = ((oneVector exactHost .int (ints exactHost [1, 2, 3])).vecs 0).m_data ∧
      h.next = (oneVector exactHost .int (ints exactHost [1, 2, 3])).heap.next ∧
      w.set h 0 (.int .int 9) = .ok h1 ∧
      ((oneVector exactHost .int (ints exactHost [1, 2, 3])).vecs 0).get h1 0 =
        .ok (.int .int 9) ∧
      w.destroy h = .ok (w1, h2) ∧
      ((oneVector exactHost .int (ints exactHost [1, 2, 3])).vecs 0).get h2 0 =
        .error .deadBlock ∧
      ((oneVector exactHost .int (ints exactHost [1, 2, 3])).vecs 0).destroy h2 =
        .error .deadBlock := by
  refine ⟨((oneVector exactHost .int (ints exactHost [1, 2, 3])).vecs 0).copy,
    (oneVector exactHost .int (ints exactHost [1, 2, 3])).heap,
    ⟨Function.update (oneVector exactHost .int (ints exactHost [1, 2, 3])).heap.blocks 0
      (some [some (.int .int 9), some (.int .int 2), some (.int .int 3)]), 1⟩,
    ⟨Function.update (oneVector exactHost .int (ints exactHost [1, 2, 3])).heap.blocks 0 none,
      1⟩,
    ⟨.int, false, 0, none⟩, rfl, rfl, by decide, rfl, rfl, rfl, rfl, ?_, rfl, ?_, ?_⟩
  · simp [vector.get, Heap.read, oneVector]
  · simp [vector.get, Heap.read, oneVector]
  · simp [vector.destroy, vector.release, Heap.free, oneVector]

/-! ## Allocations and element reads of a materialization -/

theorem Exp.getLog_eq (st : State H) (e : Exp H) (i : Nat) :
    e.getLog st i =
      match e.get st i with
      | .ok x => .ok (x, e.leaves.map (fun v => (v, i)))
      | .error err => .error err := by
  induction e with
  | vector v =>
    simp only [Exp.getLog, Exp.get, Exp.leaves, List.map_cons, List.map_nil]
  | vec_vec_exp op l r ihl ihr =>
    simp only [Exp.getLog, Exp.get, Exp.leaves, ihl, ihr, List.map_append]
    cases l.get st i <;> cases r.get st i <;> simp only []
  | vec_scalar_exp op l k ihl =>
    simp only [Exp.getLog, Exp.get, Exp.leaves, ihl]
    cases l.get st i <;> simp only []
  | scalar_vec_exp op k r ihr =>
    simp only [Exp.getLog, Exp.get, Exp.leaves, ihr]
    cases r.get st i <;> simp only []

theorem vector.storeElementLog_eq (T : CType) (vecs : Nat → vector) (e : Exp H)
    (p : Option Nat) (i : Nat) (h : Heap H) (log : List (Nat × Nat)) :
    vector.storeElementLog T vecs e p i (h, log) =
      match vector.storeElement T vecs e p i h with
      | .ok h1 => .ok (h1, log ++ e.leaves.map (fun v => (v, i)))
      | .error err => .error err := by
  simp only [vector.storeElementLog, vector.storeElement, Exp.getAs, Exp.getLog_eq]
  cases e.get ⟨vecs, h⟩ i with
  | error err => rfl
  | ok x =>
    simp only []
    cases convert T x with
    | error err => rfl
    | ok y =>
      simp only []
      cases h.write p i y <;> rfl

theorem forLoop_storeElementLog (T : CType) (vecs : Nat → vector) (e : Exp H)
    (p : Option Nat) (count : Nat) :
    ∀ (i : Nat) (h : Heap H) (log : List (Nat × Nat)),
      forLoop (vector.storeElementLog T vecs e p) count i (h, log) =
        match forLoop (vector.storeElement T vecs e p) count i h with
        | .ok h1 =>
          .ok (h1, log ++ (List.range' i count).flatMap
            (fun j => e.leaves.map (fun v => (v, j))))
        | .error err => .error err := by
  induction count with
  | zero => intro i h log; simp [forLoop]
  | succ n ih =>
    intro i h log
    simp only [forLoop, vector.storeElementLog_eq]
    cases vector.storeElement T vecs e p i h with
    | error err => rfl
    | ok h1 =>
      simp only [ih]
      cases forLoop (vector.storeElement T vecs e p) n (i + 1) h1 with
      | error err => rfl
      | ok h2 => simp [List.range'_succ]

/-- The constructor with the record of reads returns what the constructor
returns, and the record is one pass over the expression. -/
theorem vector.ofExpLog_eq (T : CType) (st : State H) (e : Exp H) :
    vector.ofExpLog T st e =
      match vector.ofExp T st e with
      | .ok (v, h) => .ok (v, h, e.passReads (e.size st))
      | .error err => .error err := by
  simp only [vector.ofExpLog, vector.ofExp, forLoop_storeElementLog, Exp.passReads]
  cases forLoop (vector.storeElement T st.vecs e (some (st.heap.alloc (e.size st)).1))
    (e.size st) 0 (st.heap.alloc (e.size st)).2 with
  | error err => rfl
  | ok h2 => simp

/-- The assignment with the record of reads returns what the assignment returns,
and the record is one pass over the expression. -/
theorem vector.assignLog_eq (st : State H) (this : Nat) (e : Exp H) :
    vector.assignLog st this e =
      match vector.assign st this e with
      | .ok st1 => .ok (st1, e.passReads (e.size st))
      | .error err => .error err := by
  have hsz : ∀ h, e.size (State.mk st.vecs h) = e.size st :=
    fun h => Exp.size_congr e st _ (fun _ => rfl)
  simp only [vector.assignLog, vector.assign, vector.ofExpLog_eq]
  cases (st.vecs this).release st.heap with
  | error err => rfl
  | ok h1 =>
    simp only []
    cases vector.ofExp (st.vecs this).stored ⟨st.vecs, h1⟩ e with
    | error err => rfl
    | ok p =>
      obtain ⟨tmp, h2⟩ := p
      simp only [hsz]
      split
      · rfl
      · split <;> rfl

theorem passReads_nodup (e : Exp H) (n : Nat) (hnd : e.leaves.Nodup) :
    (e.passReads n).Nodup := by
  unfold Exp.passReads
  rw [List.nodup_flatMap]
  refine ⟨?_, ?_⟩
  · intro j _
    exact hnd.map (fun x y hxy => by simpa using congrArg Prod.fst hxy)
  · refine (List.pairwise_lt_range' 0 n).imp ?_
    intro j1 j2 hlt
    simp only [Function.onFun, List.disjoint_left, List.mem_map, not_exists, not_and,
      forall_exists_index, and_imp]
    intro p x _ hp y _ hq
    rw [← hp] at hq
    have := congrArg Prod.snd hq
    simp only at this
    omega

theorem passReads_mem (e : Exp H) (n : Nat) (v i : Nat) (hv : v ∈ e.leaves) (hi : i < n) :
    (v, i) ∈ e.passReads n := by
  unfold Exp.passReads
  rw [List.mem_flatMap]
  exact ⟨i, List.mem_range'_1.mpr ⟨by omega, by omega⟩, List.mem_map.mpr ⟨v, hv, rfl⟩⟩

/-- Claim C16, as amended.  For vectors `a`, `b`, `c` of size `n` and a numeric scalar `k`, the
overloads build the chain `((a + b) - c) * k` as a tree of nodes, with no effect on the
heap.  The constructor of a vector from the chain allocates exactly one
block, the buffer of the new vector, and reads `a[i]`, `b[i]`, `c[i]` once each, for
`i = 0, ..., n - 1` in this order.  The assignment of the chain to an existing
vector that the chain does not refer to allocates exactly two blocks, the
buffer of the temporary and the buffer of the destination, and makes the
same reads. -/
theorem chain_materialization (T : CType) (st : State H) (a b c this : Nat) (k : Val H)
    (n : Nat) (ys zs : Nat → Val H)
    (hk : _is_numeric k.type = true)
    (ha : (st.vecs a).m_size = n) (hb : (st.vecs b).m_size = n)
    (hc : (st.vecs c).m_size = n)
    (halloc : (Exp.vec_scalar_exp .op_mul (.vec_vec_exp .op_sub
      (.vec_vec_exp .op_add (.vector a) (.vector b)) (.vector c)) k).allocated st = true)
    (hval : ∀ i, i < n → (Exp.vec_scalar_exp .op_mul (.vec_vec_exp .op_sub
      (.vec_vec_exp .op_add (.vector a) (.vector b)) (.vector c)) k).getAs T st i =
        .ok (ys i))
    (hapart : (Exp.vec_scalar_exp .op_mul (.vec_vec_exp .op_sub
      (.vec_vec_exp .op_add (.vector a) (.vector b)) (.vector c)) k).apartFrom st this = true)
    (hsound : (st.vecs this).sound st.heap = true)
    (hval2 : ∀ i, i < n → (Exp.vec_scalar_exp .op_mul (.vec_vec_exp .op_sub
      (.vec_vec_exp .op_add (.vector a) (.vector b)) (.vector c)) k).getAs
        (st.vecs this).stored st i = .ok (zs i)) :
    ∃ e : Exp H, chain st a b c k = .ok e ∧ e.size st = n ∧
      e.passReads n = (List.range n).flatMap (fun i => [(a, i), (b, i), (c, i)]) ∧
      (∀ i, i < n → (a, i) ∈ e.passReads n ∧ (b, i) ∈ e.passReads n ∧
        (c, i) ∈ e.passReads n) ∧
      (a ≠ b → a ≠ c → b ≠ c → (e.passReads n).Nodup) ∧
      (∃ (v : vector) (h : Heap H), vector.ofExpLog T st e = .ok (v, h, e.passReads n) ∧
        h.next = st.heap.next + 1 ∧ v.m_data = some st.heap.next ∧ v.m_size = n) ∧
      (∃ st1 : State H, vector.assignLog st this e = .ok (st1, e.passReads n) ∧
        st1.heap.next = st.heap.next + 2 ∧
        (st1.vecs this).m_data = some (st.heap.next + 1) ∧ (st1.vecs this).m_size = n) := by
  have hsize : (Exp.vec_scalar_exp .op_mul (.vec_vec_exp .op_sub
      (.vec_vec_exp .op_add (.vector a) (.vector b)) (.vector c)) k).size st = n := ha
  refine ⟨_, ?_, hsize, ?_, ?_, ?_, ?_, ?_⟩
  · simp [chain, operator_plus_vv, operator_minus_vv, operator_times_vs, new_vec_vec_exp,
      new_vec_scalar_exp, _enable_if, hk, Exp.size, ha, hb, hc]
  · simp [Exp.passReads, Exp.leaves, List.range_eq_range']
  · intro i hi
    exact ⟨passReads_mem _ n a i (by simp [Exp.leaves]) hi,
      passReads_mem _ n b i (by simp [Exp.leaves]) hi,
      passReads_mem _ n c i (by simp [Exp.leaves]) hi⟩
  · intro hab hac hbc
    exact passReads_nodup _ n (by simp [Exp.leaves, hab, hac, hbc])
  · refine ⟨{ stored := T, m_own_data := true, m_size := n, m_data := some st.heap.next },
      ⟨Function.update st.heap.blocks st.heap.next
        (some ((List.range' 0 n).map (fun j => some (ys j)))), st.heap.next + 1⟩,
      ?_, rfl, rfl, rfl⟩
    rw [vector.ofExpLog_eq, vector.ofExp_eq T st _ ys halloc (by rw [hsize]; exact hval),
      hsize]
  · refine ⟨assignedState st this n zs, ?_, rfl, ?_, ?_⟩
    · rw [vector.assignLog_eq, vector.assign_eq st this _ zs halloc hapart hsound
        (by rw [hsize]; exact hval2), hsize]
    · simp [assignedState]
    · simp [assignedState]

/-- With `a = [1, 2]`, `b = [3, 4]`, `c = [5, 6]` and `k = 2`: the chain is built, the constructor from it
allocates one block and reads `a[0], b[0], c[0], a[1], b[1], c[1]`, and the assignment of it
to a fourth vector allocates two blocks. -/
theorem chain_materialization_witness :
    ∃ e : Exp exactHost, chain chainState 0 1 2 (.int .int 2) = .ok e ∧
      e.passReads 2 = [(0, 0), (1, 0), (2, 0), (0, 1), (1, 1), (2, 1)] ∧
      (∃ (v : vector) (h : Heap exactHost),
        vector.ofExpLog .int chainState e = .ok (v, h, e.passReads 2) ∧
        h.next = chainState.heap.next + 1) ∧
      (∃ st1 : State exactHost, vector.assignLog chainState 3 e = .ok (st1, e.passReads 2) ∧
        st1.heap.next = chainState.heap.next + 2) := by
  obtain ⟨e, he, _, hreads, _, _, ⟨v, h, hv, hnext, _⟩, ⟨st1, hst1, hnext1, _⟩⟩ :=
    chain_materialization (H := exactHost) .int chainState 0 1 2 3 (.int .int 2) 2
      (fun i => .int .int ([-2, 0].getD i 0)) (fun i => .int .int ([-2, 0].getD i 0))
      rfl rfl rfl rfl (by decide) (by decide) (by decide) (by decide) (by decide)
  exact ⟨e, he, hreads.trans (by decide), ⟨v, h, hv, hnext⟩, ⟨st1, hst1, hnext1⟩⟩

/-- Claim C16 fails for the assignment.  With `a = [1, 2]`, `b = [3, 4]`, `c = [5, 6]`, `k = 2` and an existing
vector `d`, the assignment `d = ((a + b) - c) * k` returns with the next address two further
than before: it has allocated two blocks, not one.  The constructor from the
same chain allocates one. -/
theorem chain_materialization_counterexample :
    chain chainState 0 1 2 (.int .int 2) = .ok chainTree ∧
    chainState.heap.next = 4 ∧
    (vector.assign chainState 3 chainTree).map (fun st1 => st1.heap.next) = .ok 6 ∧
    (vector.assign chainState 3 chainTree).map
      (fun st1 => (List.range 2).map ((st1.vecs 3).get st1.heap)) =
        .ok [.ok (.int .int (-2)), .ok (.int .int 0)] ∧
    (vector.ofExp .int chainState chainTree).map (fun r => r.2.next) = .ok 5 := by
  refine ⟨rfl, by decide, by decide, by decide, by decide⟩

/-! ## Fused and eager evaluation -/

theorem cvtFlt_same (t : FltTy) (x : H.F) : cvtFlt H t t x = x := by
  cases t <;> rfl

theorem arith_type (op : Op) (a b z : Val H) (h : op.arith a b = .ok z) :
    z.type = a.type ∧ convert z.type z = .ok z := by
  rcases a with ⟨t, x⟩ | ⟨t, x⟩ | n <;> rcases b with ⟨s, y⟩ | ⟨s, y⟩ | m <;> cases op <;>
    simp only [Op.arith, Val.plus, Val.minus, Val.times, Val.quot] at h <;>
    first
    | (cases h <;> simp [Val.type, convert, wrap_wrap, cvtFlt_same])
    | (split at h
       · cases h
       · split at h
         · cases h
         · cases h
           simp [Val.type, convert, wrap_wrap])

/-- A value that a functor returns has the type `_return_type` of the operand types, and
converting it to its own type leaves it as it is. -/
theorem op_call_type (op : Op) (a b z : Val H) (h : op.call a b = .ok z) :
    _return_type a.type b.type = some z.type ∧ convert z.type z = .ok z := by
  rw [call_eq_promoted] at h
  unfold promoted at h
  cases hT : _return_type a.type b.type with
  | none => simp [hT] at h
  | some T =>
    simp only [hT] at h
    cases ha : convert T a with
    | error e => simp [ha] at h
    | ok a1 =>
      cases hb : convert T b with
      | error e => simp [ha, hb] at h
      | ok b1 =>
        simp only [ha, hb] at h
        obtain ⟨h1, h2⟩ := arith_type op a1 b1 z h
        rw [h1, convert_type T a a1 ha] at *
        exact ⟨rfl, h2⟩

/-- Over vectors that hold elements of their own element type, an element of an
expression has the element type of the expression. -/
theorem Exp.get_type (st : State H) (e : Exp H)
    (htyped : ∀ id ∈ e.leaves, ∀ i x, (st.vecs id).get st.heap i = .ok x →
      x.type = (st.vecs id).stored) (i : Nat) (x : Val H) (hx : e.get st i = .ok x) :
    e.stored_type st = some x.type := by
  induction e generalizing x with
  | vector id =>
    simp only [Exp.get] at hx
    simp [Exp.stored_type, htyped id (by simp [Exp.leaves]) i x hx]
  | vec_vec_exp op l r ihl ihr =>
    simp only [Exp.get] at hx
    cases hl : l.get st i with
    | error e => simp [hl] at hx
    | ok a =>
      cases hr : r.get st i with
      | error e => simp [hl, hr] at hx
      | ok b =>
        simp only [hl, hr] at hx
        have h1 := ihl (fun id hid => htyped id (by simp [Exp.leaves, hid])) a hl
        have h2 := ihr (fun id hid => htyped id (by simp [Exp.leaves, hid])) b hr
        simp [Exp.stored_type, h1, h2, (op_call_type op a b x hx).1]
  | vec_scalar_exp op l k ihl =>
    simp only [Exp.get] at hx
    cases hl : l.get st i with
    | error e => simp [hl] at hx
    | ok a =>
      simp only [hl] at hx
      have h1 := ihl (fun id hid => htyped id (by simp [Exp.leaves, hid])) a hl
      simp [Exp.stored_type, h1, (op_call_type op a k x hx).1]
  | scalar_vec_exp op k r ihr =>
    simp only [Exp.get] at hx
    cases hr : r.get st i with
    | error e => simp [hr] at hx
    | ok b =>
      simp only [hr] at hx
      have h2 := ihr (fun id hid => htyped id (by simp [Exp.leaves, hid])) b hr
      simp [Exp.stored_type, h2, (op_call_type op k b x hx).1]

theorem Exp.stored_type_frame (e : Exp H) (st st1 : State H)
    (h : ∀ id ∈ e.leaves, st1.vecs id = st.vecs id) :
    e.stored_type st1 = e.stored_type st := by
  induction e with
  | vector id => simp [Exp.stored_type, h id (by simp [Exp.leaves])]
  | vec_vec_exp op l r ihl ihr =>
    simp [Exp.stored_type, ihl (fun id hid => h id (by simp [Exp.leaves, hid])),
      ihr (fun id hid => h id (by simp [Exp.leaves, hid]))]
  | vec_scalar_exp op l k ihl =>
    simp [Exp.stored_type, ihl (fun id hid => h id (by simp [Exp.leaves, hid]))]
  | scalar_vec_exp op k r ihr =>
    simp [Exp.stored_type, ihr (fun id hid => h id (by simp [Exp.leaves, hid]))]

theorem Exp.size_mem_leaves (st : State H) (e : Exp H) :
    ∃ id ∈ e.leaves, e.size st = (st.vecs id).m_size := by
  induction e with
  | vector id => exact ⟨id, by simp [Exp.leaves], rfl⟩
  | vec_vec_exp op l r ihl _ =>
    obtain ⟨id, hid, h⟩ := ihl
    exact ⟨id, by simp [Exp.leaves, hid], h⟩
  | vec_scalar_exp op l k ihl =>
    obtain ⟨id, hid, h⟩ := ihl
    exact ⟨id, by simp [Exp.leaves, hid], h⟩
  | scalar_vec_exp op k r ihr =>
    obtain ⟨id, hid, h⟩ := ihr
    exact ⟨id, by simp [Exp.leaves, hid], h⟩

theorem State.grows_refl (fresh : Nat) (st : State H) : State.grows fresh st st :=
  ⟨fun _ _ => rfl, fun _ _ => rfl, le_refl _⟩

theorem State.grows_trans (f f1 : Nat) (st st1 st2 : State H) (hf : f ≤ f1)
    (h1 : State.grows f st st1) (h2 : State.grows f1 st1 st2) : State.grows f st st2 :=
  ⟨fun id hid => (h2.1 id (by omega)).trans (h1.1 id hid),
   fun a ha => (h2.2.1 a (by have := h1.2.2; omega)).trans (h1.2.1 a ha),
   le_trans h1.2.2 h2.2.2⟩

/-- A tree that is ready in a state is ready in every state grown from it, with
the same size, elements and element type. -/
theorem Exp.ready_grows (e : Exp H) (st st1 : State H) (fresh f1 : Nat) (hf : fresh ≤ f1)
    (hr : e.ready st fresh) (hg : State.grows fresh st st1) :
    e.ready st1 f1 ∧ e.size st1 = e.size st ∧ (∀ i, e.get st1 i = e.get st i) ∧
      e.stored_type st1 = e.stored_type st := by
  obtain ⟨hnames, halloc, htyped, hsizes, hstat⟩ := hr
  have hvecs : ∀ id ∈ e.leaves, st1.vecs id = st.vecs id :=
    fun id hid => hg.1 id (hnames id hid)
  have hframe : ∀ id ∈ e.leaves, st1.vecs id = st.vecs id ∧
      ∀ a, (st.vecs id).m_data = some a → st1.heap.blocks a = st.heap.blocks a :=
    fun id hid => ⟨hvecs id hid, fun a ha => hg.2.1 a (halloc id hid a ha)⟩
  have hsize := Exp.size_frame e st st1 hvecs
  have hget := fun i => Exp.get_frame e st st1 i hframe
  have hst := Exp.stored_type_frame e st st1 hvecs
  have hleaf : ∀ id ∈ e.leaves, ∀ i, (st1.vecs id).get st1.heap i = (st.vecs id).get st.heap i := by
    intro id hid i
    have := Exp.get_frame (.vector id) st st1 i (by
      intro j hj
      simp only [Exp.leaves, List.mem_singleton] at hj
      subst hj
      exact hframe j hid)
    simpa [Exp.get] using this
  refine ⟨⟨fun id hid => by have := hnames id hid; omega, ?_, ?_, ?_, ?_⟩, hsize, hget, hst⟩
  · intro id hid a ha
    rw [hvecs id hid] at ha
    have := halloc id hid a ha
    have := hg.2.2
    omega
  · intro id hid i x hx
    rw [hleaf id hid i] at hx
    rw [hvecs id hid]
    exact htyped id hid i x hx
  · intro id hid
    rw [hvecs id hid, hsize]
    exact hsizes id hid
  · rw [hst]; exact hstat

theorem forLoop_steps (a : Nat) (body : Nat → Heap H → Except Err (Heap H))
    (hbody : ∀ i s s1, body i s = .ok s1 → Heap.sameBut a s s1) (count : Nat) :
    ∀ (i : Nat) (s s1 : Heap H), forLoop body count i s = .ok s1 →
      ∀ j, i ≤ j → j < i + count →
        ∃ sj sj1, Heap.sameBut a s sj ∧ body j sj = .ok sj1 := by
  induction count with
  | zero =>
    intro i s s1 _ j h1 h2
    omega
  | succ n ih =>
    intro i s s1 h j h1 h2
    simp only [forLoop] at h
    cases hb : body i s with
    | error e => simp [hb] at h
    | ok s2 =>
      simp only [hb] at h
      by_cases hj : j = i
      · subst hj
        exact ⟨s, s2, Heap.sameBut_refl a s, hb⟩
      · obtain ⟨sj, sj1, hs, hbj⟩ := ih (i + 1) s2 s1 h j (by omega) (by omega)
        exact ⟨sj, sj1, Heap.sameBut_trans a s s2 sj (hbody i s s2 hb) hs, hbj⟩

/-- Where the constructor from an expression returns, each element of the
expression had a value that converts to the element type. -/
theorem vector.ofExp_vals (T : CType) (st : State H) (e : Exp H) (v : vector) (h : Heap H)
    (halloc : e.allocated st = true) (hok : vector.ofExp T st e = .ok (v, h)) :
    ∀ i, i < e.size st → ∃ y, e.getAs T st i = .ok y := by
  intro i hi
  unfold vector.ofExp at hok
  simp only [Heap.alloc] at hok
  cases hl : forLoop (vector.storeElement T st.vecs e (some st.heap.next)) (e.size st) 0
      ⟨Function.update st.heap.blocks st.heap.next
        (some (List.replicate (e.size st) none)), st.heap.next + 1⟩ with
  | error err => simp [hl] at hok
  | ok h2 =>
    obtain ⟨sj, sj1, hs, hbj⟩ := forLoop_steps st.heap.next _
      (storeElement_sameBut T st.vecs e st.heap.next) _ _ _ _ hl i (by omega) (by omega)
    unfold vector.storeElement at hbj
    cases hg : e.getAs T ⟨st.vecs, sj⟩ i with
    | error err => simp [hg] at hbj
    | ok y =>
      refine ⟨y, ?_⟩
      rw [← hg]
      symm
      apply Exp.getAs_frame
      intro id hid
      refine ⟨rfl, ?_⟩
      intro a0 ha0
      have hlt := Exp.allocated_lt st e halloc id hid a0 ha0
      have hne : a0 ≠ st.heap.next := by omega
      show sj.blocks a0 = st.heap.blocks a0
      rw [hs.2.1 a0 hne]
      simp [Function.update_noteq hne]

theorem Exp.allocated_of (st : State H) (e : Exp H)
    (h : ∀ id ∈ e.leaves, ∀ a, (st.vecs id).m_data = some a → a < st.heap.next) :
    e.allocated st = true := by
  unfold Exp.allocated
  rw [List.all_eq_true]
  intro id hid
  cases hd : (st.vecs id).m_data with
  | none => rfl
  | some a => simpa using h id hid a hd

/-- The constructor from an expression returns exactly when each element of the
expression has a value that converts to the element type, and then the new
vector holds those values. -/
theorem vector.ofExp_iff (T : CType) (st : State H) (e : Exp H)
    (halloc : e.allocated st = true) :
    (∃ v h, vector.ofExp T st e = .ok (v, h)) ↔
      ∀ i, i < e.size st → ∃ y, e.getAs T st i = .ok y := by
  constructor
  · rintro ⟨v, h, hok⟩
    exact vector.ofExp_vals T st e v h halloc hok
  · intro hv
    exact ⟨_, _, vector.ofExp_eq T st e
      (fun i => match e.getAs T st i with
        | .ok y => y
        | .error _ => .other "") halloc (by
        intro i hi
        obtain ⟨y, hy⟩ := hv i hi
        simp [hy])⟩

/-- The temporary that holds a node: where `materializeTemp` returns for a node
`p` whose elements are left as they are by the conversion to their own type
and which has the size, the elements and the element type of `e`, its result
stands for `e`. -/
theorem materializeTemp_held (e p : Exp H) (st st2 : State H) (fresh f2 : Nat)
    (hf : fresh ≤ f2) (hg : State.grows fresh st st2) (hp : p.ready st2 f2)
    (hnorm : ∀ i x, p.get st2 i = .ok x → convert x.type x = .ok x)
    (hsize : p.size st2 = e.size st)
    (hget : ∀ i, i < e.size st → p.get st2 i = e.get st i)
    (hst : p.stored_type st2 = e.stored_type st)
    (res : Exp H × State H × Nat) (hok : materializeTemp st2 f2 p = .ok res) :
    e.heldBy st fresh res := by
  obtain ⟨hnames, halloc, htyped, hsizes, S, hS⟩ := hp
  unfold materializeTemp at hok
  simp only [hS] at hok
  have hal := Exp.allocated_of st2 p halloc
  cases ho : vector.ofExp S st2 p with
  | error err => simp [ho] at hok
  | ok vh =>
    obtain ⟨v, h⟩ := vh
    simp only [ho] at hok
    cases hok
    have hvals := vector.ofExp_vals S st2 p v h hal ho
    have hys : ∀ i, i < p.size st2 →
        p.get st2 i = .ok (p.valueAt st2 i) ∧ p.getAs S st2 i = .ok (p.valueAt st2 i) ∧
          (p.valueAt st2 i).type = S := by
      intro i hi
      obtain ⟨y, hy⟩ := hvals i hi
      unfold Exp.getAs at hy
      cases hx : p.get st2 i with
      | error err => simp [hx] at hy
      | ok x =>
        have ht := Exp.get_type st2 p htyped i x hx
        rw [hS] at ht
        have hxS : x.type = S := (Option.some.inj ht).symm
        have hn := hnorm i x hx
        rw [hxS] at hn
        simp [Exp.valueAt, Exp.getAs, hx, hn, hxS]
    have ho1 := vector.ofExp_eq S st2 p (p.valueAt st2) hal (fun i hi => (hys i hi).2.1)
    rw [ho] at ho1
    simp only [Except.ok.injEq, Prod.mk.injEq] at ho1
    obtain ⟨hv, hh⟩ := ho1
    subst hv hh
    refine ⟨f2, rfl, by show fresh ≤ f2 + 1; omega, by show f2 < f2 + 1; omega, ?_, ?_, ?_, ?_,
      ?_, ?_⟩
    · apply State.grows_trans fresh f2 st st2 _ hf hg
      refine ⟨?_, ?_, ?_⟩
      · intro id hid
        have hne : id ≠ f2 := by omega
        simp [Function.update_noteq hne]
      · intro a ha
        have hne : a ≠ st2.heap.next := by omega
        simp [Function.update_noteq hne]
      · show st2.heap.next ≤ st2.heap.next + 1
        omega
    · simp [hsize]
    · intro i hi
      rw [← hget i hi, (hys i (by rw [hsize]; exact hi)).1]
      simp only [Function.update_same, vector.get]
      exact read_filled _ _ _ _ (p.valueAt st2) i (by rw [hsize]; exact hi)
        (Function.update_same _ _ _)
    · intro a ha
      simp only [Function.update_same, Option.some.injEq] at ha
      subst ha
      show st2.heap.next < st2.heap.next + 1
      omega
    · intro i x hx
      simp only [Function.update_same, vector.get] at hx ⊢
      by_cases hi : i < p.size st2
      · have hr := read_filled (Function.update st2.heap.blocks st2.heap.next
          (some ((List.range' 0 (p.size st2)).map (fun j => some (p.valueAt st2 j)))))
          (st2.heap.next + 1) st2.heap.next (p.size st2) (p.valueAt st2) i hi
          (Function.update_same _ _ _)
        rw [hr] at hx
        cases hx
        exact (hys i hi).2.2
      · exfalso
        have hnone : (List.range' 0 (p.size st2))[i]? = none :=
          List.getElem?_eq_none (by simpa using hi)
        simp [Heap.read, hnone] at hx
    · simp only [Function.update_same]
      rw [← hst, hS]

theorem materializeTemp_total (p : Exp H) (st2 : State H) (f2 : Nat) (hp : p.ready st2 f2)
    (hnorm : ∀ i x, p.get st2 i = .ok x → convert x.type x = .ok x)
    (hvals : ∀ i, i < p.size st2 → ∃ x, p.get st2 i = .ok x) :
    ∃ res, materializeTemp st2 f2 p = .ok res := by
  obtain ⟨_, halloc, htyped, _, S, hS⟩ := hp
  have hal := Exp.allocated_of st2 p halloc
  have hex : ∃ v h, vector.ofExp S st2 p = .ok (v, h) := by
    rw [vector.ofExp_iff S st2 p hal]
    intro i hi
    obtain ⟨x, hx⟩ := hvals i hi
    have ht := Exp.get_type st2 p htyped i x hx
    rw [hS] at ht
    have hxS : x.type = S := (Option.some.inj ht).symm
    have hn := hnorm i x hx
    rw [hxS] at hn
    exact ⟨x, by simp [Exp.getAs, hx, hn]⟩
  obtain ⟨v, h, ho⟩ := hex
  exact ⟨(.vector f2, { vecs := Function.update st2.vecs f2 v, heap := h }, f2 + 1),
    by simp only [materializeTemp, hS, ho]⟩

theorem State.grows_get (fresh : Nat) (st st1 : State H) (hg : State.grows fresh st st1)
    (id : Nat) (hid : id < fresh)
    (hal : ∀ a, (st.vecs id).m_data = some a → a < st.heap.next) (i : Nat) :
    (st1.vecs id).get st1.heap i = (st.vecs id).get st.heap i := by
  have := Exp.get_frame (.vector id) st st1 i (by
    intro j hj
    simp only [Exp.leaves, List.mem_singleton] at hj
    subst hj
    exact ⟨hg.1 j hid, fun a ha => hg.2.1 a (hal a ha)⟩)
  simpa [Exp.get] using this

theorem Exp.ready_vv (op : Op) (l r : Exp H) (st : State H) (fresh : Nat)
    (h : (Exp.vec_vec_exp op l r).ready st fresh) :
    l.ready st fresh ∧ r.ready st fresh ∧ r.size st = l.size st := by
  obtain ⟨hnames, halloc, htyped, hsizes, S, hS⟩ := h
  have hrs : r.size st = l.size st := by
    obtain ⟨id, hid, hsz⟩ := Exp.size_mem_leaves st r
    rw [hsz]
    exact hsizes id (by simp [Exp.leaves, hid])
  simp only [Exp.stored_type] at hS
  cases hl : l.stored_type st with
  | none => simp [hl] at hS
  | some S1 =>
    cases hr : r.stored_type st with
    | none => simp [hl, hr] at hS
    | some S2 =>
      refine ⟨⟨fun id hid => hnames id (by simp [Exp.leaves, hid]),
        fun id hid => halloc id (by simp [Exp.leaves, hid]),
        fun id hid => htyped id (by simp [Exp.leaves, hid]),
        fun id hid => hsizes id (by simp [Exp.leaves, hid]), S1, hl⟩,
        ⟨fun id hid => hnames id (by simp [Exp.leaves, hid]),
        fun id hid => halloc id (by simp [Exp.leaves, hid]),
        fun id hid => htyped id (by simp [Exp.leaves, hid]),
        fun id hid => ?_, S2, hr⟩, hrs⟩
      rw [hrs]
      exact hsizes id (by simp [Exp.leaves, hid])

theorem Exp.ready_vs (op : Op) (l : Exp H) (k : Val H) (st : State H) (fresh : Nat)
    (h : (Exp.vec_scalar_exp op l k).ready st fresh) : l.ready st fresh := by
  obtain ⟨hnames, halloc, htyped, hsizes, S, hS⟩ := h
  simp only [Exp.stored_type] at hS
  cases hl : l.stored_type st with
  | none => simp [hl] at hS
  | some S1 => exact ⟨hnames, halloc, htyped, hsizes, S1, hl⟩

theorem Exp.ready_sv (op : Op) (k : Val H) (r : Exp H) (st : State H) (fresh : Nat)
    (h : (Exp.scalar_vec_exp op k r).ready st fresh) : r.ready st fresh := by
  obtain ⟨hnames, halloc, htyped, hsizes, S, hS⟩ := h
  simp only [Exp.stored_type] at hS
  cases hr : r.stored_type st with
  | none => simp [hr] at hS
  | some S1 => exact ⟨hnames, halloc, htyped, hsizes, S1, hr⟩

theorem Exp.norm_vv (op : Op) (l r : Exp H) (st : State H) (i : Nat) (x : Val H)
    (hx : (Exp.vec_vec_exp op l r).get st i = .ok x) : convert x.type x = .ok x := by
  simp only [Exp.get] at hx
  cases hl : l.get st i with
  | error e => simp [hl] at hx
  | ok a =>
    cases hr : r.get st i with
    | error e => simp [hl, hr] at hx
    | ok b =>
      simp only [hl, hr] at hx
      exact (op_call_type op a b x hx).2

theorem Exp.norm_vs (op : Op) (l : Exp H) (k : Val H) (st : State H) (i : Nat) (x : Val H)
    (hx : (Exp.vec_scalar_exp op l k).get st i = .ok x) : convert x.type x = .ok x := by
  simp only [Exp.get] at hx
  cases hl : l.get st i with
  | error e => simp [hl] at hx
  | ok a =>
    simp only [hl] at hx
    exact (op_call_type op a k x hx).2

theorem Exp.norm_sv (op : Op) (k : Val H) (r : Exp H) (st : State H) (i : Nat) (x : Val H)
    (hx : (Exp.scalar_vec_exp op k r).get st i = .ok x) : convert x.type x = .ok x := by
  simp only [Exp.get] at hx
  cases hr : r.get st i with
  | error e => simp [hr] at hx
  | ok b =>
    simp only [hr] at hx
    exact (op_call_type op k b x hx).2

theorem node_vs (op : Op) (l : Exp H) (k : Val H) (st st1 : State H) (fresh f1 idl : Nat)
    (hready : (Exp.vec_scalar_exp op l k).ready st fresh)
    (hl : l.heldBy st fresh (.vector idl, st1, f1)) :
    (Exp.vec_scalar_exp op (.vector idl) k).standsFor st1 f1 (.vec_scalar_exp op l k) st
      fresh := by
  obtain ⟨id1, h1, hf, hlt, hg, hsz, hgets, hal, hty, hstt⟩ := hl
  dsimp only at h1 hf hlt hg hsz hgets hal hty hstt
  simp only [Exp.vector.injEq] at h1
  subst h1
  have hst : (Exp.vec_scalar_exp op (.vector idl) k).stored_type st1 =
      (Exp.vec_scalar_exp op l k).stored_type st := by
    simp [Exp.stored_type, hstt]
  refine ⟨hf, hg, ⟨?_, ?_, ?_, ?_, ?_⟩, hsz, ?_, hst⟩
  · intro id hid
    simp only [Exp.leaves, List.mem_singleton] at hid
    subst hid
    exact hlt
  · intro id hid
    simp only [Exp.leaves, List.mem_singleton] at hid
    subst hid
    exact hal
  · intro id hid
    simp only [Exp.leaves, List.mem_singleton] at hid
    subst hid
    exact hty
  · intro id hid
    simp only [Exp.leaves, List.mem_singleton] at hid
    subst hid
    rfl
  · rw [hst]
    exact hready.2.2.2.2
  · intro i hi
    simp only [Exp.get]
    rw [hgets i hi]

theorem node_sv (op : Op) (k : Val H) (r : Exp H) (st st1 : State H) (fresh f1 idr : Nat)
    (hready : (Exp.scalar_vec_exp op k r).ready st fresh)
    (hr : r.heldBy st fresh (.vector idr, st1, f1)) :
    (Exp.scalar_vec_exp op k (.vector idr)).standsFor st1 f1 (.scalar_vec_exp op k r) st
      fresh := by
  obtain ⟨id1, h1, hf, hlt, hg, hsz, hgets, hal, hty, hstt⟩ := hr
  dsimp only at h1 hf hlt hg hsz hgets hal hty hstt
  simp only [Exp.vector.injEq] at h1
  subst h1
  have hst : (Exp.scalar_vec_exp op k (.vector idr)).stored_type st1 =
      (Exp.scalar_vec_exp op k r).stored_type st := by
    simp [Exp.stored_type, hstt]
  refine ⟨hf, hg, ⟨?_, ?_, ?_, ?_, ?_⟩, hsz, ?_, hst⟩
  · intro id hid
    simp only [Exp.leaves, List.mem_singleton] at hid
    subst hid
    exact hlt
  · intro id hid
    simp only [Exp.leaves, List.mem_singleton] at hid
    subst hid
    exact hal
  · intro id hid
    simp only [Exp.leaves, List.mem_singleton] at hid
    subst hid
    exact hty
  · intro id hid
    simp only [Exp.leaves, List.mem_singleton] at hid
    subst hid
    rfl
  · rw [hst]
    exact hready.2.2.2.2
  · intro i hi
    simp only [Exp.get]
    rw [hgets i hi]

theorem node_vv (op : Op) (l r : Exp H) (st st1 st2 : State H) (fresh f1 f2 idl idr : Nat)
    (hready : (Exp.vec_vec_exp op l r).ready st fresh)
    (hl : l.heldBy st fresh (.vector idl, st1, f1))
    (hr : r.heldBy st1 f1 (.vector idr, st2, f2)) :
    new_vec_vec_exp st2 op (.vector idl) (.vector idr) =
        .ok (.vec_vec_exp op (.vector idl) (.vector idr)) ∧
      (Exp.vec_vec_exp op (.vector idl) (.vector idr)).standsFor st2 f2 (.vec_vec_exp op l r)
        st fresh := by
  obtain ⟨_, hrr, hrs⟩ := Exp.ready_vv op l r st fresh hready
  obtain ⟨id1, h1, hf1, hlt1, hg1, hsz1, hgets1, hal1, hty1, hstt1⟩ := hl
  dsimp only at h1 hf1 hlt1 hg1 hsz1 hgets1 hal1 hty1 hstt1
  simp only [Exp.vector.injEq] at h1
  subst h1
  obtain ⟨_, hrsz, hrget, hrst⟩ := Exp.ready_grows r st st1 fresh f1 hf1 hrr hg1
  obtain ⟨id2, h2, hf2, hlt2, hg2, hsz2, hgets2, hal2, hty2, hstt2⟩ := hr
  dsimp only at h2 hf2 hlt2 hg2 hsz2 hgets2 hal2 hty2 hstt2
  simp only [Exp.vector.injEq] at h2
  subst h2
  have hvl : st2.vecs idl = st1.vecs idl := hg2.1 idl hlt1
  have hgl : ∀ i, (st2.vecs idl).get st2.heap i = (st1.vecs idl).get st1.heap i :=
    State.grows_get f1 st1 st2 hg2 idl hlt1 hal1
  have hsl : (st2.vecs idl).m_size = l.size st := by rw [hvl, hsz1]
  have hsr : (st2.vecs idr).m_size = l.size st := by rw [hsz2, hrsz, hrs]
  have hst : (Exp.vec_vec_exp op (.vector idl) (.vector idr)).stored_type st2 =
      (Exp.vec_vec_exp op l r).stored_type st := by
    simp [Exp.stored_type, hstt1, ← hrst, hstt2, hvl]
  refine ⟨by simp [new_vec_vec_exp, Exp.size, hsl, hsr], by omega,
    State.grows_trans fresh f1 st st1 st2 hf1 hg1 hg2, ⟨?_, ?_, ?_, ?_, ?_⟩, hsl, ?_, hst⟩
  · intro id hid
    simp only [Exp.leaves, List.mem_append, List.mem_singleton] at hid
    rcases hid with hid | hid
    · subst hid; omega
    · subst hid; exact hlt2
  · intro id hid a ha
    simp only [Exp.leaves, List.mem_append, List.mem_singleton] at hid
    rcases hid with hid | hid
    · subst hid
      rw [hvl] at ha
      have := hal1 a ha
      have := hg2.2.2
      omega
    · subst hid; exact hal2 a ha
  · intro id hid i x hx
    simp only [Exp.leaves, List.mem_append, List.mem_singleton] at hid
    rcases hid with hid | hid
    · subst hid
      rw [hgl i] at hx
      rw [hvl]
      exact hty1 i x hx
    · subst hid; exact hty2 i x hx
  · intro id hid
    simp only [Exp.leaves, List.mem_append, List.mem_singleton] at hid
    rcases hid with hid | hid
    · subst hid; rfl
    · subst hid
      show (st2.vecs id).m_size = (st2.vecs idl).m_size
      rw [hsr, hsl]
  · rw [hst]
    exact hready.2.2.2.2
  · intro i hi
    have hi2 : i < r.size st1 := by
      rw [hrsz, hrs]
      exact hi
    simp only [Exp.get]
    rw [hgl i, hgets1 i hi, hgets2 i hi2, hrget i]

theorem Exp.heldBy_vector (e : Exp H) (st : State H) (fresh : Nat)
    (res : Exp H × State H × Nat) (h : e.heldBy st fresh res) :
    ∃ id1 st1 f1, res = (.vector id1, st1, f1) := by
  obtain ⟨id1, h1, _⟩ := h
  obtain ⟨r1, st1, f1⟩ := res
  dsimp only at h1
  subst h1
  exact ⟨id1, st1, f1, rfl⟩

/-- Where the eager evaluation of an operand returns, its result stands for the
operand. -/
theorem eagerOperand_held (e : Exp H) :
    ∀ (st : State H) (fresh : Nat), e.ready st fresh →
      ∀ res, eagerOperand st fresh e = .ok res → e.heldBy st fresh res := by
  induction e with
  | vector id =>
    intro st fresh hready res hok
    simp only [eagerOperand] at hok
    cases hok
    obtain ⟨hnames, halloc, htyped, _, _⟩ := hready
    exact ⟨id, rfl, le_refl _, hnames id (by simp [Exp.leaves]), State.grows_refl fresh st, rfl,
      fun _ _ => rfl, halloc id (by simp [Exp.leaves]), htyped id (by simp [Exp.leaves]), rfl⟩
  | vec_vec_exp op l r ihl ihr =>
    intro st fresh hready res hok
    obtain ⟨hlr, hrr, _⟩ := Exp.ready_vv op l r st fresh hready
    simp only [eagerOperand] at hok
    cases hel : eagerOperand st fresh l with
    | error err => simp [hel] at hok
    | ok resl =>
      have hhl := ihl st fresh hlr resl hel
      obtain ⟨idl, st1, f1, rfl⟩ := Exp.heldBy_vector l st fresh resl hhl
      simp only [hel] at hok
      have hrr1 := (Exp.ready_grows r st st1 fresh f1 hhl.choose_spec.2.1 hrr
        hhl.choose_spec.2.2.2.1).1
      cases her : eagerOperand st1 f1 r with
      | error err => simp [her] at hok
      | ok resr =>
        have hhr := ihr st1 f1 hrr1 resr her
        obtain ⟨idr, st2, f2, rfl⟩ := Exp.heldBy_vector r st1 f1 resr hhr
        simp only [her] at hok
        obtain ⟨hnew, hf, hg, hp, hsize, hget, hst⟩ :=
          node_vv op l r st st1 st2 fresh f1 f2 idl idr hready hhl hhr
        simp only [hnew] at hok
        exact materializeTemp_held (.vec_vec_exp op l r) _ st st2 fresh f2 hf hg hp
          (Exp.norm_vv op _ _ st2) hsize hget hst res hok
  | vec_scalar_exp op l k ihl =>
    intro st fresh hready res hok
    have hlr := Exp.ready_vs op l k st fresh hready
    simp only [eagerOperand] at hok
    cases hel : eagerOperand st fresh l with
    | error err => simp [hel] at hok
    | ok resl =>
      have hhl := ihl st fresh hlr resl hel
      obtain ⟨idl, st1, f1, rfl⟩ := Exp.heldBy_vector l st fresh resl hhl
      simp only [hel, new_vec_scalar_exp] at hok
      obtain ⟨hf, hg, hp, hsize, hget, hst⟩ := node_vs op l k st st1 fresh f1 idl hready hhl
      exact materializeTemp_held (.vec_scalar_exp op l k) _ st st1 fresh f1 hf hg hp
        (Exp.norm_vs op _ k st1) hsize hget hst res hok
  | scalar_vec_exp op k r ihr =>
    intro st fresh hready res hok
    have hrr := Exp.ready_sv op k r st fresh hready
    simp only [eagerOperand] at hok
    cases her : eagerOperand st fresh r with
    | error err => simp [her] at hok
    | ok resr =>
      have hhr := ihr st fresh hrr resr her
      obtain ⟨idr, st1, f1, rfl⟩ := Exp.heldBy_vector r st fresh resr hhr
      simp only [her, new_scalar_vec_exp] at hok
      obtain ⟨hf, hg, hp, hsize, hget, hst⟩ := node_sv op k r st st1 fresh f1 idr hready hhr
      exact materializeTemp_held (.scalar_vec_exp op k r) _ st st1 fresh f1 hf hg hp
        (Exp.norm_sv op k _ st1) hsize hget hst res hok

theorem Exp.vals_vv (op : Op) (l r : Exp H) (st : State H) (i : Nat) (x : Val H)
    (hx : (Exp.vec_vec_exp op l r).get st i = .ok x) :
    (∃ a, l.get st i = .ok a) ∧ (∃ b, r.get st i = .ok b) := by
  simp only [Exp.get] at hx
  cases hl : l.get st i with
  | error e => simp [hl] at hx
  | ok a =>
    cases hr : r.get st i with
    | error e => simp [hl, hr] at hx
    | ok b => exact ⟨⟨a, rfl⟩, ⟨b, rfl⟩⟩

theorem Exp.vals_vs (op : Op) (l : Exp H) (k : Val H) (st : State H) (i : Nat) (x : Val H)
    (hx : (Exp.vec_scalar_exp op l k).get st i = .ok x) : ∃ a, l.get st i = .ok a := by
  simp only [Exp.get] at hx
  cases hl : l.get st i with
  | error e => simp [hl] at hx
  | ok a => exact ⟨a, rfl⟩

theorem Exp.vals_sv (op : Op) (k : Val H) (r : Exp H) (st : State H) (i : Nat) (x : Val H)
    (hx : (Exp.scalar_vec_exp op k r).get st i = .ok x) : ∃ b, r.get st i = .ok b := by
  simp only [Exp.get] at hx
  cases hr : r.get st i with
  | error e => simp [hr] at hx
  | ok b => exact ⟨b, rfl⟩

/-- The eager evaluation of an operand returns whenever each element of the
operand has a value. -/
theorem eagerOperand_total (e : Exp H) :
    ∀ (st : State H) (fresh : Nat), e.ready st fresh →
      (∀ i, i < e.size st → ∃ x, e.get st i = .ok x) →
      ∃ res, eagerOperand st fresh e = .ok res := by
  induction e with
  | vector id =>
    intro st fresh _ _
    exact ⟨(.vector id, st, fresh), rfl⟩
  | vec_vec_exp op l r ihl ihr =>
    intro st fresh hready hvals
    obtain ⟨hlr, hrr, hrs⟩ := Exp.ready_vv op l r st fresh hready
    obtain ⟨resl, hel⟩ := ihl st fresh hlr (fun i hi => by
      obtain ⟨x, hx⟩ := hvals i hi
      exact (Exp.vals_vv op l r st i x hx).1)
    have hhl := eagerOperand_held l st fresh hlr resl hel
    obtain ⟨idl, st1, f1, rfl⟩ := Exp.heldBy_vector l st fresh resl hhl
    obtain ⟨hrr1, hrsz, hrget, _⟩ := Exp.ready_grows r st st1 fresh f1 hhl.choose_spec.2.1 hrr
      hhl.choose_spec.2.2.2.1
    obtain ⟨resr, her⟩ := ihr st1 f1 hrr1 (fun i hi => by
      rw [hrsz, hrs] at hi
      obtain ⟨x, hx⟩ := hvals i hi
      rw [hrget i]
      exact (Exp.vals_vv op l r st i x hx).2)
    have hhr := eagerOperand_held r st1 f1 hrr1 resr her
    obtain ⟨idr, st2, f2, rfl⟩ := Exp.heldBy_vector r st1 f1 resr hhr
    obtain ⟨hnew, hf, hg, hp, hsize, hget, hst⟩ :=
      node_vv op l r st st1 st2 fresh f1 f2 idl idr hready hhl hhr
    obtain ⟨res, hres⟩ := materializeTemp_total _ st2 f2 hp (Exp.norm_vv op _ _ st2)
      (fun i hi => by
        rw [hsize] at hi
        rw [hget i hi]
        exact hvals i hi)
    exact ⟨res, by simp only [eagerOperand, hel, her, hnew, hres]⟩
  | vec_scalar_exp op l k ihl =>
    intro st fresh hready hvals
    have hlr := Exp.ready_vs op l k st fresh hready
    obtain ⟨resl, hel⟩ := ihl st fresh hlr (fun i hi => by
      obtain ⟨x, hx⟩ := hvals i hi
      exact Exp.vals_vs op l k st i x hx)
    have hhl := eagerOperand_held l st fresh hlr resl hel
    obtain ⟨idl, st1, f1, rfl⟩ := Exp.heldBy_vector l st fresh resl hhl
    obtain ⟨hf, hg, hp, hsize, hget, hst⟩ := node_vs op l k st st1 fresh f1 idl hready hhl
    obtain ⟨res, hres⟩ := materializeTemp_total _ st1 f1 hp (Exp.norm_vs op _ k st1)
      (fun i hi => by
        rw [hsize] at hi
        rw [hget i hi]
        exact hvals i hi)
    exact ⟨res, by simp only [eagerOperand, hel, new_vec_scalar_exp, hres]⟩
  | scalar_vec_exp op k r ihr =>
    intro st fresh hready hvals
    have hrr := Exp.ready_sv op k r st fresh hready
    obtain ⟨resr, her⟩ := ihr st fresh hrr (fun i hi => by
      obtain ⟨x, hx⟩ := hvals i hi
      exact Exp.vals_sv op k r st i x hx)
    have hhr := eagerOperand_held r st fresh hrr resr her
    obtain ⟨idr, st1, f1, rfl⟩ := Exp.heldBy_vector r st fresh resr hhr
    obtain ⟨hf, hg, hp, hsize, hget, hst⟩ := node_sv op k r st st1 fresh f1 idr hready hhr
    obtain ⟨res, hres⟩ := materializeTemp_total _ st1 f1 hp (Exp.norm_sv op k _ st1)
      (fun i hi => by
        rw [hsize] at hi
        rw [hget i hi]
        exact hvals i hi)
    exact ⟨res, by simp only [eagerOperand, her, new_scalar_vec_exp, hres]⟩

theorem vector.typed_get (h : Heap H) (v : vector) (ht : v.typed h = true) (i : Nat)
    (x : Val H) (hx : v.get h i = .ok x) : x.type = v.stored := by
  unfold vector.typed at ht
  unfold vector.get Heap.read at hx
  cases hd : v.m_data with
  | none => simp [hd] at hx
  | some a =>
    simp only [hd] at hx ht
    cases hb : h.blocks a with
    | none => simp [hb] at hx
    | some b =>
      simp only [hb] at hx ht
      cases hg : b[i]? with
      | none => simp [hg] at hx
      | some c =>
        cases c with
        | none => simp [hg] at hx
        | some y =>
          simp only [List.get?_eq_getElem?, hg, Except.ok.injEq] at hx
          subst hx
          have hmem : some y ∈ b := List.getElem?_mem hg
          have := List.all_eq_true.mp ht (some y) hmem
          simpa using this

theorem Exp.rebuild_sizes (st : State H) (e : Exp H) (h : e.rebuild st = .ok e) :
    ∀ id ∈ e.leaves, (st.vecs id).m_size = e.size st := by
  induction e with
  | vector id =>
    intro j hj
    simp only [Exp.leaves, List.mem_singleton] at hj
    subst hj
    rfl
  | vec_vec_exp op l r ihl ihr =>
    simp only [Exp.rebuild] at h
    cases hl : l.rebuild st with
    | error err => simp [hl] at h
    | ok l1 =>
      cases hr : r.rebuild st with
      | error err => simp [hl, hr] at h
      | ok r1 =>
        simp only [hl, hr, new_vec_vec_exp] at h
        split at h
        · cases h
        · rename_i hsz
          simp only [Except.ok.injEq, Exp.vec_vec_exp.injEq, true_and] at h
          obtain ⟨h1, h2⟩ := h
          subst h1 h2
          have hsz1 : l1.size st = r1.size st := by
            by_contra hne
            exact hsz hne
          intro id hid
          simp only [Exp.leaves, List.mem_append] at hid
          rcases hid with hid | hid
          · exact ihl hl id hid
          · show (st.vecs id).m_size = l1.size st
            rw [hsz1]
            exact ihr hr id hid
  | vec_scalar_exp op l k ihl =>
    simp only [Exp.rebuild] at h
    cases hl : l.rebuild st with
    | error err => simp [hl] at h
    | ok l1 =>
      simp only [hl, new_vec_scalar_exp, Except.ok.injEq, Exp.vec_scalar_exp.injEq, true_and,
        and_true] at h
      subst h
      exact ihl hl
  | scalar_vec_exp op k r ihr =>
    simp only [Exp.rebuild] at h
    cases hr : r.rebuild st with
    | error err => simp [hr] at h
    | ok r1 =>
      simp only [hr, new_scalar_vec_exp, Except.ok.injEq, Exp.scalar_vec_exp.injEq, true_and]
        at h
      subst h
      exact ihr hr

/-- A tree the constructors accept, over vectors with names below `fresh` that
hold addresses `new` handed out and values of their element types, and with
an element type, is ready. -/
theorem Exp.ready_of (st : State H) (fresh : Nat) (e : Exp H)
    (hbuilt : e.rebuild st = .ok e) (hnames : ∀ id ∈ e.leaves, id < fresh)
    (halloc : e.allocated st = true) (htyped : e.typed st = true)
    (hstat : (e.stored_type st).isSome = true) : e.ready st fresh := by
  refine ⟨hnames, fun id hid a ha => Exp.allocated_lt st e halloc id hid a ha, ?_,
    Exp.rebuild_sizes st e hbuilt, Option.isSome_iff_exists.mp hstat⟩
  intro id hid i x hx
  exact vector.typed_get st.heap (st.vecs id) (List.all_eq_true.mp htyped id hid) i x hx

/-- Two expressions of the same size and with the same elements, each in its own
state, are materialized alike: where one constructor returns the other
returns, with a vector of the same size and the same elements. -/
theorem vector.ofExp_transfer (T : CType) (st st2 : State H) (e p : Exp H)
    (hal : e.allocated st = true) (hal2 : p.allocated st2 = true)
    (hsize : p.size st2 = e.size st)
    (hget : ∀ i, i < e.size st → p.get st2 i = e.get st i) :
    (∀ v h, vector.ofExp T st e = .ok (v, h) →
      ∃ v1 h1, vector.ofExp T st2 p = .ok (v1, h1) ∧ v1.stored = v.stored ∧
        v1.m_size = v.m_size ∧
        ∀ i, i < v.m_size → ∃ x, v.get h i = .ok x ∧ v1.get h1 i = .ok x) ∧
    ((∃ v1 h1, vector.ofExp T st2 p = .ok (v1, h1)) →
      ∃ v h, vector.ofExp T st e = .ok (v, h)) := by
  have hgetAs : ∀ i, i < e.size st → p.getAs T st2 i = e.getAs T st i := by
    intro i hi
    simp only [Exp.getAs, hget i hi]
  constructor
  · intro v h hok
    have hv := vector.ofExp_vals T st e v h hal hok
    have hys : ∀ i, i < e.size st → e.getAs T st i = .ok
        (match e.getAs T st i with
          | .ok y => y
          | .error _ => .other "") := by
      intro i hi
      obtain ⟨y, hy⟩ := hv i hi
      simp [hy]
    have ho := vector.ofExp_eq T st e _ hal hys
    rw [hok] at ho
    simp only [Except.ok.injEq, Prod.mk.injEq] at ho
    obtain ⟨hv1, hh1⟩ := ho
    subst hv1 hh1
    have ho2 := vector.ofExp_eq T st2 p
      (fun i => match e.getAs T st i with
        | .ok y => y
        | .error _ => .other "") hal2 (by
        intro i hi
        rw [hsize] at hi
        rw [hgetAs i hi]
        exact hys i hi)
    refine ⟨_, _, ho2, rfl, hsize, ?_⟩
    intro i hi
    refine ⟨_, read_filled _ _ _ _ _ i hi (Function.update_same _ _ _), ?_⟩
    exact read_filled _ _ _ _
      (fun i => match e.getAs T st i with
        | .ok y => y
        | .error _ => .other "") i (by rw [hsize]; exact hi) (Function.update_same _ _ _)
  · intro hex
    rw [vector.ofExp_iff T st2 p hal2] at hex
    rw [vector.ofExp_iff T st e hal]
    intro i hi
    rw [← hgetAs i hi]
    exact hex i (by rw [hsize]; exact hi)

/-- The eager procedure either comes to its last step, the materialization of a
root node that has the size and the elements of the tree, or it fails
before, at an operand, and then an element of the tree has no value. -/
theorem eagerMaterialize_root (T : CType) (st : State H) (fresh : Nat) (e : Exp H)
    (hready : e.ready st fresh) :
    (∃ p st2, eagerMaterialize T st fresh e = vector.ofExp T st2 p ∧
        p.allocated st2 = true ∧ p.size st2 = e.size st ∧
        ∀ i, i < e.size st → p.get st2 i = e.get st i) ∨
      ((∃ err, eagerMaterialize T st fresh e = .error err) ∧
        ¬ ∀ i, i < e.size st → ∃ x, e.get st i = .ok x) := by
  cases e with
  | vector id =>
    exact Or.inl ⟨.vector id, st, rfl, Exp.allocated_of st _ hready.2.1, rfl, fun _ _ => rfl⟩
  | vec_vec_exp op l r =>
    obtain ⟨hlr, hrr, hrs⟩ := Exp.ready_vv op l r st fresh hready
    cases hel : eagerOperand st fresh l with
    | error err =>
      refine Or.inr ⟨⟨err, by simp only [eagerMaterialize, hel]⟩, fun hvals => ?_⟩
      obtain ⟨res, hres⟩ := eagerOperand_total l st fresh hlr (fun i hi => by
        obtain ⟨x, hx⟩ := hvals i hi
        exact (Exp.vals_vv op l r st i x hx).1)
      rw [hel] at hres
      cases hres
    | ok resl =>
      have hhl := eagerOperand_held l st fresh hlr resl hel
      obtain ⟨idl, st1, f1, rfl⟩ := Exp.heldBy_vector l st fresh resl hhl
      obtain ⟨hrr1, hrsz, hrget, _⟩ := Exp.ready_grows r st st1 fresh f1
        hhl.choose_spec.2.1 hrr hhl.choose_spec.2.2.2.1
      cases her : eagerOperand st1 f1 r with
      | error err =>
        refine Or.inr ⟨⟨err, by simp only [eagerMaterialize, hel, her]⟩, fun hvals => ?_⟩
        obtain ⟨res, hres⟩ := eagerOperand_total r st1 f1 hrr1 (fun i hi => by
          rw [hrsz, hrs] at hi
          obtain ⟨x, hx⟩ := hvals i hi
          rw [hrget i]
          exact (Exp.vals_vv op l r st i x hx).2)
        rw [her] at hres
        cases hres
      | ok resr =>
        have hhr := eagerOperand_held r st1 f1 hrr1 resr her
        obtain ⟨idr, st2, f2, rfl⟩ := Exp.heldBy_vector r st1 f1 resr hhr
        obtain ⟨hnew, _, _, hp, hsize, hget, _⟩ :=
          node_vv op l r st st1 st2 fresh f1 f2 idl idr hready hhl hhr
        exact Or.inl ⟨_, st2, by simp only [eagerMaterialize, hel, her, hnew],
          Exp.allocated_of st2 _ hp.2.1, hsize, hget⟩
  | vec_scalar_exp op l k =>
    have hlr := Exp.ready_vs op l k st fresh hready
    cases hel : eagerOperand st fresh l with
    | error err =>
      refine Or.inr ⟨⟨err, by simp only [eagerMaterialize, hel]⟩, fun hvals => ?_⟩
      obtain ⟨res, hres⟩ := eagerOperand_total l st fresh hlr (fun i hi => by
        obtain ⟨x, hx⟩ := hvals i hi
        exact Exp.vals_vs op l k st i x hx)
      rw [hel] at hres
      cases hres
    | ok resl =>
      have hhl := eagerOperand_held l st fresh hlr resl hel
      obtain ⟨idl, st1, f1, rfl⟩ := Exp.heldBy_vector l st fresh resl hhl
      obtain ⟨_, _, hp, hsize, hget, _⟩ := node_vs op l k st st1 fresh f1 idl hready hhl
      exact Or.inl ⟨_, st1, by simp only [eagerMaterialize, hel, new_vec_scalar_exp],
        Exp.allocated_of st1 _ hp.2.1, hsize, hget⟩
  | scalar_vec_exp op k r =>
    have hrr := Exp.ready_sv op k r st fresh hready
    cases her : eagerOperand st fresh r with
    | error err =>
      refine Or.inr ⟨⟨err, by simp only [eagerMaterialize, her]⟩, fun hvals => ?_⟩
      obtain ⟨res, hres⟩ := eagerOperand_total r st fresh hrr (fun i hi => by
        obtain ⟨x, hx⟩ := hvals i hi
        exact Exp.vals_sv op k r st i x hx)
      rw [her] at hres
      cases hres
    | ok resr =>
      have hhr := eagerOperand_held r st fresh hrr resr her
      obtain ⟨idr, st1, f1, rfl⟩ := Exp.heldBy_vector r st fresh resr hhr
      obtain ⟨_, _, hp, hsize, hget, _⟩ := node_sv op k r st st1 fresh f1 idr hready hhr
      exact Or.inl ⟨_, st1, by simp only [eagerMaterialize, her, new_scalar_vec_exp],
        Exp.allocated_of st1 _ hp.2.1, hsize, hget⟩

/-- Claim C20. Fused evaluation equals eager evaluation.  For a tree `e` that the
constructors accept and that has an element type, over vectors that hold
values of their element types, and for every destination element type `T`:
where the constructor of `vector<T>` from `e` returns, the eager procedure (each
inner node into a temporary vector of the element type of the node, bottom-up,
then the root node over these temporaries into a `vector<T>`) returns a vector
of the same element type, the same size and the same elements; and where the
eager procedure returns, the constructor from `e` returns too. -/
theorem fused_equals_eager (T : CType) (st : State H) (fresh : Nat) (e : Exp H)
    (hbuilt : e.rebuild st = .ok e) (hnames : ∀ id ∈ e.leaves, id < fresh)
    (halloc : e.allocated st = true) (htyped : e.typed st = true)
    (hstat : (e.stored_type st).isSome = true) :
    (∀ v h, vector.ofExp T st e = .ok (v, h) →
      ∃ v1 h1, eagerMaterialize T st fresh e = .ok (v1, h1) ∧ v1.stored = v.stored ∧
        v1.m_size = v.m_size ∧
        ∀ i, i < v.m_size → ∃ x, v.get h i = .ok x ∧ v1.get h1 i = .ok x) ∧
    (∀ v1 h1, eagerMaterialize T st fresh e = .ok (v1, h1) →
      ∃ v h, vector.ofExp T st e = .ok (v, h)) := by
  have hready := Exp.ready_of st fresh e hbuilt hnames halloc htyped hstat
  rcases eagerMaterialize_root T st fresh e hready with
    ⟨p, st2, heq, hal2, hsize, hget⟩ | ⟨⟨err, herr⟩, hno⟩
  · obtain ⟨h1, h2⟩ := vector.ofExp_transfer T st st2 e p halloc hal2 hsize hget
    rw [heq]
    exact ⟨h1, fun v1 h3 hok => h2 ⟨v1, h3, hok⟩⟩
  · constructor
    · intro v h hok
      exfalso
      apply hno
      intro i hi
      obtain ⟨y, hy⟩ := vector.ofExp_vals T st e v h halloc hok i hi
      unfold Exp.getAs at hy
      cases hx : e.get st i with
      | error err1 => simp [hx] at hy
      | ok x => exact ⟨x, rfl⟩
    · intro v1 h1 hok
      rw [herr] at hok
      cases hok

/-- With `a = [100, 100]` of `char` and `b = [2, 3]` of `short`, the eager evaluation of
`(a + a) * b` into a vector of `int`, through a temporary of `char` for `a + a`, gives
`[-112, -168]`, as the constructor from the expression does. -/
theorem fused_equals_eager_witness :
    (vector.ofExp .int mixedState mixedTree).map
        (fun r => (List.range 2).map (r.1.get r.2)) =
      .ok [.ok (.int .int (-112)), .ok (.int .int (-168))] ∧
    ∃ (v1 : vector) (h1 : Heap exactHost),
      eagerMaterialize .int mixedState 2 mixedTree = .ok (v1, h1) ∧ v1.m_size = 2 ∧
      (List.range 2).map (v1.get h1) = [.ok (.int .int (-112)), .ok (.int .int (-168))] := by
  have hf := vector.ofExp_eq (H := exactHost) .int mixedState mixedTree
    (fun i => .int .int ([-112, -168].getD i 0)) (by decide) (by decide)
  obtain ⟨v1, h1, hok, _, hsize, hget⟩ :=
    (fused_equals_eager (H := exactHost) .int mixedState 2 mixedTree rfl (by decide)
      (by decide) (by decide) (by decide)).1 _ _ hf
  refine ⟨by decide, v1, h1, hok, hsize.trans rfl, ?_⟩
  obtain ⟨x0, hx0, hy0⟩ := hget 0 (by decide)
  obtain ⟨x1, hx1, hy1⟩ := hget 1 (by decide)
  have e0 := hx0.symm.trans (read_filled _ _ _ _ _ 0 (by decide) (Function.update_same _ _ _))
  have e1 := hx1.symm.trans (read_filled _ _ _ _ _ 1 (by decide) (Function.update_same _ _ _))
  simp only [Except.ok.injEq] at e0 e1
  subst e0 e1
  simp [List.range, List.range.loop, hy0, hy1]

end et
